import Mathlib

/-!
# libfixmath: Q16.16 fixed-point kernel

A shallow embedding of `src/src/fix16.c`, `src/src/fix16_sqrt.c`, `src/src/fix16_str.c` and
`src/src/fract32.c`.  A `fix16_t` (C
`int32_t`) is an `Int` in `[-2^31, 2^31)`, a `uint32_t` is a `Nat` below `2^32`; every
conversion and every operation that can leave the machine range is reduced modulo `2^32` (or
`2^64`) explicitly.  A `while` loop is a recursion on a fuel argument that answers `none`
when the fuel runs out.
-/

namespace Fixmath

/-! ## Machine integers -/

/-- The predicate "fits an `int32_t`". -/
def isI32 (x : Int) : Prop := -2147483648 ≤ x ∧ x ≤ 2147483647

instance (x : Int) : Decidable (isI32 x) := by unfold isI32; infer_instance

/-- C conversion `(uint32_t)x`: the residue modulo `2^32`. -/
def toU32 (x : Int) : Nat := (x % 4294967296).toNat

/-- C conversion `(int32_t)u` (two's complement): residues of `2^31` and above are negative. -/
def toI32 (u : Nat) : Int :=
  if u % 4294967296 < 2147483648 then ((u % 4294967296 : Nat) : Int)
  else ((u % 4294967296 : Nat) : Int) - 4294967296

/-- A signed 32-bit result taken modulo `2^32`. -/
def wrapI32 (x : Int) : Int := toI32 (toU32 x)

/-- C conversion `(uint64_t)x`: the residue modulo `2^64`. -/
def toU64 (x : Int) : Nat := (x % 18446744073709551616).toNat

/-- A signed 64-bit result taken modulo `2^64`. -/
def wrapI64 (x : Int) : Int :=
  if toU64 x < 9223372036854775808 then ((toU64 x : Nat) : Int)
  else ((toU64 x : Nat) : Int) - 18446744073709551616

/-! ## Constants of `fix16.h` -/

/-- Modelled from the spec: `fix16_maximum` of the header `fix16.h`, the bit pattern
`0x7FFFFFFF`. -/
def fix16_maximum : Int := 2147483647

/-- Modelled from the spec: `fix16_minimum` of the header `fix16.h`, the bit pattern
`0x80000000`. -/
def fix16_minimum : Int := -2147483648

/-- Modelled from the spec: `fix16_overflow` of the header `fix16.h`, bit-identical to
`fix16_minimum` (`0x80000000`). -/
def fix16_overflow : Int := -2147483648

/-- Modelled from the spec: `fix_abs` of the header `fix16.h`, the absolute value as a
`uint32_t`, with `fix_abs(0x80000000) = 0x80000000`. -/
def fix_abs (x : Int) : Nat := if x < 0 then toU32 (-x) else toU32 x

/-! ## Addition and subtraction (`fix16.c`, lines 72-133) -/

/-- `fix16_add`: unsigned wrap-around sum, with the sign-bit overflow test. -/
def fix16_add (a b : Int) : Int :=
  let _a : Nat := toU32 a
  let _b : Nat := toU32 b
  let sum : Nat := (_a + _b) % 4294967296
  let retval : Int := toI32 sum
  if ¬ ((_a ^^^ _b) &&& 0x80000000 ≠ 0) ∧ ((_a ^^^ sum) &&& 0x80000000 ≠ 0) then
    fix16_overflow
  else
    retval

/-- `fix16_sub`: unsigned wrap-around difference, with the sign-bit overflow test. -/
def fix16_sub (a b : Int) : Int :=
  let _a : Nat := toU32 a
  let _b : Nat := toU32 b
  let diff : Nat := (_a + 4294967296 - _b) % 4294967296
  let retval : Int := toI32 diff
  if ((_a ^^^ _b) &&& 0x80000000 ≠ 0) ∧ ((_a ^^^ diff) &&& 0x80000000 ≠ 0) then
    fix16_overflow
  else
    retval

/-- `fix16_sadd`: saturating wrapper around `fix16_add`. -/
def fix16_sadd (a b : Int) : Int :=
  let result := fix16_add a b
  if result = fix16_overflow then
    (if a ≥ 0 then fix16_maximum else fix16_minimum)
  else
    result

/-- `fix16_ssub`: saturating wrapper around `fix16_sub`. -/
def fix16_ssub (a b : Int) : Int :=
  let result := fix16_sub a b
  if result = fix16_overflow then
    (if a ≥ 0 then fix16_maximum else fix16_minimum)
  else
    result

/-- Clamping of an exact integer result to `[fix16_minimum, fix16_maximum]`. -/
def clamp (x : Int) : Int :=
  if x < fix16_minimum then fix16_minimum
  else if fix16_maximum < x then fix16_maximum
  else x

/-! ## Signed shifts (`fix16.c`, lines 19-66) -/

/-- `signed_shift_right`: arithmetic shift right; a negative count shifts left. -/
def signed_shift_right (value shift : Int) : Int :=
  if shift < 0 then wrapI32 (value * 2 ^ (-shift).toNat) else value >>> shift.toNat

/-- `signed_shift_left`: shift left modulo `2^32`; a negative count shifts right. -/
def signed_shift_left (value shift : Int) : Int :=
  if shift < 0 then value >>> (-shift).toNat else wrapI32 (value * 2 ^ shift.toNat)

/-! ## Multiplication, 64-bit variant (`fix16.c`, lines 142-185) -/

namespace Wide

/-- Lines 176-183 of `fix16_mul`: the shift by 16, and with rounding the increment by bit 15
of the product, taken modulo `2^32`. -/
def finish (rounding : Bool) (product : Int) : Int :=
  if ¬ rounding then
    wrapI32 (product >>> (16 : Nat))
  else
    let result : Int := wrapI32 (product >>> (16 : Nat))
    wrapI32 (result + (((toU64 product &&& 0x8000) >>> 15 : Nat) : Int))

/-- `fix16_mul` built without `FIXMATH_NO_64BIT` and `FIXMATH_OPTIMIZE_8BIT`;
`rounding = false` is the build with `FIXMATH_NO_ROUNDING`. -/
def fix16_mul (rounding : Bool) (inArg0 inArg1 : Int) : Int :=
  let product : Int := wrapI64 (inArg0 * inArg1)
  let upper : Nat := toU32 (product >>> (47 : Nat))
  if product < 0 then
    if upper ≠ 0xFFFFFFFF then
      fix16_overflow
    else
      finish rounding (if rounding then wrapI64 (product - 1) else product)
  else
    if upper ≠ 0 then
      fix16_overflow
    else
      finish rounding product

end Wide

/-! ## Multiplication, split 16x16 variant (`fix16.c`, lines 191-268) -/

namespace Split16

/-- `fix16_mul` built with `FIXMATH_NO_64BIT` and without `FIXMATH_OPTIMIZE_8BIT`;
`rounding = false` is the build with `FIXMATH_NO_ROUNDING`.  Signed 32-bit operations are
taken modulo `2^32`. -/
def fix16_mul (rounding : Bool) (inArg0 inArg1 : Int) : Int :=
  let A : Int := signed_shift_right inArg0 16
  let C : Int := signed_shift_right inArg1 16
  let B : Nat := toU32 inArg0 &&& 0xFFFF
  let D : Nat := toU32 inArg1 &&& 0xFFFF
  let AC : Int := wrapI32 (A * C)
  let BD : Nat := (B * D) % 4294967296
  let AD : Int := wrapI32 (A * toI32 D)
  let CB : Int := wrapI32 (C * toI32 B)
  let AD_CB : Int := wrapI32 (AD + CB)
  let product_hi : Int := wrapI32 (AC + signed_shift_right AD_CB 16)
  let ad_cb_temp : Nat := (toU32 AD_CB <<< 16) % 4294967296
  let product_lo : Nat := (BD + ad_cb_temp) % 4294967296
  let product_hi : Int := if product_lo < BD then wrapI32 (product_hi + 1) else product_hi
  let retval : Int := 0
  if product_hi >>> (31 : Nat) ≠ product_hi >>> (15 : Nat) then
    fix16_overflow
  else if ¬ rounding then
    toI32 (toU32 (wrapI32 (product_hi * 2 ^ 16)) ||| (product_lo >>> 16))
  else if retval ≠ fix16_overflow then
    let product_lo_tmp : Nat := product_lo
    let product_lo : Nat := (product_lo + 4294967296 - 0x8000) % 4294967296
    let product_lo : Nat := (product_lo + 4294967296 - (toU32 product_hi >>> 31)) % 4294967296
    let product_hi : Int := if product_lo > product_lo_tmp then wrapI32 (product_hi - 1)
      else product_hi
    let result : Int := signed_shift_left product_hi 16
    let lo_shifted : Nat := product_lo >>> 16
    let result : Int := toI32 (toU32 result ||| toU32 (toI32 lo_shifted))
    wrapI32 (result + 1)
  else
    retval

end Split16

/-! ## Multiplication, split 8x8 variant (`fix16.c`, lines 274-407) -/

namespace Split8

/-- Byte `i` of a `uint32_t`: the initialiser `(uint8_t)(x >> 8 * i)` of `va[i]`, `vb[i]`. -/
def byte (x i : Nat) : Nat := (x >>> (8 * i)) % 256

/-- The guarded accumulation `if ((x && y) != 0U) { acc += (uint16_t)x * y; }` on a
`uint32_t` accumulator. -/
def accum (acc x y : Nat) : Nat :=
  if x ≠ 0 ∧ y ≠ 0 then (acc + x * y) % 4294967296 else acc

/-- The statement `acc <<= 8` on a `uint32_t`. -/
def shl8 (acc : Nat) : Nat := (acc <<< 8) % 4294967296

/-- `fix16_mul` built with `FIXMATH_OPTIMIZE_8BIT`; `rounding = false` is the build with
`FIXMATH_NO_ROUNDING`. -/
def fix16_mul (rounding : Bool) (inArg0 inArg1 : Int) : Int :=
  let _a : Nat := fix_abs inArg0
  let _b : Nat := fix_abs inArg1
  let va : Nat → Nat := byte _a
  let vb : Nat → Nat := byte _b
  let low : Nat := 0
  let mid : Nat := 0
  -- i = 6
  if va 3 ≠ 0 ∧ vb 3 ≠ 0 then
    fix16_overflow
  else
    -- i = 5
    let mid := accum mid (va 2) (vb 3)
    let mid := accum mid (va 3) (vb 2)
    let mid := shl8 mid
    -- i = 4
    let mid := accum mid (va 1) (vb 3)
    let mid := accum mid (va 2) (vb 2)
    let mid := accum mid (va 3) (vb 1)
    if mid &&& 0xFF000000 ≠ 0 then
      fix16_overflow
    else
      let mid := shl8 mid
      -- i = 3
      let mid := accum mid (va 0) (vb 3)
      let mid := accum mid (va 1) (vb 2)
      let mid := accum mid (va 2) (vb 1)
      let mid := accum mid (va 3) (vb 0)
      if mid &&& 0xFF000000 ≠ 0 then
        fix16_overflow
      else
        let mid := shl8 mid
        -- i = 2
        let mid := accum mid (va 0) (vb 2)
        let mid := accum mid (va 1) (vb 1)
        let mid := accum mid (va 2) (vb 0)
        -- i = 1
        let low := accum low (va 0) (vb 1)
        let low := accum low (va 1) (vb 0)
        let low := shl8 low
        -- i = 0
        let low := accum low (va 0) (vb 0)
        let low := if rounding then (low + 0x8000) % 4294967296 else low
        let mid := (mid + (low >>> 16)) % 4294967296
        if mid &&& 0x80000000 ≠ 0 then
          fix16_overflow
        else
          let result : Int := toI32 mid
          if decide (inArg0 ≥ 0) ≠ decide (inArg1 ≥ 0) then wrapI32 (-result) else result

end Split8

/-! ## Saturating multiplication (`fix16.c`, lines 409-429) -/

/-- `fix16_smul`: saturating wrapper around the `fix16_mul` the build selects, here the
parameter `mul`. -/
def fix16_smul (mul : Int → Int → Int) (inArg0 inArg1 : Int) : Int :=
  let result := mul inArg0 inArg1
  if result = fix16_overflow then
    (if decide (inArg0 ≥ 0) = decide (inArg1 ≥ 0) then fix16_maximum else fix16_minimum)
  else
    result

/-! ## Reference rounding -/

/-- Rounding of a rational to the nearest integer, halves away from zero. -/
def roundAway (q : ℚ) : Int := if 0 ≤ q then round q else -round (-q)

/-! ## Division, software variant (`fix16.c`, lines 553-637)

Loops take a `fuel` argument and answer `none` when it runs out. -/

namespace Soft

/-- The loop `while (divider < remainder) { divider <<= 1; bit <<= 1; }`, returning
`(divider, bit)`. -/
def align : Nat → Nat → Nat → Nat → Option (Nat × Nat)
  | 0, _, _, _ => none
  | fuel + 1, remainder, divider, bit =>
    if divider < remainder then
      align fuel remainder ((divider <<< 1) % 4294967296) ((bit <<< 1) % 4294967296)
    else
      some (divider, bit)

/-- The main division loop `while (bit && remainder) { ... }`, returning
`(quotient, remainder)`. -/
def mainLoop : Nat → Nat → Nat → Nat → Nat → Option (Nat × Nat)
  | 0, _, _, _, _ => none
  | fuel + 1, divider, bit, remainder, quotient =>
    if bit ≠ 0 ∧ remainder ≠ 0 then
      if remainder ≥ divider then
        mainLoop fuel divider (bit >>> 1)
          ((((remainder + 4294967296 - divider) % 4294967296) <<< 1) % 4294967296)
          (quotient ||| bit)
      else
        mainLoop fuel divider (bit >>> 1) ((remainder <<< 1) % 4294967296) quotient
    else
      some (quotient, remainder)

/-- `fix16_div` built with `FIXMATH_NO_HARD_DIVISION`; `rounding = false` is the build with
`FIXMATH_NO_ROUNDING`. -/
def fix16_div (rounding : Bool) (fuel : Nat) (a b : Int) : Option Int :=
  let retval : Int := fix16_minimum
  if b ≠ 0 then
    let remainder : Nat := fix_abs a
    let divider : Nat := fix_abs b
    let quotient : Nat := 0
    let bit : Nat := 0x10000
    match align fuel remainder divider bit with
    | none => none
    | some (divider, bit) =>
      if bit = 0 then
        some fix16_overflow
      else
        -- Perform one step manually to avoid overflows later.
        let pre : Bool := decide (divider &&& 0x80000000 ≠ 0)
        let hit : Bool := pre && decide (remainder ≥ divider)
        let quotient : Nat := if hit then quotient ||| bit else quotient
        let remainder : Nat :=
          if hit then (remainder + 4294967296 - divider) % 4294967296 else remainder
        let divider : Nat := if pre then divider >>> 1 else divider
        let bit : Nat := if pre then bit >>> 1 else bit
        match mainLoop fuel divider bit remainder quotient with
        | none => none
        | some (quotient, remainder) =>
          let quotient : Nat :=
            if rounding ∧ remainder ≥ divider then (quotient + 1) % 4294967296 else quotient
          let result : Int := toI32 quotient
          if (toU32 a ^^^ toU32 b) &&& 0x80000000 ≠ 0 then
            if result = fix16_minimum then
              some fix16_overflow
            else
              some (wrapI32 (-result))
          else
            some result
  else
    some retval

/-- The loop `while (x_calc >= y_calc) { x_calc -= y_calc; }` of `fix16_mod`. -/
def subLoop : Nat → Int → Int → Option Int
  | 0, _, _ => none
  | fuel + 1, x_calc, y_calc =>
    if x_calc ≥ y_calc then subLoop fuel (wrapI32 (x_calc - y_calc)) y_calc else some x_calc

/-- The loop `while (x_calc <= -y_calc) { x_calc += y_calc; }` of `fix16_mod`. -/
def addLoop : Nat → Int → Int → Option Int
  | 0, _, _ => none
  | fuel + 1, x_calc, y_calc =>
    if x_calc ≤ wrapI32 (-y_calc) then addLoop fuel (wrapI32 (x_calc + y_calc)) y_calc
    else some x_calc

/-- `fix16_mod` built with `FIXMATH_NO_HARD_DIVISION` (`fix16.c`, lines 663-679); signed
32-bit operations are taken modulo `2^32`. -/
def fix16_mod (fuel : Nat) (x y : Int) : Option Int :=
  match subLoop fuel x y with
  | none => none
  | some x_calc => addLoop fuel x_calc y

end Soft

/-! ## Division, hardware-divide variant (`fix16.c`, lines 435-547) -/

namespace Hard

/-- The loop `while (!(x & 0xF0000000U)) { result += 4U; x <<= 4U; }` of `clz_fn`, returning
`(x, result)`. -/
def clzNibbles : Nat → Nat → Nat → Option (Nat × Nat)
  | 0, _, _ => none
  | fuel + 1, x, result =>
    if x &&& 0xF0000000 = 0 then
      clzNibbles fuel ((x <<< 4) % 4294967296) ((result + 4) % 256)
    else
      some (x, result)

/-- The loop `while (!(x & 0x80000000U)) { result += 1U; x <<= 1U; }` of `clz_fn`, returning
`result`. -/
def clzBits : Nat → Nat → Nat → Option Nat
  | 0, _, _ => none
  | fuel + 1, x, result =>
    if x &&& 0x80000000 = 0 then
      clzBits fuel ((x <<< 1) % 4294967296) ((result + 1) % 256)
    else
      some result

/-- `clz_fn`, the count of leading zero bits behind the macro `clz`. -/
def clz_fn (fuel : Nat) (x : Nat) : Option Nat :=
  if x = 0 then
    some 32
  else
    match clzNibbles fuel x 0 with
    | none => none
    | some (x, result) => clzBits fuel x result

/-- The loop `while (!(divider & 0xF) && bit_pos >= 4) { divider >>= 4; bit_pos -= 4; }`,
returning `(divider, bit_pos)`. -/
def strip : Nat → Nat → Int → Option (Nat × Int)
  | 0, _, _ => none
  | fuel + 1, divider, bit_pos =>
    if divider &&& 0xF = 0 ∧ bit_pos ≥ 4 then strip fuel (divider >>> 4) (bit_pos - 4)
    else some (divider, bit_pos)

/-- How the main loop of `fix16_div` is left: by `return (fix16_overflow)` from its body, or
through its condition with the accumulated 64-bit quotient. -/
inductive Exit where
  | overflow : Exit
  | done (quotient : Nat) : Exit
  deriving DecidableEq, Repr

/-- The loop `while (remainder && bit_pos >= 0) { ... }`; a 32-bit division or remainder by
zero answers `none`. -/
def mainLoop : Nat → Nat → Nat → Nat → Int → Option Exit
  | 0, _, _, _, _ => none
  | fuel + 1, divider, remainder, quotient, bit_pos =>
    if remainder ≠ 0 ∧ bit_pos ≥ 0 then
      match clz_fn 32 remainder with
      | none => none
      | some c =>
        let shift : Int := if (c : Int) > bit_pos then bit_pos else (c : Int)
        let remainder : Nat := (remainder <<< shift.toNat) % 4294967296
        let bit_pos : Int := bit_pos - shift
        if divider = 0 then
          none
        else
          let div : Nat := remainder / divider
          let remainder : Nat := remainder % divider
          let quotient : Nat := (quotient + (div <<< bit_pos.toNat) % 18446744073709551616)
            % 18446744073709551616
          if div &&& (0xFFFFFFFF ^^^ (0xFFFFFFFF >>> bit_pos.toNat)) ≠ 0 then
            some Exit.overflow
          else
            mainLoop fuel divider ((remainder <<< 1) % 4294967296) quotient (bit_pos - 1)
    else
      some (Exit.done quotient)

/-- `fix16_div` built without `FIXMATH_NO_HARD_DIVISION`; `rounding = false` is the build
with `FIXMATH_NO_ROUNDING`.  A division by zero would answer `none`. -/
def fix16_div (rounding : Bool) (fuel : Nat) (a b : Int) : Option Int :=
  if b = 0 then
    some fix16_minimum
  else
    let remainder : Nat := fix_abs a
    let divider : Nat := fix_abs b
    let quotient : Nat := 0
    let bit_pos : Int := 17
    -- Kick-start the division a bit.
    let kick : Bool := decide (divider &&& 0xFFF00000 ≠ 0)
    let shifted_div : Nat := ((divider >>> 17) + 1) % 4294967296
    if kick ∧ shifted_div = 0 then
      none
    else
      let quotient : Nat := if kick then remainder / shifted_div else quotient
      let tmp : Nat := ((quotient * divider) % 18446744073709551616) >>> 17
      let remainder : Nat :=
        if kick then (remainder + 4294967296 - tmp % 4294967296) % 4294967296 else remainder
      match strip fuel divider bit_pos with
      | none => none
      | some (divider, bit_pos) =>
        match mainLoop fuel divider remainder quotient bit_pos with
        | none => none
        | some Exit.overflow => some fix16_overflow
        | some (Exit.done quotient) =>
          let quotient : Nat :=
            if rounding then (quotient + 1) % 18446744073709551616 else quotient
          let result : Int := toI32 (quotient >>> 1)
          if (toU32 a ^^^ toU32 b) &&& 0x80000000 ≠ 0 then
            if result = fix16_minimum then
              some fix16_overflow
            else
              some (wrapI32 (-result))
          else
            some result

/-- `fix16_mod` built without `FIXMATH_NO_HARD_DIVISION` (`fix16.c`, line 684): the C99
remainder `x % y`, truncating toward zero; a zero divisor answers `none`. -/
def fix16_mod (x y : Int) : Option Int :=
  if y = 0 then none else some (wrapI32 (Int.tmod x y))

end Hard

/-! ## Saturating division (`fix16.c`, lines 639-659) -/

/-- `fix16_sdiv`: saturating wrapper around the `fix16_div` the build selects, here the
parameter `div`. -/
def fix16_sdiv (div : Int → Int → Option Int) (inArg0 inArg1 : Int) : Option Int :=
  match div inArg0 inArg1 with
  | none => none
  | some result =>
    if result = fix16_overflow then
      (if decide (inArg0 ≥ 0) = decide (inArg1 ≥ 0) then some fix16_maximum
       else some fix16_minimum)
    else
      some result

/-! ## Square root (`fix16_sqrt.c`) -/

namespace Sqrt

/-- The loop `while (bit > num) { bit >>= 2U; }`, returning `bit`. -/
def seek : Nat → Nat → Nat → Option Nat
  | 0, _, _ => none
  | fuel + 1, bit, num => if bit > num then seek fuel (bit >>> 2) num else some bit

/-- The loop `while (bit != 0U) { ... }` that extracts the digits of the root, returning
`(num, result)`. -/
def digits : Nat → Nat → Nat → Nat → Option (Nat × Nat)
  | 0, _, _, _ => none
  | fuel + 1, num, result, bit =>
    if bit ≠ 0 then
      if num ≥ (result + bit) % 4294967296 then
        digits fuel ((num + 4294967296 - (result + bit) % 4294967296) % 4294967296)
          (((result >>> 1) + bit) % 4294967296) (bit >>> 2)
      else
        digits fuel num (result >>> 1) (bit >>> 2)
    else
      some (num, result)

end Sqrt

/-- `fix16_sqrt`, the two rounds `n = 0` and `n = 1` of its `for` loop written out;
`rounding = false` is the build with `FIXMATH_NO_ROUNDING`. -/
def fix16_sqrt (rounding : Bool) (fuel : Nat) (inValue : Int) : Option Int :=
  let neg : Bool := decide (inValue < 0)
  let num : Nat := fix_abs inValue
  let result : Nat := 0
  let bit : Nat := if num &&& 0xFFF00000 ≠ 0 then (1 <<< 30) % 4294967296
    else (1 <<< 18) % 4294967296
  match Sqrt.seek fuel bit num with
  | none => none
  | some bit =>
    -- n = 0: first we get the top 24 bits of the answer.
    match Sqrt.digits fuel num result bit with
    | none => none
    | some (num, result) =>
      let big : Bool := decide (num > 65535)
      let num : Nat :=
        if big then
          ((((num + 4294967296 - result) % 4294967296) <<< 16) % 4294967296
            + 4294967296 - 0x8000) % 4294967296
        else (num <<< 16) % 4294967296
      let result : Nat :=
        if big then ((result <<< 16) % 4294967296 + 0x8000) % 4294967296
        else (result <<< 16) % 4294967296
      let bit : Nat := (1 <<< 14) % 4294967296
      -- n = 1: then process it again to get the lowest 8 bits.
      match Sqrt.digits fuel num result bit with
      | none => none
      | some (num, result) =>
        let result : Nat :=
          if rounding ∧ num > result then (result + 1) % 4294967296 else result
        some (if neg then wrapI32 (-toI32 result) else toI32 result)

/-! ## Linear interpolation (`fix16.c`, lines 690-727) -/

/-- Modelled from the spec: `int64_mul_i32_i32` of the header `int64.h`, the exact
two's-complement 64-bit product of two 32-bit values. -/
def int64_mul_i32_i32 (x y : Int) : Int := wrapI64 (x * y)

/-- Modelled from the spec: `int64_mul_i64_i32` of the header `int64.h`, the
two's-complement 64-bit product. -/
def int64_mul_i64_i32 (x y : Int) : Int := wrapI64 (x * y)

/-- Modelled from the spec: `int64_add` of the header `int64.h`, two's-complement 64-bit
addition. -/
def int64_add (x y : Int) : Int := wrapI64 (x + y)

/-- Modelled from the spec: `int64_sub` of the header `int64.h`, two's-complement 64-bit
subtraction. -/
def int64_sub (x y : Int) : Int := wrapI64 (x - y)

/-- Modelled from the spec: `int64_shift` of the header `int64.h`, a left shift for a
positive count and an arithmetic right shift for a negative one. -/
def int64_shift (x : Int) (y : Int) : Int :=
  if y > 0 then wrapI64 (x * 2 ^ y.toNat) else x >>> (-y).toNat

/-- Modelled from the spec: `int64_lo` of the header `int64.h`, the low 32 bits as a
`uint32_t`. -/
def int64_lo (x : Int) : Nat := toU64 x % 4294967296

/-- Modelled from the spec: `int64_hi` of the header `int64.h`, the high 32 bits as an
`int32_t`. -/
def int64_hi (x : Int) : Int := wrapI32 (x >>> (32 : Nat))

/-- Modelled from the spec: `int64_const` of the header `int64.h`, the 64-bit value with
high word `hi` and low word `lo`. -/
def int64_const (hi : Int) (lo : Nat) : Int := wrapI64 (hi * 4294967296 + (lo : Int))

/-- `fix16_lerp8`; `inFract` is a `uint8_t`. -/
def fix16_lerp8 (inArg0 inArg1 : Int) (inFract : Nat) : Int :=
  let temp_u : Nat := (1 <<< 8) % 4294967296
  let temp1 : Int := toI32 temp_u
  let temp1 : Int := wrapI32 (temp1 - toI32 inFract)
  let tempOut : Int := int64_mul_i32_i32 inArg0 temp1
  let tempOut : Int := int64_add tempOut (int64_mul_i32_i32 inArg1 (toI32 inFract))
  let tempOut : Int := int64_shift tempOut (-8)
  toI32 (int64_lo tempOut)

/-- `fix16_lerp16`; `inFract` is a `uint16_t`. -/
def fix16_lerp16 (inArg0 inArg1 : Int) (inFract : Nat) : Int :=
  let temp_u : Nat := (1 <<< 16) % 4294967296
  let temp1 : Int := toI32 temp_u
  let temp1 : Int := wrapI32 (temp1 - toI32 inFract)
  let tempOut : Int := int64_mul_i32_i32 inArg0 temp1
  let tempOut : Int := int64_add tempOut (int64_mul_i32_i32 inArg1 (toI32 inFract))
  let tempOut : Int := int64_shift tempOut (-16)
  toI32 (int64_lo tempOut)

/-- `fix16_lerp32`; `inFract` is a `uint32_t`. -/
def fix16_lerp32 (inArg0 inArg1 : Int) (inFract : Nat) : Int :=
  let retval : Int := inArg0
  if inFract ≠ 0 then
    let inFract64 : Int := int64_const 0 inFract
    let subbed : Int := int64_sub (int64_const 1 0) inFract64
    let temp_64 : Int := int64_mul_i64_i32 subbed inArg0
    let temp_64 : Int := int64_add temp_64 (int64_mul_i64_i32 inFract64 inArg1)
    int64_hi temp_64
  else
    retval

/-- The predicate "fits an `int64_t`". -/
def isI64 (x : Int) : Prop := -9223372036854775808 ≤ x ∧ x ≤ 9223372036854775807


/-! ## Failure hook (`fix16_assert.h`, `fix16_assert.c`) -/

/-- `fix16_assert(expr)`: when `expr` is false the macro calls the failure hook
`fix16_assert_failed`, whose body is empty.  The calls are counted: the argument `calls` is
the count before, the result the count after. -/
def fix16_assert (expr : Bool) (calls : Nat) : Nat := if expr then calls else calls + 1

/-! ## Products and quotients of wide integers (`fix16.c`, lines 782-920) -/

/-- Modelled from the spec: `int64_div_i64_i32` of the header `int64.h`, the 64-bit quotient
truncated toward zero as the native division does, taken modulo `2^64`. -/
def int64_div_i64_i32 (x y : Int) : Int := wrapI64 (Int.tdiv x y)

/-- `fix16_amul_int32`, returning `(retval, calls)`: the value returned and the number of
calls of the failure hook.  The fields `.hi` and `.lo` of the emulated `int64_t` are read
with `int64_hi` and `int64_lo`. -/
def fix16_amul_int32 (afix16 b32 : Int) : Int × Nat :=
  let result : Int := int64_mul_i32_i32 afix16 b32
  let retval : Int := toI32 (int64_lo result)
  -- High word should be 0x00000000 or 0xFFFFFFFF
  let retval : Int :=
    if int64_hi result ≠ 0 ∧ toU32 (int64_hi result) ≠ 0xFFFFFFFF then
      fix16_overflow
    else
      -- MSB of low word must match bits of high word
      if toU32 (int64_hi result) &&& 0x80000000 ≠ int64_lo result &&& 0x80000000 then
        fix16_overflow
      else
        retval
  let calls : Nat := if retval = fix16_overflow then fix16_assert false 0 else 0
  (retval, calls)

/-- `fix16_div_huge_int`, returning `(retval, calls)`: the value returned and the number of
calls of the failure hook.  `a64_hi` is an `int32_t`, `a64_lo` a `uint32_t`. -/
def fix16_div_huge_int (a64_hi : Int) (a64_lo : Nat) (b32 : Int) : Int × Nat :=
  let retval : Int := fix16_overflow
  -- division by zero
  if b32 ≠ 0 then
    let a64 : Int := int64_const a64_hi a64_lo
    let a64 : Int := int64_shift a64 24
    let result_64 : Int := int64_div_i64_i32 a64 b32
    if int64_hi result_64 ≤ 127 ∧ int64_hi result_64 ≥ -128 then
      let retval : Int := signed_shift_left (int64_hi result_64) 24
      let lo_shifted : Nat := int64_lo result_64 >>> 8
      let retval : Int := toI32 (toU32 retval ||| toU32 (toI32 lo_shifted))
      (retval, 0)
    else
      (retval, fix16_assert false 0)
  else
    (retval, 0)

/-! ## Decimal text (`fix16_str.c`)

A `char` is its code, a `Nat` below 256; a NUL-terminated text is the list of the characters
before the NUL.  A pointer into the text is the list of what is left to read, and reading
where nothing is left gives the NUL. -/

namespace Str

/-- `isdigit` of `fix16_str.c`: the codes of `0` to `9`. -/
def isdigit (c : Nat) : Bool := decide (c ≥ 48 ∧ c ≤ 57)

/-- `isspace` of `fix16_str.c`: space, `\r`, `\n`, `\t`, `\v`, `\f`. -/
def isspace (c : Nat) : Bool :=
  decide (c = 32 ∨ c = 13 ∨ c = 10 ∨ c = 9 ∨ c = 11 ∨ c = 12)

/-- The loop `while (scale != 0U) { ... }` of `itoa_loop`, returning the text with the
characters written behind `buf`. -/
def itoa_loop : Nat → List Nat → Nat → Nat → Bool → Option (List Nat)
  | 0, _, _, _, _ => none
  | fuel + 1, buf, scale, value, skip =>
    if scale ≠ 0 then
      let digit : Nat := (value / scale) % 256
      if (!skip) || decide (digit ≠ 0) || decide (scale = 1) then
        let chr : Nat := (48 + digit) % 256
        itoa_loop fuel (buf ++ [chr]) (scale / 10) (value % scale) false
      else
        itoa_loop fuel buf (scale / 10) value skip
    else
      some buf

/-- The table `scales` of `fix16_to_str`. -/
def scales : List Nat := [1, 10, 100, 1000, 10000, 100000, 100000, 100000]

/-- The loop `while (isspace(*buf)) { buf++; }` of `fix16_from_str`. -/
def skipSpaces : List Nat → List Nat
  | [] => []
  | c :: buf => if isspace c then skipSpaces buf else c :: buf

/-- The loop `while (isdigit(*buf)) { ... }` that decodes the integer part, returning
`(buf, intpart, count)`. -/
def intLoop : List Nat → Nat → Int → List Nat × Nat × Int
  | [], intpart, count => ([], intpart, count)
  | c :: buf, intpart, count =>
    if isdigit c then
      intLoop buf (toU32 (((intpart * 10) % 4294967296 : Nat) + ((c : Int) - 48)))
        (wrapI32 (count + 1))
    else
      (c :: buf, intpart, count)

/-- The loop `while (isdigit(*buf) && (scale < 100000U)) { ... }` that decodes the decimal
part, returning `(buf, fracpart, scale)`. -/
def fracLoop : List Nat → Nat → Nat → List Nat × Nat × Nat
  | [], fracpart, scale => ([], fracpart, scale)
  | c :: buf, fracpart, scale =>
    if isdigit c ∧ scale < 100000 then
      fracLoop buf (toU32 (((fracpart * 10) % 4294967296 : Nat) + ((c : Int) - 48)))
        ((scale * 10) % 4294967296)
    else
      (c :: buf, fracpart, scale)

/-- The loop `while (*buf != 0) { ... }` that looks for garbage behind the number: `true`
when it meets a character that is neither a digit nor a space. -/
def garbage : List Nat → Bool
  | [] => false
  | c :: buf =>
    if c ≠ 0 then
      if !isdigit c && !isspace c then true else garbage buf
    else
      false

end Str

/-- `fix16_to_str`, returning `(buf, length)`: the text written (without its closing NUL) and
the length returned.  `mul` is the `fix16_mul` the build selects. -/
def fix16_to_str (mul : Int → Int → Int) (fuel : Nat) (value : Int) (decimals : Int) :
    Option (List Nat × Nat) :=
  let buf : List Nat := []
  let uvalue : Nat := if value ≥ 0 then toU32 value else toU32 (-value)
  let buf : List Nat := if value < 0 then buf ++ [45] else buf
  -- Separate the integer and decimal parts of the value
  let intpart : Nat := uvalue >>> 16
  let fracpart : Nat := uvalue &&& 0xFFFF
  let scale : Nat := Str.scales.getD (toU32 decimals &&& 7) 0
  let fracpart : Nat := toU32 (mul (toI32 fracpart) (toI32 scale))
  -- Handle carry from decimal part
  let carry : Bool := decide (fracpart ≥ scale)
  let intpart : Nat := if carry then (intpart + 1) % 4294967296 else intpart
  let fracpart : Nat := if carry then (fracpart + 4294967296 - scale) % 4294967296 else fracpart
  -- Format integer part
  match Str.itoa_loop fuel buf 10000 intpart true with
  | none => none
  | some buf =>
    -- Format decimal part (if any)
    if scale ≠ 1 then
      match Str.itoa_loop fuel (buf ++ [46]) (scale / 10) fracpart false with
      | none => none
      | some buf => some (buf, buf.length % 4294967296)
    else
      some (buf, buf.length % 4294967296)

/-- `fix16_from_str` built without `FIXMATH_NO_OVERFLOW`; `div` is the `fix16_div` the build
selects. -/
def fix16_from_str (div : Int → Int → Option Int) (buf_start : List Nat) : Option Int :=
  let buf : List Nat := Str.skipSpaces buf_start
  -- Decode the sign
  let negative : Bool := decide (buf.headD 0 = 45)
  let buf : List Nat := if buf.headD 0 = 43 ∨ buf.headD 0 = 45 then buf.tail else buf
  -- Decode the integer part
  match Str.intLoop buf 0 0 with
  | (buf, intpart, count) =>
    if count = 0 ∨ count > 5 ∨ intpart > 0x8000 ∨ (!negative ∧ intpart > 0x7FFF) then
      some fix16_overflow
    else
      let value : Int := toI32 ((intpart <<< 16) % 4294967296)
      -- Decode the decimal part
      let decoded : Option (Int × List Nat) :=
        if buf.headD 0 = 46 ∨ buf.headD 0 = 44 then
          match Str.fracLoop buf.tail 0 1 with
          | (buf, fracpart, scale) =>
            match div (toI32 fracpart) (toI32 scale) with
            | none => none
            | some quotient => some (wrapI32 (value + quotient), buf)
        else
          some (value, buf)
      match decoded with
      | none => none
      | some (value, buf) =>
        -- Verify that there is no garbage left over
        if Str.garbage buf then
          some fix16_overflow
        else
          some (if negative then wrapI32 (-value) else value)

/-! ## Fractions of `2^32` (`fract32.c`) -/

/-- `fract32_create`; a 32-bit division or remainder by zero answers `none`. -/
def fract32_create (inNumerator inDenominator : Nat) : Option Nat :=
  let retval : Nat := 0xFFFFFFFF
  if inDenominator > inNumerator then
    if inDenominator = 0 then
      none
    else
      let tempMod : Nat := inNumerator % inDenominator
      if (inDenominator + 4294967296 - 1) % 4294967296 = 0 then
        none
      else
        let tempDiv : Nat := 0xFFFFFFFF / ((inDenominator + 4294967296 - 1) % 4294967296)
        some ((tempMod * tempDiv) % 4294967296)
  else
    some retval
/-! ## Bit-level facts -/

theorem and_signbit (x : Nat) (hx : x < 4294967296) :
    x &&& 0x80000000 = if x < 2147483648 then 0 else 2147483648 := by
  have h := Nat.and_two_pow x 31
  have ht : x.testBit 31 = decide (x / 2 ^ 31 % 2 = 1) := Nat.testBit_to_div_mod
  norm_num at h ht
  rw [h, ht]
  by_cases hlt : x < 2147483648
  · have : ¬ (x / 2147483648 % 2 = 1) := by omega
    simp [hlt, this]
  · have : x / 2147483648 % 2 = 1 := by omega
    simp [hlt, this]

theorem xor_signbit (x y : Nat) (hx : x < 4294967296) (hy : y < 4294967296) :
    ((x ^^^ y) &&& 0x80000000 ≠ 0) ↔ ¬ (x < 2147483648 ↔ y < 2147483648) := by
  have h := Nat.and_two_pow (x ^^^ y) 31
  have hxb : x.testBit 31 = decide (x / 2 ^ 31 % 2 = 1) := Nat.testBit_to_div_mod
  have hyb : y.testBit 31 = decide (y / 2 ^ 31 % 2 = 1) := Nat.testBit_to_div_mod
  rw [Nat.testBit_xor, hxb, hyb] at h
  norm_num at h
  rw [h]
  by_cases h1 : x < 2147483648 <;> by_cases h2 : y < 2147483648
  · have a1 : ¬ (x / 2147483648 % 2 = 1) := by omega
    have a2 : ¬ (y / 2147483648 % 2 = 1) := by omega
    simp [h1, h2, a1, a2]
  · have a1 : ¬ (x / 2147483648 % 2 = 1) := by omega
    have a2 : y / 2147483648 % 2 = 1 := by omega
    simp [h1, h2, a1, a2]
  · have a1 : x / 2147483648 % 2 = 1 := by omega
    have a2 : ¬ (y / 2147483648 % 2 = 1) := by omega
    simp [h1, h2, a1, a2]
  · have a1 : x / 2147483648 % 2 = 1 := by omega
    have a2 : y / 2147483648 % 2 = 1 := by omega
    simp [h1, h2, a1, a2]

theorem toU32_lt (x : Int) : toU32 x < 4294967296 := by
  unfold toU32; omega

theorem toU32_of_isI32 (x : Int) (hx : isI32 x) :
    toU32 x = if 0 ≤ x then x.toNat else (x + 4294967296).toNat := by
  unfold isI32 at hx
  unfold toU32
  split_ifs <;> omega

theorem toI32_eq (u : Nat) (hu : u < 4294967296) :
    toI32 u = if u < 2147483648 then (u : Int) else (u : Int) - 4294967296 := by
  unfold toI32
  rw [Nat.mod_eq_of_lt hu]

/-! ## C1-C4: addition, subtraction and their saturating wrappers -/

theorem fix16_add_cases (a b : Int) (ha : isI32 a) (hb : isI32 b) :
    (isI32 (a + b) → fix16_add a b = a + b) ∧
    (¬ isI32 (a + b) → fix16_add a b = fix16_overflow) := by
  have h1 := xor_signbit (toU32 a) (toU32 b) (toU32_lt a) (toU32_lt b)
  have h2 := xor_signbit (toU32 a) ((toU32 a + toU32 b) % 4294967296) (toU32_lt a)
    (Nat.mod_lt _ (by norm_num))
  have h3 := toI32_eq ((toU32 a + toU32 b) % 4294967296) (Nat.mod_lt _ (by norm_num))
  have ea := toU32_of_isI32 a ha
  have eb := toU32_of_isI32 b hb
  unfold isI32 at *
  unfold fix16_add fix16_overflow
  simp only [h1, h2, h3]
  constructor
  · intro hs
    split_ifs at ea eb ⊢ <;> omega
  · intro hs
    split_ifs at ea eb ⊢ <;> omega

/-- C1: for 32-bit `a`, `b`, `fix16_add a b` is the integer sum `a + b` when the sum fits
32 bits, and the overflow sentinel `0x80000000` when it does not. -/
theorem fix16_add_spec (a b : Int) (ha : isI32 a) (hb : isI32 b) :
    (isI32 (a + b) → fix16_add a b = a + b) ∧
    (¬ isI32 (a + b) → fix16_add a b = fix16_overflow) :=
  fix16_add_cases a b ha hb

theorem fix16_add_spec_witness :
    (isI32 (2147483647 + 1) → fix16_add 2147483647 1 = 2147483647 + 1) ∧
    (¬ isI32 (2147483647 + 1) → fix16_add 2147483647 1 = fix16_overflow) :=
  fix16_add_spec 2147483647 1 (by decide) (by decide)

theorem fix16_sub_cases (a b : Int) (ha : isI32 a) (hb : isI32 b) :
    (isI32 (a - b) → fix16_sub a b = a - b) ∧
    (¬ isI32 (a - b) → fix16_sub a b = fix16_overflow) := by
  have h1 := xor_signbit (toU32 a) (toU32 b) (toU32_lt a) (toU32_lt b)
  have h2 := xor_signbit (toU32 a) ((toU32 a + 4294967296 - toU32 b) % 4294967296) (toU32_lt a)
    (Nat.mod_lt _ (by norm_num))
  have h3 := toI32_eq ((toU32 a + 4294967296 - toU32 b) % 4294967296)
    (Nat.mod_lt _ (by norm_num))
  have ea := toU32_of_isI32 a ha
  have eb := toU32_of_isI32 b hb
  unfold isI32 at *
  unfold fix16_sub fix16_overflow
  simp only [h1, h2, h3]
  constructor
  · intro hs
    split_ifs at ea eb ⊢ <;> omega
  · intro hs
    split_ifs at ea eb ⊢ <;> omega

/-- C2: for 32-bit `a`, `b`, `fix16_sub a b` is the integer difference `a - b` when the
difference fits 32 bits, and the overflow sentinel `0x80000000` when it does not. -/
theorem fix16_sub_spec (a b : Int) (ha : isI32 a) (hb : isI32 b) :
    (isI32 (a - b) → fix16_sub a b = a - b) ∧
    (¬ isI32 (a - b) → fix16_sub a b = fix16_overflow) :=
  fix16_sub_cases a b ha hb

theorem fix16_sub_spec_witness :
    (isI32 (-2147483648 - 1) → fix16_sub (-2147483648) 1 = -2147483648 - 1) ∧
    (¬ isI32 (-2147483648 - 1) → fix16_sub (-2147483648) 1 = fix16_overflow) :=
  fix16_sub_spec (-2147483648) 1 (by decide) (by decide)

/-- C3 (failing input): `0 + fix16_minimum` is exactly `-2^31`, which is representable, yet
`fix16_sadd` takes the returned `0x80000000` for an overflow and, the first operand being
non-negative, answers `fix16_maximum`. -/
theorem fix16_sadd_zero_minimum :
    fix16_sadd 0 (-2147483648) = 2147483647 ∧ clamp (0 + -2147483648) = -2147483648 := by
  decide

/-- Away from the exact sum `-2^31` with a non-negative first operand, `fix16_sadd` is the
clamped sum. -/
theorem fix16_sadd_clamp (a b : Int) (ha : isI32 a) (hb : isI32 b)
    (h : ¬ (0 ≤ a ∧ a + b = -2147483648)) : fix16_sadd a b = clamp (a + b) := by
  have hadd := fix16_add_cases a b ha hb
  unfold fix16_sadd clamp
  unfold isI32 at *
  unfold fix16_overflow at *
  unfold fix16_maximum fix16_minimum
  simp only []
  by_cases hs : -2147483648 ≤ a + b ∧ a + b ≤ 2147483647
  · rw [hadd.1 hs]
    split_ifs <;> omega
  · rw [hadd.2 hs]
    split_ifs <;> omega

/-- C4: for 32-bit `a`, `b`, `fix16_ssub a b` is the integer difference `a - b` clamped to
`[fix16_minimum, fix16_maximum]`. -/
theorem fix16_ssub_spec (a b : Int) (ha : isI32 a) (hb : isI32 b) :
    fix16_ssub a b = clamp (a - b) := by
  have hsub := fix16_sub_cases a b ha hb
  unfold fix16_ssub clamp
  unfold isI32 at *
  unfold fix16_overflow at *
  unfold fix16_maximum fix16_minimum
  simp only []
  by_cases hs : -2147483648 ≤ a - b ∧ a - b ≤ 2147483647
  · rw [hsub.1 hs]
    split_ifs <;> omega
  · rw [hsub.2 hs]
    split_ifs <;> omega

theorem fix16_ssub_spec_witness : fix16_ssub (-2) 2147483647 = clamp (-2 - 2147483647) :=
  fix16_ssub_spec (-2) 2147483647 (by decide) (by decide)

/-! ## The 64-bit multiplication -/

theorem mul_bound (a b : Int) (ha : isI32 a) (hb : isI32 b) :
    -4611686018427387904 ≤ a * b ∧ a * b ≤ 4611686018427387904 := by
  unfold isI32 at ha hb
  constructor <;> nlinarith [mul_nonneg (sub_nonneg.2 ha.1) (sub_nonneg.2 hb.1),
    mul_nonneg (sub_nonneg.2 ha.2) (sub_nonneg.2 hb.2),
    mul_nonneg (sub_nonneg.2 ha.1) (sub_nonneg.2 hb.2),
    mul_nonneg (sub_nonneg.2 ha.2) (sub_nonneg.2 hb.1)]

theorem wrapI64_eq (x : Int) (h1 : -9223372036854775808 ≤ x) (h2 : x < 9223372036854775808) :
    wrapI64 x = x := by
  unfold wrapI64 toU64
  split_ifs <;> omega

theorem wrapI32_eq_emod (x : Int) : wrapI32 x = (x + 2147483648) % 4294967296 - 2147483648 := by
  unfold wrapI32 toI32 toU32
  split_ifs <;> omega

theorem and_bit15 (n : Nat) : (n &&& 0x8000) >>> 15 = n / 32768 % 2 := by
  have h := Nat.and_two_pow n 15
  have ht : n.testBit 15 = decide (n / 2 ^ 15 % 2 = 1) := Nat.testBit_to_div_mod
  norm_num at h ht
  rw [h, ht, Nat.shiftRight_eq_div_pow]
  by_cases hb : n / 32768 % 2 = 1
  · simp [hb]
  · have : n / 32768 % 2 = 0 := by omega
    simp [this]

theorem wide_mul_rounding (a b : Int) (ha : isI32 a) (hb : isI32 b) :
    Wide.fix16_mul true a b =
      if a * b < 0 then
        (if a * b < -140737488355328 then fix16_overflow else (a * b + 32767) / 65536)
      else
        (if 140737488322560 ≤ a * b then fix16_overflow else (a * b + 32768) / 65536) := by
  obtain ⟨hp1, hp2⟩ := mul_bound a b ha hb
  unfold Wide.fix16_mul Wide.finish fix16_overflow
  generalize a * b = p at hp1 hp2 ⊢
  simp only [wrapI64_eq p (by omega) (by omega), Int.shiftRight_eq_div_pow, and_bit15,
    wrapI32_eq_emod, toU32, toU64]
  norm_num
  by_cases hneg : p < 0
  · simp only [hneg, if_true]
    rw [wrapI64_eq (p - 1) (by omega) (by omega)]
    split_ifs <;> omega
  · simp only [hneg, if_false]
    split_ifs <;> omega

theorem wide_mul_truncating (a b : Int) (ha : isI32 a) (hb : isI32 b) :
    Wide.fix16_mul false a b =
      if a * b < -140737488355328 ∨ 140737488355328 ≤ a * b then fix16_overflow
      else a * b / 65536 := by
  obtain ⟨hp1, hp2⟩ := mul_bound a b ha hb
  unfold Wide.fix16_mul Wide.finish fix16_overflow
  generalize a * b = p at hp1 hp2 ⊢
  simp only [wrapI64_eq p (by omega) (by omega), Int.shiftRight_eq_div_pow,
    wrapI32_eq_emod, toU32]
  norm_num
  by_cases hneg : p < 0
  · simp only [hneg, if_true]
    split_ifs <;> omega
  · simp only [hneg, if_false]
    split_ifs <;> omega

theorem wide_mul_error (a b : Int) (ha : isI32 a) (hb : isI32 b) :
    (-140737488355328 ≤ a * b ∧ a * b < 140737488322560 →
      -32768 ≤ 65536 * Wide.fix16_mul true a b - a * b ∧
      65536 * Wide.fix16_mul true a b - a * b ≤ 32768) ∧
    (¬ (-140737488355328 ≤ a * b ∧ a * b < 140737488322560) →
      Wide.fix16_mul true a b = fix16_overflow) := by
  rw [wide_mul_rounding a b ha hb]
  generalize a * b = p
  unfold fix16_overflow
  constructor
  · intro h
    split_ifs <;> omega
  · intro h
    split_ifs <;> omega

/-- C5: with `q = a * b / 65536` an exact rational, the 64-bit `fix16_mul` returns an integer
within `1/2` of `q` when `-2^31 ≤ q < 2^31 - 1/2`, and the overflow sentinel `0x80000000`
otherwise. -/
theorem wide_mul_nearest (a b : Int) (ha : isI32 a) (hb : isI32 b) :
    ((-2147483648 : ℚ) ≤ (a * b : ℚ) / 65536 ∧ (a * b : ℚ) / 65536 < 2147483648 - 1 / 2 →
      |((Wide.fix16_mul true a b : Int) : ℚ) - (a * b : ℚ) / 65536| ≤ 1 / 2) ∧
    (¬ ((-2147483648 : ℚ) ≤ (a * b : ℚ) / 65536 ∧ (a * b : ℚ) / 65536 < 2147483648 - 1 / 2) →
      Wide.fix16_mul true a b = fix16_overflow) := by
  have hrange : ((-2147483648 : ℚ) ≤ (a * b : ℚ) / 65536 ∧
      (a * b : ℚ) / 65536 < 2147483648 - 1 / 2) ↔
      (-140737488355328 ≤ a * b ∧ a * b < 140737488322560) := by
    constructor
    · rintro ⟨h1, h2⟩
      have h1' : ((-140737488355328 : Int) : ℚ) ≤ ((a * b : Int) : ℚ) := by
        push_cast; linarith
      have h2' : ((a * b : Int) : ℚ) < ((140737488322560 : Int) : ℚ) := by
        push_cast; linarith
      exact ⟨by exact_mod_cast h1', by exact_mod_cast h2'⟩
    · rintro ⟨h1, h2⟩
      have h1' : ((-140737488355328 : Int) : ℚ) ≤ ((a * b : Int) : ℚ) := by exact_mod_cast h1
      have h2' : ((a * b : Int) : ℚ) < ((140737488322560 : Int) : ℚ) := by exact_mod_cast h2
      push_cast at h1' h2'
      constructor <;> linarith
  obtain ⟨herr, hovf⟩ := wide_mul_error a b ha hb
  rw [hrange]
  refine ⟨fun h => ?_, hovf⟩
  obtain ⟨e1, e2⟩ := herr h
  have e1' : ((-32768 : Int) : ℚ) ≤ ((65536 * Wide.fix16_mul true a b - a * b : Int) : ℚ) := by
    exact_mod_cast e1
  have e2' : ((65536 * Wide.fix16_mul true a b - a * b : Int) : ℚ) ≤ ((32768 : Int) : ℚ) := by
    exact_mod_cast e2
  push_cast at e1' e2'
  rw [abs_le]
  constructor <;> linarith

theorem wide_mul_nearest_witness :
    ((-2147483648 : ℚ) ≤ ((-1 : Int) * (32768 : Int) : ℚ) / 65536 ∧
      ((-1 : Int) * (32768 : Int) : ℚ) / 65536 < 2147483648 - 1 / 2 →
      |((Wide.fix16_mul true (-1) 32768 : Int) : ℚ) - ((-1 : Int) * (32768 : Int) : ℚ) / 65536|
        ≤ 1 / 2) ∧
    (¬ ((-2147483648 : ℚ) ≤ ((-1 : Int) * (32768 : Int) : ℚ) / 65536 ∧
      ((-1 : Int) * (32768 : Int) : ℚ) / 65536 < 2147483648 - 1 / 2) →
      Wide.fix16_mul true (-1) 32768 = fix16_overflow) :=
  wide_mul_nearest (-1) 32768 (by decide) (by decide)

theorem roundAway_div (p : Int) :
    roundAway ((p : ℚ) / 65536) =
      if 0 ≤ p then (p + 32768) / 65536 else -((-p + 32768) / 65536) := by
  have hfl : ∀ n : Int, round ((n : ℚ) / 65536) = (n + 32768) / 65536 := by
    intro n
    rw [round_eq]
    have e : (n : ℚ) / 65536 + 1 / 2 = (((n + 32768 : Int)) : ℚ) / ((65536 : Nat) : ℚ) := by
      push_cast
      ring
    rw [e, Rat.floor_intCast_div_natCast]
    norm_num
  unfold roundAway
  by_cases hp : 0 ≤ p
  · have hq : (0 : ℚ) ≤ (p : ℚ) / 65536 := by
      have : (0 : ℚ) ≤ (p : ℚ) := by exact_mod_cast hp
      positivity
    rw [if_pos hq, if_pos hp, hfl]
  · have hq : ¬ (0 : ℚ) ≤ (p : ℚ) / 65536 := by
      have : (p : ℚ) < 0 := by exact_mod_cast (not_le.1 hp)
      have : (p : ℚ) / 65536 < 0 := div_neg_of_neg_of_pos this (by norm_num)
      linarith
    rw [if_neg hq, if_neg hp]
    have e : -((p : ℚ) / 65536) = ((-p : Int) : ℚ) / 65536 := by
      push_cast
      ring
    rw [e, hfl]

/-- C6 (counterexample): `(-1) * 32768` is exactly `-1/2`; round-half-up gives
`floor(0 / 65536) = 0`, the 64-bit `fix16_mul` returns `-1`. -/
theorem wide_mul_not_half_up :
    isI32 (-1) ∧ isI32 32768 ∧ Wide.fix16_mul true (-1) 32768 ≠ fix16_overflow ∧
    Wide.fix16_mul true (-1) 32768 ≠ ((-1) * 32768 + 32768) / 65536 := by
  decide

/-- C6 (amended): whenever the 64-bit `fix16_mul` does not return the overflow sentinel, its
result is `a * b / 65536` rounded to the nearest integer with halves away from zero:
`floor((a * b + 32768) / 65536)` for a product `≥ 0` and `-floor((-(a * b) + 32768) / 65536)`
for a negative product. -/
theorem wide_mul_half_away (a b : Int) (ha : isI32 a) (hb : isI32 b)
    (h : Wide.fix16_mul true a b ≠ fix16_overflow) :
    Wide.fix16_mul true a b =
      if 0 ≤ a * b then (a * b + 32768) / 65536 else -((-(a * b) + 32768) / 65536) := by
  rw [wide_mul_rounding a b ha hb] at h ⊢
  generalize a * b = p at h ⊢
  unfold fix16_overflow at h ⊢
  split_ifs at h ⊢ <;> omega

theorem wide_mul_half_away_witness :
    Wide.fix16_mul true (-1) 32768 =
      if 0 ≤ (-1 : Int) * 32768 then ((-1) * 32768 + 32768) / 65536
      else -((-((-1) * 32768) + 32768) / 65536) :=
  wide_mul_half_away (-1) 32768 (by decide) (by decide) (by decide)

/-- C10: `fix16_smul` on the 64-bit `fix16_mul` is `a * b / 65536` rounded to the nearest
integer, halves away from zero, then clamped to `[fix16_minimum, fix16_maximum]`; so
`smul(fix16_maximum, 2.0) = fix16_maximum` and `smul(fix16_minimum, 2.0) = fix16_minimum`. -/
theorem wide_smul_clamp (a b : Int) (ha : isI32 a) (hb : isI32 b) :
    fix16_smul (Wide.fix16_mul true) a b = clamp (roundAway ((a * b : ℚ) / 65536)) ∧
    fix16_smul (Wide.fix16_mul true) fix16_maximum 0x00020000 = fix16_maximum ∧
    fix16_smul (Wide.fix16_mul true) fix16_minimum 0x00020000 = fix16_minimum := by
  refine ⟨?_, by decide, by decide⟩
  have hcast : ((a : ℚ) * (b : ℚ)) = ((a * b : Int) : ℚ) := by push_cast; ring
  rw [hcast, roundAway_div]
  unfold fix16_smul
  simp only []
  rw [wide_mul_rounding a b ha hb]
  have hsign : (decide (a ≥ 0) = decide (b ≥ 0)) ↔ ((0 ≤ a ∧ 0 ≤ b) ∨ (a < 0 ∧ b < 0)) := by
    rw [decide_eq_decide]
    omega
  have hpos : (0 ≤ a ∧ 0 ≤ b) ∨ (a < 0 ∧ b < 0) → 0 ≤ a * b := by
    rintro (⟨h1, h2⟩ | ⟨h1, h2⟩)
    · exact mul_nonneg h1 h2
    · exact le_of_lt (mul_pos_of_neg_of_neg h1 h2)
  have hneg : ¬ ((0 ≤ a ∧ 0 ≤ b) ∨ (a < 0 ∧ b < 0)) → a * b ≤ 0 := by
    intro h
    by_cases h1 : 0 ≤ a
    · have h2 : b ≤ 0 := by omega
      exact mul_nonpos_of_nonneg_of_nonpos h1 h2
    · have h2 : 0 ≤ b := by omega
      exact mul_nonpos_of_nonpos_of_nonneg (by omega) h2
  simp only [hsign]
  generalize a * b = p at hpos hneg ⊢
  unfold clamp fix16_overflow fix16_maximum fix16_minimum
  by_cases hs : (0 ≤ a ∧ 0 ≤ b) ∨ (a < 0 ∧ b < 0)
  · have := hpos hs
    simp only [hs, if_true]
    split_ifs <;> omega
  · have := hneg hs
    simp only [hs, if_false]
    split_ifs <;> omega

theorem wide_smul_clamp_witness :
    fix16_smul (Wide.fix16_mul true) 2147483647 131072 =
      clamp (roundAway (((2147483647 : Int) * (131072 : Int) : ℚ) / 65536)) ∧
    fix16_smul (Wide.fix16_mul true) fix16_maximum 0x00020000 = fix16_maximum ∧
    fix16_smul (Wide.fix16_mul true) fix16_minimum 0x00020000 = fix16_minimum :=
  wide_smul_clamp 2147483647 131072 (by decide) (by decide)

/-! ## The split 16x16 multiplication -/

theorem signed_shift_right_16 (x : Int) : signed_shift_right x 16 = x / 65536 := by
  unfold signed_shift_right
  have h16 : Int.toNat 16 = 16 := rfl
  rw [if_neg (by norm_num), Int.shiftRight_eq_div_pow, h16]
  norm_num

theorem low_half (x : Int) :
    ∃ B : Nat, toU32 x &&& 0xFFFF = B ∧ (B : Int) = x % 65536 ∧ B < 65536 := by
  refine ⟨toU32 x % 65536, ?_, ?_, ?_⟩
  · exact Nat.and_pow_two_sub_one_eq_mod (toU32 x) 16
  · unfold toU32; omega
  · omega

theorem or_of_halves (h : Int) (l : Nat) :
    toU32 (wrapI32 (h * 2 ^ 16)) ||| ((l % 4294967296) >>> 16)
      = toU32 (h * 65536) + (l % 4294967296) / 65536 := by
  have e1 : toU32 (wrapI32 (h * 2 ^ 16)) = 2 ^ 16 * (toU32 (h * 65536) / 65536) := by
    rw [wrapI32_eq_emod]
    unfold toU32
    norm_num
    omega
  have e2 : toU32 (h * 65536) = 2 ^ 16 * (toU32 (h * 65536) / 65536) := by
    unfold toU32
    norm_num
    omega
  have e3 : (l % 4294967296) / 65536 < 2 ^ 16 := by
    norm_num
    omega
  rw [Nat.shiftRight_eq_div_pow, e1]
  conv_rhs => rw [e2]
  exact (Nat.mul_add_lt_is_or e3 _).symm

theorem toI32_small (u : Nat) (h : u < 2147483648) : toI32 u = (u : Int) := by
  rw [toI32_eq u (by omega), if_pos h]

theorem wrapI32_eq (x : Int) (h1 : -2147483648 ≤ x) (h2 : x ≤ 2147483647) : wrapI32 x = x := by
  rw [wrapI32_eq_emod]
  omega

/-- The four 16x16 partial products of two 32-bit operands: their ranges and the exact
product they add up to. -/
theorem partial_products (a b : Int) (ha : isI32 a) (hb : isI32 b) (B D : Nat)
    (hB : (B : Int) = a % 65536) (hD : (D : Int) = b % 65536) :
    a * b = a / 65536 * (b / 65536) * 4294967296
      + (a / 65536 * (D : Int) + b / 65536 * (B : Int)) * 65536 + ((B * D : Nat) : Int) ∧
    (-1073741824 ≤ a / 65536 * (b / 65536) ∧ a / 65536 * (b / 65536) ≤ 1073741824) ∧
    (-2147450880 ≤ a / 65536 * (D : Int) ∧ a / 65536 * (D : Int) ≤ 2147385345) ∧
    (-2147450880 ≤ b / 65536 * (B : Int) ∧ b / 65536 * (B : Int) ≤ 2147385345) ∧
    B * D ≤ 4294836225 := by
  unfold isI32 at ha hb
  have ea : a = a / 65536 * 65536 + (B : Int) := by omega
  have eb : b = b / 65536 * 65536 + (D : Int) := by omega
  have hA1 : -32768 ≤ a / 65536 := by omega
  have hA2 : a / 65536 ≤ 32767 := by omega
  have hC1 : -32768 ≤ b / 65536 := by omega
  have hC2 : b / 65536 ≤ 32767 := by omega
  have hB0 : (0 : Int) ≤ (B : Int) := by omega
  have hB1 : (B : Int) ≤ 65535 := by omega
  have hD0 : (0 : Int) ≤ (D : Int) := by omega
  have hD1 : (D : Int) ≤ 65535 := by omega
  generalize a / 65536 = A at ea hA1 hA2 ⊢
  generalize b / 65536 = C at eb hC1 hC2 ⊢
  have hBD : ((B * D : Nat) : Int) ≤ 4294836225 := by
    push_cast
    nlinarith
  refine ⟨?_, ⟨?_, ?_⟩, ⟨?_, ?_⟩, ⟨?_, ?_⟩, by exact_mod_cast hBD⟩
  · conv_lhs => rw [ea, eb]
    push_cast
    ring
  all_goals nlinarith

theorem split16_mul_truncating (a b : Int) (ha : isI32 a) (hb : isI32 b)
    (hp : -140737488355328 ≤ a * b ∧ a * b < 140737488355328)
    (h : Split16.fix16_mul false a b ≠ fix16_overflow) :
    Split16.fix16_mul false a b = a * b / 65536 := by
  obtain ⟨B, hB1, hB2, hB3⟩ := low_half a
  obtain ⟨D, hD1, hD2, hD3⟩ := low_half b
  obtain ⟨hprod, ⟨hac1, hac2⟩, ⟨had1, had2⟩, ⟨hcb1, hcb2⟩, hbd⟩ :=
    partial_products a b ha hb B D hB2 hD2
  unfold Split16.fix16_mul at h ⊢
  simp only [signed_shift_right_16, hB1, hD1, or_of_halves, toI32_small B (by omega),
    toI32_small D (by omega), Bool.false_eq_true, not_false_eq_true, if_true] at h ⊢
  rw [hprod] at hp ⊢
  clear hprod
  generalize a / 65536 * (b / 65536) = ac at *
  generalize a / 65536 * (D : Int) = ad at *
  generalize b / 65536 * (B : Int) = cb at *
  generalize B * D = bd at *
  simp only [wrapI32_eq ac (by omega) (by omega), wrapI32_eq ad (by omega) (by omega),
    wrapI32_eq cb (by omega) (by omega)] at h ⊢
  simp only [Int.shiftRight_eq_div_pow, Nat.shiftLeft_eq, wrapI32_eq_emod, toU32,
    fix16_overflow] at h ⊢
  rw [toI32_eq _ (by omega)]
  split_ifs at h ⊢ <;> omega

/-! ## The split 8x8 multiplication -/

theorem and_top_byte (m : Nat) (hm : m < 4294967296) :
    (m &&& 0xFF000000 ≠ 0) ↔ 16777216 ≤ m := by
  have h1 : m &&& 0xFF000000 ≤ m := Nat.and_le_left
  have h2 : (m &&& 0xFF000000) % 2 ^ 24 = 0 := by
    rw [← Nat.and_pow_two_sub_one_eq_mod, Nat.and_assoc]
    have : (0xFF000000 : Nat) &&& (2 ^ 24 - 1) = 0 := by decide
    rw [this, Nat.and_zero]
  have h3 : m = (m &&& 0xFF000000) ||| (m % 2 ^ 24) := by
    have e : m &&& (2 ^ 32 - 1) = m := Nat.and_pow_two_sub_one_of_lt_two_pow (by norm_num; omega)
    have e2 : (2 ^ 32 - 1 : Nat) = 0xFF000000 ||| (2 ^ 24 - 1) := by decide
    rw [e2, Nat.and_or_distrib_left, Nat.and_pow_two_sub_one_eq_mod] at e
    exact e.symm
  constructor
  · intro hne
    by_contra hlt
    have : m &&& 0xFF000000 < 2 ^ 24 := by norm_num; omega
    norm_num at h2 this
    omega
  · intro hge hz
    rw [hz, Nat.zero_or] at h3
    have : m % 2 ^ 24 < 2 ^ 24 := Nat.mod_lt _ (by norm_num)
    norm_num at h3 this
    omega

theorem accum_zero (x y : Nat) : Split8.accum 0 x y = (0 + x * y) % 4294967296 := by
  unfold Split8.accum
  split_ifs with h
  · rfl
  · have : x * y = 0 := by
      by_cases hx : x = 0
      · simp [hx]
      · have hy : y = 0 := by
          by_contra hy
          exact h ⟨hx, hy⟩
        simp [hy]
    simp [this]

theorem accum_mod (m x y : Nat) :
    Split8.accum (m % 4294967296) x y = (m % 4294967296 + x * y) % 4294967296 := by
  unfold Split8.accum
  split_ifs with h
  · rfl
  · have : x * y = 0 := by
      by_cases hx : x = 0
      · simp [hx]
      · have hy : y = 0 := by
          by_contra hy
          exact h ⟨hx, hy⟩
        simp [hy]
    simp [this]

theorem bytes_sum (x : Nat) (hx : x < 4294967296) :
    x = Split8.byte x 0 + 256 * Split8.byte x 1 + 65536 * Split8.byte x 2
      + 16777216 * Split8.byte x 3 ∧
    Split8.byte x 0 < 256 ∧ Split8.byte x 1 < 256 ∧ Split8.byte x 2 < 256 ∧
    Split8.byte x 3 < 256 := by
  unfold Split8.byte
  simp only [Nat.shiftRight_eq_div_pow]
  norm_num
  omega

theorem fix_abs_eq (a : Int) (ha : isI32 a) :
    ((fix_abs a : Nat) : Int) = (if a < 0 then -a else a) ∧ fix_abs a ≤ 2147483648 := by
  unfold isI32 at ha
  unfold fix_abs toU32
  split_ifs <;> omega

theorem fix_abs_mul (a b : Int) (ha : isI32 a) (hb : isI32 b) :
    ((fix_abs a * fix_abs b : Nat) : Int) = (if 0 ≤ a * b then a * b else -(a * b)) := by
  obtain ⟨ea, _⟩ := fix_abs_eq a ha
  obtain ⟨eb, _⟩ := fix_abs_eq b hb
  push_cast
  rw [ea, eb]
  by_cases h1 : a < 0 <;> by_cases h2 : b < 0
  · have : 0 ≤ a * b := le_of_lt (mul_pos_of_neg_of_neg h1 h2)
    rw [if_pos h1, if_pos h2, if_pos this]
    ring
  · have hle : a * b ≤ 0 := mul_nonpos_of_nonpos_of_nonneg (le_of_lt h1) (not_lt.1 h2)
    rw [if_pos h1, if_neg h2]
    split_ifs with h3
    · have : a * b = 0 := le_antisymm hle h3
      rw [this, neg_mul, this, neg_zero]
    · ring
  · have hle : a * b ≤ 0 := mul_nonpos_of_nonneg_of_nonpos (not_lt.1 h1) (le_of_lt h2)
    rw [if_neg h1, if_pos h2]
    split_ifs with h3
    · have : a * b = 0 := le_antisymm hle h3
      rw [this, mul_neg, this, neg_zero]
    · ring
  · have : 0 ≤ a * b := mul_nonneg (not_lt.1 h1) (not_lt.1 h2)
    rw [if_neg h1, if_neg h2, if_pos this]

theorem and_top_byte_mod (m : Nat) :
    ((m % 4294967296) &&& 0xFF000000 ≠ 0) ↔ 16777216 ≤ m % 4294967296 :=
  and_top_byte _ (Nat.mod_lt _ (by norm_num))

theorem and_signbit_mod (m : Nat) :
    ((m % 4294967296) &&& 0x80000000 ≠ 0) ↔ 2147483648 ≤ m % 4294967296 := by
  rw [and_signbit _ (Nat.mod_lt _ (by norm_num))]
  split_ifs <;> omega

theorem byte_mul_le (u v : Nat) (hu : u < 256) (hv : v < 256) : u * v ≤ 65025 :=
  Nat.mul_le_mul (Nat.le_of_lt_succ hu) (Nat.le_of_lt_succ hv)

theorem split8_mul_truncating (a b : Int) (ha : isI32 a) (hb : isI32 b)
    (hp : -140737488355328 < a * b ∧ a * b < 140737488355328) :
    Split8.fix16_mul false a b =
      if 0 ≤ a * b then a * b / 65536 else -(-(a * b) / 65536) := by
  have hxy := fix_abs_mul a b ha hb
  obtain ⟨_, hx⟩ := fix_abs_eq a ha
  obtain ⟨_, hy⟩ := fix_abs_eq b hb
  have hsame : decide (a ≥ 0) = decide (b ≥ 0) → 0 ≤ a * b := by
    rw [decide_eq_decide]
    intro h
    by_cases h1 : 0 ≤ a
    · exact mul_nonneg h1 (h.1 h1)
    · have h2 : ¬ 0 ≤ b := fun hb0 => h1 (h.2 hb0)
      exact le_of_lt (mul_pos_of_neg_of_neg (not_le.1 h1) (not_le.1 h2))
  have hdiff : decide (a ≥ 0) ≠ decide (b ≥ 0) → a * b ≤ 0 := by
    intro h
    rw [Ne, decide_eq_decide] at h
    by_cases h1 : 0 ≤ a
    · have h2 : ¬ 0 ≤ b := fun hb0 => h ⟨fun _ => hb0, fun _ => h1⟩
      exact mul_nonpos_of_nonneg_of_nonpos h1 (le_of_lt (not_le.1 h2))
    · have h2 : 0 ≤ b := by
        by_contra hb0
        exact h ⟨fun h' => absurd h' h1, fun h' => absurd h' hb0⟩
      exact mul_nonpos_of_nonpos_of_nonneg (le_of_lt (not_le.1 h1)) h2
  unfold Split8.fix16_mul
  simp only [accum_zero, accum_mod, Split8.shl8, Nat.shiftLeft_eq, Nat.shiftRight_eq_div_pow,
    Bool.false_eq_true, if_false, and_top_byte_mod, and_signbit_mod, fix16_overflow,
    wrapI32_eq_emod]
  generalize a * b = p at *
  generalize fix_abs a = x at *
  generalize fix_abs b = y at *
  obtain ⟨ex, hx0, hx1, hx2, hx3⟩ := bytes_sum x (by omega)
  obtain ⟨ey, hy0, hy1, hy2, hy3⟩ := bytes_sum y (by omega)
  have hprod : x * y =
      Split8.byte x 0 * Split8.byte y 0
      + 256 * (Split8.byte x 0 * Split8.byte y 1 + Split8.byte x 1 * Split8.byte y 0)
      + 65536 * (Split8.byte x 0 * Split8.byte y 2 + Split8.byte x 1 * Split8.byte y 1
          + Split8.byte x 2 * Split8.byte y 0)
      + 16777216 * (Split8.byte x 0 * Split8.byte y 3 + Split8.byte x 1 * Split8.byte y 2
          + Split8.byte x 2 * Split8.byte y 1 + Split8.byte x 3 * Split8.byte y 0)
      + 4294967296 * (Split8.byte x 1 * Split8.byte y 3 + Split8.byte x 2 * Split8.byte y 2
          + Split8.byte x 3 * Split8.byte y 1)
      + 1099511627776 * (Split8.byte x 2 * Split8.byte y 3 + Split8.byte x 3 * Split8.byte y 2)
      + 281474976710656 * (Split8.byte x 3 * Split8.byte y 3) := by
    conv_lhs => rw [ex, ey]
    ring
  have h33 : Split8.byte x 3 ≠ 0 ∧ Split8.byte y 3 ≠ 0 →
      1 ≤ Split8.byte x 3 * Split8.byte y 3 := by
    rintro ⟨h1, h2⟩
    exact Nat.mul_pos (Nat.pos_of_ne_zero h1) (Nat.pos_of_ne_zero h2)
  rw [hprod] at hxy
  clear hprod ex ey
  have b00 := byte_mul_le _ _ hx0 hy0
  have b01 := byte_mul_le _ _ hx0 hy1
  have b02 := byte_mul_le _ _ hx0 hy2
  have b03 := byte_mul_le _ _ hx0 hy3
  have b10 := byte_mul_le _ _ hx1 hy0
  have b11 := byte_mul_le _ _ hx1 hy1
  have b12 := byte_mul_le _ _ hx1 hy2
  have b13 := byte_mul_le _ _ hx1 hy3
  have b20 := byte_mul_le _ _ hx2 hy0
  have b21 := byte_mul_le _ _ hx2 hy1
  have b22 := byte_mul_le _ _ hx2 hy2
  have b23 := byte_mul_le _ _ hx2 hy3
  have b30 := byte_mul_le _ _ hx3 hy0
  have b31 := byte_mul_le _ _ hx3 hy1
  have b32 := byte_mul_le _ _ hx3 hy2
  have b33 := byte_mul_le _ _ hx3 hy3
  generalize Split8.byte x 0 * Split8.byte y 0 = p00 at *
  generalize Split8.byte x 0 * Split8.byte y 1 = p01 at *
  generalize Split8.byte x 0 * Split8.byte y 2 = p02 at *
  generalize Split8.byte x 0 * Split8.byte y 3 = p03 at *
  generalize Split8.byte x 1 * Split8.byte y 0 = p10 at *
  generalize Split8.byte x 1 * Split8.byte y 1 = p11 at *
  generalize Split8.byte x 1 * Split8.byte y 2 = p12 at *
  generalize Split8.byte x 1 * Split8.byte y 3 = p13 at *
  generalize Split8.byte x 2 * Split8.byte y 0 = p20 at *
  generalize Split8.byte x 2 * Split8.byte y 1 = p21 at *
  generalize Split8.byte x 2 * Split8.byte y 2 = p22 at *
  generalize Split8.byte x 2 * Split8.byte y 3 = p23 at *
  generalize Split8.byte x 3 * Split8.byte y 0 = p30 at *
  generalize Split8.byte x 3 * Split8.byte y 1 = p31 at *
  generalize Split8.byte x 3 * Split8.byte y 2 = p32 at *
  generalize Split8.byte x 3 * Split8.byte y 3 = p33 at *
  push_cast at hxy
  have hT : p00 + 256 * (p01 + p10) + 65536 * (p02 + p11 + p20)
      + 16777216 * (p03 + p12 + p21 + p30) + 4294967296 * (p13 + p22 + p31)
      + 1099511627776 * (p23 + p32) + 281474976710656 * p33 < 140737488355328 := by
    split_ifs at hxy
    · omega
    · omega
  by_cases h3 : Split8.byte x 3 ≠ 0 ∧ Split8.byte y 3 ≠ 0
  · exfalso
    have := h33 h3
    omega
  · rw [if_neg h3]
    simp (disch := omega) only [Nat.mod_eq_of_lt]
    norm_num only
    rw [if_neg (by omega), if_neg (by omega), if_neg (by omega), toI32_small _ (by omega)]
    by_cases hs : decide (a ≥ 0) = decide (b ≥ 0)
    · have hp0 := hsame hs
      rw [if_neg (not_not.2 hs), if_pos hp0]
      rw [if_pos hp0] at hxy
      omega
    · have := hdiff hs
      rw [if_pos hs]
      split_ifs at hxy ⊢ <;> omega

/-! ## C7-C9: the three multiplication variants compared -/

/-- C7 (failing inputs): at `a = 0xFFFFFFFF`, `b = 0x8000FFFF` the exact product is
`2^31 - 65535`, the 64-bit `fix16_mul` returns `0x00007FFF` and the split 16x16 variant the
overflow sentinel; at `a = 0x0002FFFF`, `b = 0x7FFFFFFF` the product exceeds `2^47`, the
64-bit variant returns the sentinel and the split 16x16 variant `0x7FFF7FFD`.  In both the
sum `AD + CB` leaves the 32-bit range. -/
theorem split16_mul_differs :
    (isI32 (-1) ∧ isI32 (-2147418113) ∧
      Wide.fix16_mul true (-1) (-2147418113) = 32767 ∧
      Split16.fix16_mul true (-1) (-2147418113) = fix16_overflow) ∧
    (isI32 196607 ∧ isI32 2147483647 ∧
      Wide.fix16_mul true 196607 2147483647 = fix16_overflow ∧
      Split16.fix16_mul true 196607 2147483647 = 2147450877) := by
  decide

/-- C8 (failing input): at `a = 0x00FFFFFF`, `b = 0x01000001` the exact product is
`2^48 - 1`; the 64-bit `fix16_mul` returns the overflow sentinel, the split 8x8 variant
returns `0`, its `mid` accumulator wrapping past `2^32` in `mid += (low >> 16)`. -/
theorem split8_mul_differs :
    isI32 16777215 ∧ isI32 16777217 ∧
    Wide.fix16_mul true 16777215 16777217 = fix16_overflow ∧
    Split8.fix16_mul true 16777215 16777217 = 0 := by
  decide

/-- C9 (counterexample): with rounding disabled and the raw operands `-1` and `1`, no
variant returns the sentinel; the 64-bit and the split 16x16 variants return `-1`, the
split 8x8 variant returns `0`. -/
theorem mul_truncating_differs :
    isI32 (-1) ∧ isI32 1 ∧
    Wide.fix16_mul false (-1) 1 = -1 ∧ Split16.fix16_mul false (-1) 1 = -1 ∧
    Split8.fix16_mul false (-1) 1 = 0 ∧
    Wide.fix16_mul false (-1) 1 ≠ fix16_overflow ∧
    Split16.fix16_mul false (-1) 1 ≠ fix16_overflow ∧
    Split8.fix16_mul false (-1) 1 ≠ fix16_overflow := by
  decide

/-- C9 (amended): with rounding disabled, for every pair `a`, `b` on which none of the three
variants returns the overflow sentinel, the 64-bit and the split 16x16 `fix16_mul` return the
same value; the split 8x8 variant returns that value too when `a * b ≥ 0` or `a * b` is a
multiple of `65536`, and that value plus one (truncation toward zero instead of toward minus
infinity) otherwise. -/
theorem mul_truncating_agree (a b : Int) (ha : isI32 a) (hb : isI32 b)
    (hw : Wide.fix16_mul false a b ≠ fix16_overflow)
    (h16 : Split16.fix16_mul false a b ≠ fix16_overflow)
    (_h8 : Split8.fix16_mul false a b ≠ fix16_overflow) :
    Split16.fix16_mul false a b = Wide.fix16_mul false a b ∧
    (0 ≤ a * b ∨ a * b % 65536 = 0 →
      Split8.fix16_mul false a b = Wide.fix16_mul false a b) ∧
    (a * b < 0 ∧ a * b % 65536 ≠ 0 →
      Split8.fix16_mul false a b = Wide.fix16_mul false a b + 1) := by
  have ew := wide_mul_truncating a b ha hb
  have hr : -140737488355328 + 65536 ≤ a * b ∧ a * b < 140737488355328 := by
    rw [ew] at hw
    unfold fix16_overflow at hw
    split_ifs at hw <;> omega
  have e16 := split16_mul_truncating a b ha hb ⟨by omega, hr.2⟩ h16
  have e8 := split8_mul_truncating a b ha hb ⟨by omega, hr.2⟩
  rw [e16, e8, ew]
  generalize a * b = p at hr ⊢
  rw [if_neg (by omega)]
  refine ⟨rfl, ?_, ?_⟩
  · intro h
    split_ifs <;> omega
  · intro h
    split_ifs <;> omega

theorem mul_truncating_agree_witness :
    Split16.fix16_mul false (-1) 1 = Wide.fix16_mul false (-1) 1 ∧
    (0 ≤ (-1 : Int) * 1 ∨ (-1 : Int) * 1 % 65536 = 0 →
      Split8.fix16_mul false (-1) 1 = Wide.fix16_mul false (-1) 1) ∧
    ((-1 : Int) * 1 < 0 ∧ (-1 : Int) * 1 % 65536 ≠ 0 →
      Split8.fix16_mul false (-1) 1 = Wide.fix16_mul false (-1) 1 + 1) :=
  mul_truncating_agree (-1) 1 (by decide) (by decide) (by decide) (by decide) (by decide)

/-! ## The software division -/

theorem align_spec (n : Nat) : ∀ (r d bit : Nat), 1 ≤ d → r ≤ d * 2 ^ n → r ≤ 2147483648 →
    bit < 4294967296 →
    ∃ k, k ≤ n ∧ Soft.align (n + 1) r d bit = some (d * 2 ^ k, (bit * 2 ^ k) % 4294967296) ∧
      r ≤ d * 2 ^ k ∧ (k = 0 ∨ d * 2 ^ k < 2 * r) := by
  induction n with
  | zero =>
    intro r d bit hd hr _ hbit
    refine ⟨0, le_refl _, ?_, by simpa using hr, Or.inl rfl⟩
    have hnot : ¬ d < r := by simp at hr; omega
    simp only [Soft.align, if_neg hnot, pow_zero, mul_one, Nat.mod_eq_of_lt hbit]
  | succ n ih =>
    intro r d bit hd hr hr31 hbit
    by_cases hlt : d < r
    · obtain ⟨k, hk, hal, hle, hmin⟩ := ih r (2 * d) ((bit <<< 1) % 4294967296) (by omega)
        (by rw [pow_succ] at hr; nlinarith) hr31 (Nat.mod_lt _ (by norm_num))
      have e2 : 2 * d * 2 ^ k = d * 2 ^ (k + 1) := by rw [pow_succ]; ring
      refine ⟨k + 1, by omega, ?_, ?_, ?_⟩
      · rw [Soft.align, if_pos hlt]
        have e1 : (d <<< 1) % 4294967296 = 2 * d := by
          rw [Nat.shiftLeft_eq]; omega
        rw [e1, hal]
        have e3 : (bit <<< 1 % 4294967296 * 2 ^ k) % 4294967296
            = (bit * 2 ^ (k + 1)) % 4294967296 := by
          rw [Nat.shiftLeft_eq, Nat.mod_mul_mod, pow_succ]
          congr 1
          ring
        rw [e2, e3]
      · rw [← e2]; exact hle
      · right
        rw [← e2]
        rcases hmin with h0 | h
        · subst h0; simp; omega
        · exact h
    · refine ⟨0, by omega, ?_, by simp; omega, Or.inl rfl⟩
      rw [Soft.align, if_neg hlt]
      simp [Nat.mod_eq_of_lt hbit]

theorem or_two_pow (q j : Nat) (h : q % 2 ^ (j + 1) = 0) : q ||| 2 ^ j = q + 2 ^ j := by
  have hq : q = 2 ^ (j + 1) * (q / 2 ^ (j + 1)) := by
    have := Nat.div_add_mod q (2 ^ (j + 1))
    omega
  have hlt : 2 ^ j < 2 ^ (j + 1) := Nat.pow_lt_pow_right (by norm_num) (by omega)
  rw [hq]
  exact (Nat.mul_add_lt_is_or hlt _).symm

theorem mod_two_pow_pred (q j : Nat) (h : q % 2 ^ (j + 1 + 1) = 0) : q % 2 ^ (j + 1) = 0 :=
  Nat.mod_eq_zero_of_dvd (dvd_trans (pow_dvd_pow 2 (Nat.le_succ (j + 1)))
    (Nat.dvd_of_mod_eq_zero h))

theorem add_two_pow_mod (q j : Nat) (h : q % 2 ^ (j + 1 + 1) = 0) :
    (q + 2 ^ (j + 1)) % 2 ^ (j + 1) = 0 :=
  Nat.mod_eq_zero_of_dvd (dvd_add (Nat.dvd_of_mod_eq_zero (mod_two_pow_pred q j h))
    (dvd_refl _))

theorem main_spec (Dv : Nat) (hDv2 : Dv < 2147483648) (j : Nat) :
    ∀ (fuel rem q : Nat), j + 2 ≤ fuel → rem < 2 * Dv → q % 2 ^ (j + 1) = 0 →
    ∃ q' rem', Soft.mainLoop fuel Dv (2 ^ j) rem q = some (q', rem') ∧ rem' < 2 * Dv ∧
      2 ^ (j + 1) * rem + 2 * q * Dv = 2 * q' * Dv + rem' := by
  induction j with
  | zero =>
    intro fuel rem q hf hrem hq
    obtain ⟨f, rfl⟩ : ∃ f, fuel = f + 2 := ⟨fuel - 2, by omega⟩
    by_cases h0 : rem = 0
    · subst h0
      exact ⟨q, 0, by simp [Soft.mainLoop], by omega, by ring⟩
    · by_cases hge : rem ≥ Dv
      · obtain ⟨s, rfl⟩ : ∃ s, rem = s + Dv := ⟨rem - Dv, by omega⟩
        refine ⟨q + 1, 2 * s, ?_, by omega, ?_⟩
        · have e1 : ((s + Dv + 4294967296 - Dv) % 4294967296) <<< 1 % 4294967296
              = 2 * s := by
            rw [Nat.shiftLeft_eq]; omega
          have e2 : q ||| 1 = q + 1 := by simpa using or_two_pow q 0 hq
          simp [Soft.mainLoop, h0, hge, e1, e2]
        · ring
      · refine ⟨q, 2 * rem, ?_, by omega, ?_⟩
        · have e1 : rem <<< 1 % 4294967296 = 2 * rem := by
            rw [Nat.shiftLeft_eq]; omega
          simp [Soft.mainLoop, h0, hge, e1]
        · ring
  | succ j ih =>
    intro fuel rem q hf hrem hq
    obtain ⟨f, rfl⟩ : ∃ f, fuel = f + 1 := ⟨fuel - 1, by omega⟩
    have hpos : 2 ^ (j + 1) ≠ 0 := by positivity
    have hshift : 2 ^ (j + 1) >>> 1 = 2 ^ j := by
      rw [Nat.shiftRight_eq_div_pow, pow_succ]; simp
    have h2 : 2 ^ (j + 1 + 1) = 2 ^ (j + 1) * 2 := pow_succ 2 (j + 1)
    by_cases h0 : rem = 0
    · subst h0
      exact ⟨q, 0, by simp [Soft.mainLoop], by omega, by ring⟩
    · by_cases hge : rem ≥ Dv
      · obtain ⟨s, rfl⟩ : ∃ s, rem = s + Dv := ⟨rem - Dv, by omega⟩
        have e1 : ((s + Dv + 4294967296 - Dv) % 4294967296) <<< 1 % 4294967296
            = 2 * s := by
          rw [Nat.shiftLeft_eq]; omega
        have e2 : q ||| 2 ^ (j + 1) = q + 2 ^ (j + 1) := or_two_pow q (j + 1) hq
        obtain ⟨q', rem', hl, hr', heq⟩ := ih f (2 * s) (q + 2 ^ (j + 1)) (by omega)
          (by omega) (add_two_pow_mod q j hq)
        refine ⟨q', rem', ?_, hr', ?_⟩
        · rw [Soft.mainLoop]
          simp only [hpos, h0, ne_eq, not_false_eq_true, and_self, if_true, hge, hshift, e1, e2]
          exact hl
        · rw [← heq, h2]
          ring
      · have e1 : rem <<< 1 % 4294967296 = 2 * rem := by
          rw [Nat.shiftLeft_eq]; omega
        obtain ⟨q', rem', hl, hr', heq⟩ := ih f (2 * rem) q (by omega) (by omega)
          (mod_two_pow_pred q j hq)
        refine ⟨q', rem', ?_, hr', ?_⟩
        · rw [Soft.mainLoop]
          simp only [hpos, h0, ne_eq, not_false_eq_true, and_self, if_true, hge, hshift, e1]
          exact hl
        · rw [← heq, h2]
          ring
theorem div_unique_scaled (E T d q' rem' : Nat) (hE : 1 ≤ E) (hd : 1 ≤ d)
    (h : E * T = q' * (E * d) + rem') (hlt : rem' < E * d) :
    q' = T / d ∧ rem' = E * (T % d) := by
  have hle : q' * d ≤ T := by
    have : E * (q' * d) ≤ E * T := by rw [h]; nlinarith
    exact Nat.le_of_mul_le_mul_left this (by omega)
  obtain ⟨R, hR⟩ : ∃ R, T = q' * d + R := ⟨T - q' * d, by omega⟩
  have hrem : rem' = E * R := by
    rw [hR] at h
    nlinarith
  have hRlt : R < d := by
    rw [hrem] at hlt
    exact Nat.lt_of_mul_lt_mul_left hlt
  have := (Nat.div_mod_unique (show 0 < d by omega)).2 ⟨show R + d * q' = T by rw [hR]; ring, hRlt⟩
  exact ⟨this.1.symm, by rw [this.2, hrem]⟩

theorem round_quot (T d : Nat) (hd : 1 ≤ d) :
    (if 2 * (T % d) ≥ d then T / d + 1 else T / d) = (2 * T + d) / (2 * d) := by
  have hT := Nat.div_add_mod T d
  have hR := Nat.mod_lt T (show d > 0 by omega)
  generalize T / d = q at *
  generalize T % d = R at *
  symm
  split_ifs with h
  · apply Nat.div_eq_of_lt_le
    · rw [← hT]; nlinarith
    · rw [← hT]; nlinarith
  · apply Nat.div_eq_of_lt_le
    · rw [← hT]; nlinarith
    · rw [← hT]; nlinarith
theorem two_mul_mod_iff (E R d : Nat) (hE : 1 ≤ E) : E * d ≤ 2 * (E * R) ↔ d ≤ 2 * R := by
  constructor
  · intro h
    have : E * d ≤ E * (2 * R) := by nlinarith
    exact Nat.le_of_mul_le_mul_left this (by omega)
  · intro h
    nlinarith

/-- The main loop after an alignment that left the top bit of the divider clear. -/
theorem core_plain (fuel r d k : Nat) (hf : 34 ≤ fuel) (hk : k ≤ 15) (hd : 1 ≤ d)
    (hr : r ≤ d * 2 ^ k) (hD : d * 2 ^ k < 2147483648) :
    ∃ q' rem', Soft.mainLoop fuel (d * 2 ^ k) (2 ^ (16 + k)) r 0 = some (q', rem') ∧
      q' = r * 65536 / d ∧ (rem' ≥ d * 2 ^ k ↔ 2 * (r * 65536 % d) ≥ d) := by
  have hDpos : 1 ≤ d * 2 ^ k := Nat.mul_pos hd (Nat.one_le_two_pow)
  obtain ⟨q', rem', hl, hlt, heq⟩ := main_spec (d * 2 ^ k) hD (16 + k) fuel r 0 (by omega)
    (by omega) (by simp)
  have hE : 1 ≤ 2 ^ (k + 1) := Nat.one_le_two_pow
  have hscaled : 2 ^ (k + 1) * (r * 65536) = q' * (2 ^ (k + 1) * d) + rem' := by
    have e : 2 ^ (16 + k + 1) = 2 ^ (k + 1) * 65536 := by
      rw [show 16 + k + 1 = (k + 1) + 16 by ring, pow_add]; norm_num
    rw [e] at heq
    have e2 : 2 ^ (k + 1) * d = 2 * (d * 2 ^ k) := by rw [pow_succ]; ring
    rw [e2]
    nlinarith
  have hlt2 : rem' < 2 ^ (k + 1) * d := by
    have e2 : 2 ^ (k + 1) * d = 2 * (d * 2 ^ k) := by rw [pow_succ]; ring
    rw [e2]; exact hlt
  obtain ⟨hq, hrem⟩ := div_unique_scaled _ _ _ _ _ hE hd hscaled hlt2
  refine ⟨q', rem', hl, hq, ?_⟩
  rw [hrem]
  have hk1 : 1 ≤ 2 ^ k := Nat.one_le_two_pow
  have := two_mul_mod_iff (2 ^ k) (r * 65536 % d) d hk1
  have e3 : 2 ^ (k + 1) * (r * 65536 % d) = 2 * (2 ^ k * (r * 65536 % d)) := by
    rw [pow_succ]; ring
  rw [e3, ge_iff_le, ge_iff_le, mul_comm d (2 ^ k)]
  exact this

/-- The main loop after the manual first step, taken when the aligned divider has its top
bit set. -/
theorem core_pre (fuel r d k : Nat) (hf : 34 ≤ fuel) (hk : k ≤ 15) (hd : 1 ≤ d)
    (hr : r ≤ d * 2 ^ k) (hD1 : 2147483648 ≤ d * 2 ^ k) (hD2 : d * 2 ^ k < 4294967296)
    (heven : d * 2 ^ k % 2 = 0) :
    ∃ q' rem', Soft.mainLoop fuel ((d * 2 ^ k) >>> 1) (2 ^ (16 + k) >>> 1)
        (if r ≥ d * 2 ^ k then (r + 4294967296 - d * 2 ^ k) % 4294967296 else r)
        (if r ≥ d * 2 ^ k then 0 ||| 2 ^ (16 + k) else 0) = some (q', rem') ∧
      q' = r * 65536 / d ∧ (rem' ≥ (d * 2 ^ k) >>> 1 ↔ 2 * (r * 65536 % d) ≥ d) := by
  obtain ⟨D', hD'⟩ : ∃ D', d * 2 ^ k = 2 * D' := ⟨d * 2 ^ k / 2, by omega⟩
  have hs1 : (d * 2 ^ k) >>> 1 = D' := by
    rw [Nat.shiftRight_eq_div_pow, hD']; simp
  have hs2 : 2 ^ (16 + k) >>> 1 = 2 ^ (15 + k) := by
    rw [Nat.shiftRight_eq_div_pow, show 16 + k = (15 + k) + 1 by ring, pow_succ]; simp
  have hq0 : (2 ^ (16 + k)) % 2 ^ (15 + k + 1) = 0 := by
    rw [show 15 + k + 1 = 16 + k by ring]; simp
  have hE : 1 ≤ 2 ^ k := Nat.one_le_two_pow
  have e16 : 2 ^ (15 + k + 1) = 2 ^ k * 65536 := by
    rw [show 15 + k + 1 = k + 16 by ring, pow_add]; norm_num
  rw [hs1, hs2]
  have key : ∀ q' rem', rem' < 2 * D' → 2 ^ k * (r * 65536) = q' * (2 ^ k * d) + rem' →
      q' = r * 65536 / d ∧ (rem' ≥ D' ↔ 2 * (r * 65536 % d) ≥ d) := by
    intro q' rem' hlt hscaled
    have hlt2 : rem' < 2 ^ k * d := by rw [mul_comm, hD']; exact hlt
    obtain ⟨hq, hrem⟩ := div_unique_scaled _ _ _ _ _ hE hd hscaled hlt2
    refine ⟨hq, ?_⟩
    rw [hrem]
    have := two_mul_mod_iff (2 ^ k) (r * 65536 % d) d hE
    rw [mul_comm (2 ^ k) d, hD'] at this
    rw [ge_iff_le, ge_iff_le, ← this]
    omega
  by_cases hit : r ≥ d * 2 ^ k
  · have hreq : r = 2 * D' := by omega
    have e0 : (r + 4294967296 - d * 2 ^ k) % 4294967296 = 0 := by omega
    have e1 : 0 ||| 2 ^ (16 + k) = 2 ^ (16 + k) := by simp
    rw [if_pos hit, if_pos hit, e0, e1]
    obtain ⟨q', rem', hl, hlt, heq⟩ := main_spec D' (by omega) (15 + k) fuel 0
      (2 ^ (16 + k)) (by omega) (by omega) hq0
    refine ⟨q', rem', hl, key q' rem' hlt ?_⟩
    have e2 : 2 ^ (16 + k) = 2 ^ k * 65536 := by
      rw [show 16 + k = k + 16 by ring, pow_add]; norm_num
    rw [e2] at heq
    rw [mul_comm (2 ^ k) d, hD', hreq]
    nlinarith
  · rw [if_neg hit, if_neg hit]
    obtain ⟨q', rem', hl, hlt, heq⟩ := main_spec D' (by omega) (15 + k) fuel r 0
      (by omega) (by omega) (by simp)
    refine ⟨q', rem', hl, key q' rem' hlt ?_⟩
    rw [e16] at heq
    rw [mul_comm (2 ^ k) d, hD']
    nlinarith
theorem and_signbit_ne (x : Nat) (hx : x < 4294967296) :
    (x &&& 0x80000000 ≠ 0) ↔ 2147483648 ≤ x := by
  rw [and_signbit x hx]
  split_ifs <;> omega

theorem soft_div_eq (fuel : Nat) (hf : 34 ≤ fuel) (a b : Int) (ha : isI32 a) (hb : isI32 b)
    (hb0 : b ≠ 0) :
    Soft.fix16_div true fuel a b = some (
      if (0 ≤ a ↔ 0 ≤ b) then
        (if (2 * (fix_abs a * 65536) + fix_abs b) / (2 * fix_abs b) < 2147483648 then
          (((2 * (fix_abs a * 65536) + fix_abs b) / (2 * fix_abs b) : Nat) : Int)
        else fix16_overflow)
      else
        (if (2 * (fix_abs a * 65536) + fix_abs b) / (2 * fix_abs b) ≤ 2147483648 then
          -(((2 * (fix_abs a * 65536) + fix_abs b) / (2 * fix_abs b) : Nat) : Int)
        else fix16_overflow)) := by
  obtain ⟨ear, hr⟩ := fix_abs_eq a ha
  obtain ⟨ebd, hd2⟩ := fix_abs_eq b hb
  have hsign := xor_signbit (toU32 a) (toU32 b) (toU32_lt a) (toU32_lt b)
  have eua := toU32_of_isI32 a ha
  have eub := toU32_of_isI32 b hb
  have hsign' : ((toU32 a ^^^ toU32 b) &&& 0x80000000 ≠ 0) ↔ ¬ (0 ≤ a ↔ 0 ≤ b) := by
    rw [hsign]
    unfold isI32 at ha hb
    split_ifs at eua eub <;> omega
  have hd1 : 1 ≤ fix_abs b := by
    split_ifs at ebd <;> omega
  unfold Soft.fix16_div
  simp only [hb0, ne_eq, not_false_eq_true, if_true, hsign']
  generalize fix_abs a = r at *
  generalize fix_abs b = d at *
  obtain ⟨n, rfl⟩ : ∃ n, fuel = n + 1 := ⟨fuel - 1, by omega⟩
  have hpow : r ≤ d * 2 ^ n := by
    have h1 : 2 ^ 31 ≤ 2 ^ n := Nat.pow_le_pow_right (by norm_num) (by omega)
    have h2 : 2 ^ n ≤ d * 2 ^ n := Nat.le_mul_of_pos_left _ (by omega)
    norm_num at h1
    omega
  obtain ⟨k, hkn, hal, hle, hmin⟩ := align_spec n r d 0x10000 hd1 hpow hr (by norm_num)
  rw [hal]
  simp only []
  have hD32 : d * 2 ^ k < 4294967296 := by
    rcases hmin with h0 | h
    · subst h0; simp; omega
    · omega
  by_cases hk : 16 ≤ k
  · -- the bit has been shifted out: the quotient needs more than 32 bits
    have hbit : 65536 * 2 ^ k % 4294967296 = 0 := by
      obtain ⟨m, rfl⟩ : ∃ m, k = 16 + m := ⟨k - 16, by omega⟩
      rw [pow_add]
      norm_num
      omega
    have h16 : 2 ^ 16 ≤ 2 ^ k := Nat.pow_le_pow_right (by norm_num) hk
    have hbig : 65536 * d < 2 * r := by
      rcases hmin with h0 | h
      · omega
      · norm_num at h16
        nlinarith
    have hM : 2147483648 ≤ (2 * (r * 65536) + d) / (2 * d) := by
      rw [Nat.le_div_iff_mul_le (by omega)]
      nlinarith
    rw [if_pos hbit]
    unfold fix16_overflow
    split_ifs <;> first | rfl | (congr 1; omega)
  · have hk15 : k ≤ 15 := by omega
    have hbit : 65536 * 2 ^ k % 4294967296 = 2 ^ (16 + k) := by
      have e : 65536 * 2 ^ k = 2 ^ (16 + k) := by rw [pow_add]; norm_num
      have hlt : 2 ^ (16 + k) < 2 ^ 32 := Nat.pow_lt_pow_right (by norm_num) (by omega)
      rw [e]
      exact Nat.mod_eq_of_lt (by norm_num at hlt ⊢; exact hlt)
    have hbitne : 2 ^ (16 + k) ≠ 0 := by positivity
    have h15 : 2 ^ k ≤ 2 ^ 15 := Nat.pow_le_pow_right (by norm_num) hk15
    have hM : (2 * (r * 65536) + d) / (2 * d) ≤ 2147483648 := by
      have : (2 * (r * 65536) + d) / (2 * d) < 2147483649 := by
        rw [Nat.div_lt_iff_lt_mul (by omega)]
        norm_num at h15
        nlinarith
      omega
    have hround := round_quot (r * 65536) d hd1
    rw [hbit, if_neg hbitne]
    have hand : ¬ (d * 2 ^ k &&& 2147483648 = 0) ↔ 2147483648 ≤ d * 2 ^ k :=
      and_signbit_ne _ hD32
    -- what the loop leaves, and the rounded quotient it amounts to
    have hfin : ∀ (Dv q' rem' : Nat), q' = r * 65536 / d →
        (rem' ≥ Dv ↔ 2 * (r * 65536 % d) ≥ d) →
        (if True ∧ rem' ≥ Dv then (q' + 1) % 4294967296 else q')
          = (2 * (r * 65536) + d) / (2 * d) := by
      intro Dv q' rem' hq hrnd
      rw [← hround, hq]
      simp only [true_and, hrnd]
      split_ifs with h
      · rw [if_pos h] at hround
        omega
      · rfl
    have hfinal : ∀ M : Nat, M ≤ 2147483648 →
        (if ¬(0 ≤ a ↔ 0 ≤ b) then
          if toI32 M = fix16_minimum then some fix16_overflow
          else some (wrapI32 (-toI32 M))
        else some (toI32 M)) =
        some (if 0 ≤ a ↔ 0 ≤ b then
          if M < 2147483648 then (M : Int) else fix16_overflow
        else if M ≤ 2147483648 then -(M : Int) else fix16_overflow) := by
      intro M hM'
      rw [toI32_eq M (by omega), wrapI32_eq_emod]
      unfold fix16_minimum fix16_overflow
      by_cases hs : (0 ≤ a ↔ 0 ≤ b)
      · simp only [hs, not_true_eq_false, if_false, if_true]
        split_ifs <;> first | rfl | contradiction | (congr 1; omega)
      · simp only [hs, not_false_eq_true, if_false, if_true]
        split_ifs <;> first | rfl | contradiction | (congr 1; omega)
    by_cases hpre : 2147483648 ≤ d * 2 ^ k
    · have heven : d * 2 ^ k % 2 = 0 := by
        rcases Nat.eq_zero_or_pos k with h0 | h0
        · subst h0
          rw [pow_zero, mul_one] at hpre ⊢
          omega
        · obtain ⟨m, rfl⟩ : ∃ m, k = m + 1 := ⟨k - 1, by omega⟩
          rw [pow_succ, ← mul_assoc]
          exact Nat.mul_mod_left _ _
      obtain ⟨q', rem', hl, hq, hrnd⟩ := core_pre (n + 1) r d k hf hk15 hd1 hle hpre hD32 heven
      simp only [hand, hpre, decide_True, Bool.true_and, if_true, decide_eq_true_eq]
      rw [hl]
      simp only []
      rw [hfin _ q' rem' hq hrnd]
      exact hfinal _ hM
    · obtain ⟨q', rem', hl, hq, hrnd⟩ := core_plain (n + 1) r d k hf hk15 hd1 hle (by omega)
      simp only [hand, hpre, decide_False, Bool.false_and, if_false, Bool.false_eq_true]
      rw [hl]
      simp only []
      rw [hfin _ q' rem' hq hrnd]
      exact hfinal _ hM

theorem round_nat_div (T d : Nat) (hd : 0 < d) :
    round ((T : ℚ) / (d : ℚ)) = (((2 * T + d) / (2 * d) : Nat) : Int) := by
  rw [round_eq]
  have hd' : (d : ℚ) ≠ 0 := by exact_mod_cast (Nat.pos_iff_ne_zero.1 hd)
  have e : (T : ℚ) / (d : ℚ) + 1 / 2 = (((2 * T + d : Nat)) : ℚ) / (((2 * d : Nat)) : ℚ) := by
    push_cast
    field_simp
    ring
  rw [e, Rat.floor_natCast_div_natCast]
  norm_cast

/-- The reference quotient `a * 65536 / b`, rounded to the nearest integer with halves away
from zero, in terms of the magnitudes of the operands. -/
theorem roundAway_quot (a b : Int) (ha : isI32 a) (hb : isI32 b) (hb0 : b ≠ 0) :
    roundAway ((a : ℚ) * 65536 / (b : ℚ)) =
      if (0 ≤ a ↔ 0 ≤ b) then
        (((2 * (fix_abs a * 65536) + fix_abs b) / (2 * fix_abs b) : Nat) : Int)
      else -(((2 * (fix_abs a * 65536) + fix_abs b) / (2 * fix_abs b) : Nat) : Int) := by
  obtain ⟨ear, _⟩ := fix_abs_eq a ha
  obtain ⟨ebd, _⟩ := fix_abs_eq b hb
  have hd : 0 < fix_abs b := by split_ifs at ebd <;> omega
  have hround := round_nat_div (fix_abs a * 65536) (fix_abs b) hd
  have hM0 : fix_abs a = 0 → (2 * (fix_abs a * 65536) + fix_abs b) / (2 * fix_abs b) = 0 := by
    intro h0
    rw [h0, zero_mul, mul_zero, zero_add]
    exact Nat.div_eq_of_lt (by omega)
  have earq : ((fix_abs a : Nat) : ℚ) = if a < 0 then -(a : ℚ) else (a : ℚ) := by
    have := congrArg (fun z : Int => (z : ℚ)) ear
    simp only [Int.cast_natCast] at this
    rw [this]
    split_ifs <;> push_cast <;> rfl
  have ebdq : ((fix_abs b : Nat) : ℚ) = if b < 0 then -(b : ℚ) else (b : ℚ) := by
    have := congrArg (fun z : Int => (z : ℚ)) ebd
    simp only [Int.cast_natCast] at this
    rw [this]
    split_ifs <;> push_cast <;> rfl
  have hbq : (b : ℚ) ≠ 0 := by exact_mod_cast hb0
  have ecast : ((fix_abs a * 65536 : Nat) : ℚ) = (fix_abs a : ℚ) * 65536 := by
    push_cast
    ring
  rw [ecast] at hround
  generalize (2 * (fix_abs a * 65536) + fix_abs b) / (2 * fix_abs b) = M at *
  unfold roundAway
  by_cases ha0 : a < 0 <;> by_cases hb1 : b < 0
  · -- both negative: the quotient is positive
    rw [if_pos ha0] at earq
    rw [if_pos hb1] at ebdq
    have hq : (a : ℚ) * 65536 / (b : ℚ) = (fix_abs a : ℚ) * 65536 / (fix_abs b : ℚ) := by
      rw [earq, ebdq]; field_simp
    have hpos : (0 : ℚ) ≤ (a : ℚ) * 65536 / (b : ℚ) := by
      rw [hq]; positivity
    have hiff : (0 ≤ a ↔ 0 ≤ b) := by omega
    rw [if_pos hpos, if_pos hiff, hq, hround]
  · rw [if_pos ha0] at earq
    rw [if_neg hb1] at ebdq
    have hq : -((a : ℚ) * 65536 / (b : ℚ)) = (fix_abs a : ℚ) * 65536 / (fix_abs b : ℚ) := by
      rw [earq, ebdq]; field_simp
    have hneg : ¬ (0 : ℚ) ≤ (a : ℚ) * 65536 / (b : ℚ) := by
      have h1 : (a : ℚ) < 0 := by exact_mod_cast ha0
      have h2 : (0 : ℚ) < (b : ℚ) := by
        have : 0 < b := by omega
        exact_mod_cast this
      have : (a : ℚ) * 65536 / (b : ℚ) < 0 := div_neg_of_neg_of_pos (by linarith) h2
      linarith
    have hiff : ¬ (0 ≤ a ↔ 0 ≤ b) := by omega
    rw [if_neg hneg, if_neg hiff, hq, hround]
  · rw [if_neg ha0] at earq
    rw [if_pos hb1] at ebdq
    have hiff : ¬ (0 ≤ a ↔ 0 ≤ b) := by omega
    rw [if_neg hiff]
    by_cases hz : a = 0
    · have hfa : fix_abs a = 0 := by
        have : ((fix_abs a : Nat) : Int) = 0 := by rw [ear, if_neg ha0, hz]
        exact_mod_cast this
      rw [hM0 hfa, hz]
      simp
    · have hq : -((a : ℚ) * 65536 / (b : ℚ)) = (fix_abs a : ℚ) * 65536 / (fix_abs b : ℚ) := by
        rw [earq, ebdq, div_neg]
      have hneg : ¬ (0 : ℚ) ≤ (a : ℚ) * 65536 / (b : ℚ) := by
        have h1 : (0 : ℚ) < (a : ℚ) := by
          have : 0 < a := by omega
          exact_mod_cast this
        have h2 : (b : ℚ) < 0 := by exact_mod_cast hb1
        have : (a : ℚ) * 65536 / (b : ℚ) < 0 := div_neg_of_pos_of_neg (by linarith) h2
        linarith
      rw [if_neg hneg, hq, hround]
  · rw [if_neg ha0] at earq
    rw [if_neg hb1] at ebdq
    have hq : (a : ℚ) * 65536 / (b : ℚ) = (fix_abs a : ℚ) * 65536 / (fix_abs b : ℚ) := by
      rw [earq, ebdq]
    have hpos : (0 : ℚ) ≤ (a : ℚ) * 65536 / (b : ℚ) := by
      rw [hq]; positivity
    have hiff : (0 ≤ a ↔ 0 ≤ b) := by omega
    rw [if_pos hpos, if_pos hiff, hq, hround]

/-- C11: for 32-bit `a` and non-zero `b`, and any fuel of at least 34 steps, the software
`fix16_div` returns `a * 65536 / b` rounded to the nearest integer with halves away from
zero when that integer fits `[-2^31, 2^31 - 1]`, and the overflow sentinel `0x80000000`
otherwise. -/
theorem soft_div_spec (fuel : Nat) (hf : 34 ≤ fuel) (a b : Int) (ha : isI32 a) (hb : isI32 b)
    (hb0 : b ≠ 0) :
    Soft.fix16_div true fuel a b =
      some (if isI32 (roundAway ((a : ℚ) * 65536 / (b : ℚ)))
        then roundAway ((a : ℚ) * 65536 / (b : ℚ)) else fix16_overflow) := by
  rw [soft_div_eq fuel hf a b ha hb hb0, roundAway_quot a b ha hb hb0]
  generalize (2 * (fix_abs a * 65536) + fix_abs b) / (2 * fix_abs b) = M
  unfold isI32 fix16_overflow
  congr 1
  split_ifs <;> omega

theorem soft_div_spec_witness :
    Soft.fix16_div true 34 68 3000000 =
      some (if isI32 (roundAway (((68 : Int) : ℚ) * 65536 / ((3000000 : Int) : ℚ)))
        then roundAway (((68 : Int) : ℚ) * 65536 / ((3000000 : Int) : ℚ))
        else fix16_overflow) :=
  soft_div_spec 34 (le_refl _) 68 3000000 (by decide) (by decide) (by decide)

/-- C12: `fix16_div(a, 0)` is `fix16_minimum` in the hardware-division and in the
software-division variant, for every `a`, every rounding option and every fuel; the
hardware variant answers before any division is performed. -/
theorem div_by_zero (rounding : Bool) (fuel : Nat) (a : Int) :
    Hard.fix16_div rounding fuel a 0 = some fix16_minimum ∧
    Soft.fix16_div rounding fuel a 0 = some fix16_minimum := by
  constructor
  · simp [Hard.fix16_div]
  · simp [Soft.fix16_div]

/-- C13 (failing input): at `a = 68`, `b = 3000000` the exact quotient is `1.4854...`; the
software `fix16_div` returns `1`, the hardware-division variant returns `2`. -/
theorem hard_div_differs :
    isI32 68 ∧ isI32 3000000 ∧
    Soft.fix16_div true 34 68 3000000 = some 1 ∧
    Hard.fix16_div true 34 68 3000000 = some 2 := by
  decide

theorem sdiv_eq (fuel : Nat) (hf : 34 ≤ fuel) (a b : Int) (ha : isI32 a) (hb : isI32 b)
    (hb0 : b ≠ 0) :
    fix16_sdiv (Soft.fix16_div true fuel) a b =
      some (clamp (roundAway ((a : ℚ) * 65536 / (b : ℚ)))) := by
  unfold fix16_sdiv
  rw [soft_div_eq fuel hf a b ha hb hb0, roundAway_quot a b ha hb hb0]
  generalize (2 * (fix_abs a * 65536) + fix_abs b) / (2 * fix_abs b) = M
  have hsign : (decide (a ≥ 0) = decide (b ≥ 0)) ↔ (0 ≤ a ↔ 0 ≤ b) := by
    rw [decide_eq_decide]
  simp only [hsign]
  unfold clamp fix16_overflow fix16_maximum fix16_minimum
  by_cases hs : (0 ≤ a ↔ 0 ≤ b)
  · simp only [hs, if_true]
    split_ifs <;> first | rfl | contradiction | (congr 1; omega)
  · simp only [hs, if_false]
    split_ifs <;> first | rfl | contradiction | (congr 1; omega)

/-- C15: for 32-bit `a` and non-zero `b`, `fix16_sdiv` on the software `fix16_div` returns
`a * 65536 / b` rounded to the nearest integer, halves away from zero, then clamped to
`[fix16_minimum, fix16_maximum]`. -/
theorem soft_sdiv_clamp (fuel : Nat) (hf : 34 ≤ fuel) (a b : Int) (ha : isI32 a)
    (hb : isI32 b) (hb0 : b ≠ 0) :
    fix16_sdiv (Soft.fix16_div true fuel) a b =
      some (clamp (roundAway ((a : ℚ) * 65536 / (b : ℚ)))) :=
  sdiv_eq fuel hf a b ha hb hb0

theorem soft_sdiv_clamp_witness :
    fix16_sdiv (Soft.fix16_div true 34) 2147483647 (-32768) =
      some (clamp (roundAway (((2147483647 : Int) : ℚ) * 65536 / ((-32768 : Int) : ℚ)))) :=
  soft_sdiv_clamp 34 (le_refl _) 2147483647 (-32768) (by decide) (by decide) (by decide)

theorem wide_mul_isI32 (a b : Int) (ha : isI32 a) (hb : isI32 b) :
    isI32 (Wide.fix16_mul true a b) := by
  rw [wide_mul_rounding a b ha hb]
  generalize a * b = p
  unfold isI32 fix16_overflow
  split_ifs <;> omega

/-- C14 (counterexample): with raw `a = 2`, `b = 1` nothing overflows, `fix16_mul` rounds
`2 / 65536` to `0` and `fix16_div(0, 1)` is `0`, two units away from `a`. -/
theorem mul_div_roundtrip_fails :
    isI32 2 ∧ isI32 1 ∧ (1 : Int) ≠ 0 ∧
    Wide.fix16_mul true 2 1 ≠ fix16_overflow ∧
    Soft.fix16_div true 34 (Wide.fix16_mul true 2 1) 1 = some 0 ∧
    (0 : Int) ≠ fix16_overflow ∧ ¬ (|(0 : Int) - 2| ≤ 1) := by
  decide

theorem mul_div_error (fuel : Nat) (hf : 34 ≤ fuel) (a b : Int) (ha : isI32 a) (hb : isI32 b)
    (hb0 : b ≠ 0) (hm : Wide.fix16_mul true a b ≠ fix16_overflow) (r : Int)
    (hdiv : Soft.fix16_div true fuel (Wide.fix16_mul true a b) b = some r)
    (hr : r ≠ fix16_overflow) :
    2 * |b| * |r - a| ≤ 65536 + |b| := by
  have hmI := wide_mul_isI32 a b ha hb
  have herr := (wide_mul_error a b ha hb).1 (by
    by_contra hc
    exact hm ((wide_mul_error a b ha hb).2 hc))
  rw [soft_div_eq fuel hf _ b hmI hb hb0] at hdiv
  obtain ⟨em, _⟩ := fix_abs_eq _ hmI
  obtain ⟨eb, _⟩ := fix_abs_eq b hb
  generalize Wide.fix16_mul true a b = m at *
  have hd : 0 < fix_abs b := by split_ifs at eb <;> omega
  have h1 := Nat.div_mul_le_self (2 * (fix_abs m * 65536) + fix_abs b) (2 * fix_abs b)
  have h2 := Nat.lt_div_mul_add (a := 2 * (fix_abs m * 65536) + fix_abs b)
    (show 0 < 2 * fix_abs b by omega)
  generalize (2 * (fix_abs m * 65536) + fix_abs b) / (2 * fix_abs b) = M at *
  generalize fix_abs m = t at *
  generalize fix_abs b = d at *
  have h1' : (2 : Int) * ((M : Int) * (d : Int)) ≤ 2 * ((t : Int) * 65536) + d := by
    have : M * (2 * d) = 2 * (M * d) := by ring
    rw [this] at h1
    exact_mod_cast h1
  have h2' : 2 * ((t : Int) * 65536) + d < 2 * ((M : Int) * (d : Int)) + 2 * d := by
    have : M * (2 * d) = 2 * (M * d) := by ring
    rw [this] at h2
    exact_mod_cast h2
  have hdb : |b| = (d : Int) := by
    rw [eb]
    split_ifs with hneg
    · exact abs_of_neg hneg
    · exact abs_of_nonneg (by omega)
  have hkey : -(d : Int) ≤ 2 * (r * b - m * 65536) ∧ 2 * (r * b - m * 65536) ≤ d := by
    unfold fix16_overflow at hr hdiv
    simp only [Option.some.injEq] at hdiv
    by_cases hm0 : m < 0 <;> by_cases hb1 : b < 0
    · rw [if_pos hm0] at em
      rw [if_pos hb1] at eb
      have hiff : (0 ≤ m ↔ 0 ≤ b) := by omega
      rw [if_pos hiff] at hdiv
      split_ifs at hdiv
      · have hb' : b = -(d : Int) := by omega
        have hm' : m = -(t : Int) := by omega
        rw [← hdiv, hb', hm']
        constructor <;> nlinarith
      · exact absurd hdiv.symm hr
    · rw [if_pos hm0] at em
      rw [if_neg hb1] at eb
      have hiff : ¬ (0 ≤ m ↔ 0 ≤ b) := by omega
      rw [if_neg hiff] at hdiv
      split_ifs at hdiv
      · have hm' : m = -(t : Int) := by omega
        rw [← hdiv, ← eb, hm']
        constructor <;> nlinarith
      · exact absurd hdiv.symm hr
    · rw [if_neg hm0] at em
      rw [if_pos hb1] at eb
      have hiff : ¬ (0 ≤ m ↔ 0 ≤ b) := by omega
      rw [if_neg hiff] at hdiv
      split_ifs at hdiv
      · have hb' : b = -(d : Int) := by omega
        rw [← hdiv, hb', ← em]
        constructor <;> nlinarith
      · exact absurd hdiv.symm hr
    · rw [if_neg hm0] at em
      rw [if_neg hb1] at eb
      have hiff : (0 ≤ m ↔ 0 ≤ b) := by omega
      rw [if_pos hiff] at hdiv
      split_ifs at hdiv
      · rw [← hdiv, ← eb, ← em]
        constructor <;> nlinarith
      · exact absurd hdiv.symm hr
  have hab : 2 * |b| * |r - a| = |2 * ((r - a) * b)| := by
    rw [abs_mul, abs_mul, abs_of_pos (show (0 : Int) < 2 by norm_num)]
    ring
  rw [hab, hdb, abs_le]
  have hexp : (r - a) * b = r * b - a * b := by ring
  rw [hexp]
  constructor <;> linarith [hkey.1, hkey.2, herr.1, herr.2]

/-- C14 (amended): when neither the 64-bit `fix16_mul(a, b)` nor the following software
`fix16_div` by the non-zero `b` returns the overflow sentinel, the round trip `r` satisfies
`2 * |b| * |r - a| ≤ 65536 + |b|`, that is `|r - a| ≤ 32768 / |b| + 1 / 2`; so it is within
one unit of `a` whenever `|b| ≥ 21846`. -/
theorem mul_div_roundtrip (fuel : Nat) (hf : 34 ≤ fuel) (a b : Int) (ha : isI32 a)
    (hb : isI32 b) (hb0 : b ≠ 0) (hm : Wide.fix16_mul true a b ≠ fix16_overflow) (r : Int)
    (hdiv : Soft.fix16_div true fuel (Wide.fix16_mul true a b) b = some r)
    (hr : r ≠ fix16_overflow) :
    2 * |b| * |r - a| ≤ 65536 + |b| ∧ (21846 ≤ |b| → |r - a| ≤ 1) := by
  have h := mul_div_error fuel hf a b ha hb hb0 hm r hdiv hr
  refine ⟨h, fun hbig => ?_⟩
  by_contra hc
  have h2 : 2 ≤ |r - a| := by omega
  nlinarith [abs_nonneg b, abs_nonneg (r - a)]

theorem mul_div_roundtrip_witness :
    2 * |(1 : Int)| * |(0 : Int) - 2| ≤ 65536 + |(1 : Int)| ∧
    (21846 ≤ |(1 : Int)| → |(0 : Int) - 2| ≤ 1) :=
  mul_div_roundtrip 34 (le_refl _) 2 1 (by decide) (by decide) (by decide) (by decide) 0
    (by decide) (by decide)

/-! ## Square root -/

theorem seek_some (n : Nat) : ∀ (bit num : Nat), bit < 4 ^ n →
    ∃ b, Sqrt.seek (n + 1) bit num = some b := by
  induction n with
  | zero =>
    intro bit num hb
    have : bit = 0 := by simpa using hb
    subst this
    exact ⟨0, by simp [Sqrt.seek]⟩
  | succ n ih =>
    intro bit num hb
    rw [Sqrt.seek]
    split_ifs with h
    · exact ih (bit >>> 2) num (by
        rw [Nat.shiftRight_eq_div_pow]
        rw [pow_succ] at hb
        omega)
    · exact ⟨bit, rfl⟩

theorem digits_bound (R B0 : Nat) (hRB : R / 2 + B0 ≤ R) (n : Nat) :
    ∀ (num result bit : Nat), bit < 4 ^ n → bit ≤ B0 → result ≤ R →
    ∃ num' result', Sqrt.digits (n + 1) num result bit = some (num', result') ∧
      result' ≤ R := by
  induction n with
  | zero =>
    intro num result bit hb _ hr
    have : bit = 0 := by simpa using hb
    subst this
    exact ⟨num, result, by simp [Sqrt.digits], hr⟩
  | succ n ih =>
    intro num result bit hb hB hr
    have hb4 : bit >>> 2 < 4 ^ n := by
      rw [Nat.shiftRight_eq_div_pow]
      rw [pow_succ] at hb
      omega
    have hB4 : bit >>> 2 ≤ B0 := by
      rw [Nat.shiftRight_eq_div_pow]
      omega
    have hr2 : result >>> 1 ≤ R := by
      rw [Nat.shiftRight_eq_div_pow]
      omega
    have hr3 : ((result >>> 1) + bit) % 4294967296 ≤ R := by
      rw [Nat.shiftRight_eq_div_pow]
      have := Nat.mod_le (result / 2 ^ 1 + bit) 4294967296
      omega
    rw [Sqrt.digits]
    split_ifs with h0 h1
    · exact ih _ _ _ hb4 hB4 hr3
    · exact ih _ _ _ hb4 hB4 hr2
    · exact ⟨num, result, rfl, hr⟩

theorem seek_le (n : Nat) : ∀ (bit num : Nat), bit < 4 ^ n →
    ∃ b, Sqrt.seek (n + 1) bit num = some b ∧ b ≤ bit := by
  induction n with
  | zero =>
    intro bit num hb
    have : bit = 0 := by simpa using hb
    subst this
    exact ⟨0, by simp [Sqrt.seek], le_refl _⟩
  | succ n ih =>
    intro bit num hb
    rw [Sqrt.seek]
    have hle : bit >>> 2 ≤ bit := by
      rw [Nat.shiftRight_eq_div_pow]
      exact Nat.div_le_self _ _
    split_ifs with h
    · obtain ⟨b, hs, hb'⟩ := ih (bit >>> 2) num (by
        rw [Nat.shiftRight_eq_div_pow]
        rw [pow_succ] at hb
        omega)
      exact ⟨b, hs, le_trans hb' hle⟩
    · exact ⟨bit, rfl, le_refl _⟩

theorem seek_zero (n : Nat) : ∀ (bit : Nat), bit < 4 ^ n → Sqrt.seek (n + 1) bit 0 = some 0 := by
  induction n with
  | zero =>
    intro bit hb
    have : bit = 0 := by simpa using hb
    subst this
    simp [Sqrt.seek]
  | succ n ih =>
    intro bit hb
    rw [Sqrt.seek]
    split_ifs with h
    · exact ih (bit >>> 2) (by
        rw [Nat.shiftRight_eq_div_pow]
        rw [pow_succ] at hb
        omega)
    · have : bit = 0 := by omega
      rw [this]

theorem digits_zero (n : Nat) : ∀ (bit : Nat), bit < 4 ^ n → bit < 4294967296 →
    Sqrt.digits (n + 1) 0 0 bit = some (0, 0) := by
  induction n with
  | zero =>
    intro bit hb _
    have : bit = 0 := by simpa using hb
    subst this
    simp [Sqrt.digits]
  | succ n ih =>
    intro bit hb hb32
    rw [Sqrt.digits]
    have hb4 : bit >>> 2 < 4 ^ n := by
      rw [Nat.shiftRight_eq_div_pow]
      rw [pow_succ] at hb
      omega
    have hb5 : bit >>> 2 < 4294967296 := by
      rw [Nat.shiftRight_eq_div_pow]
      omega
    split_ifs with h0 h1
    · exfalso
      rw [Nat.zero_add, Nat.mod_eq_of_lt hb32] at h1
      omega
    · simpa using ih _ hb4 hb5
    · rfl

theorem digits_step (f num result bit : Nat) (hb : bit ≠ 0) :
    ∃ num' result', Sqrt.digits (f + 1) num result bit = Sqrt.digits f num' result' (bit >>> 2)
      ∧ result' ≤ result / 2 + bit := by
  rw [Sqrt.digits, if_pos hb]
  split_ifs with h1
  · refine ⟨_, _, rfl, ?_⟩
    rw [Nat.shiftRight_eq_div_pow]
    have := Nat.mod_le (result / 2 ^ 1 + bit) 4294967296
    omega
  · refine ⟨_, _, rfl, ?_⟩
    rw [Nat.shiftRight_eq_div_pow]
    omega

theorem four_pow_le (fuel : Nat) (hf : 20 ≤ fuel) : 4 ^ 17 ≤ 4 ^ (fuel - 3) :=
  Nat.pow_le_pow_right (by norm_num) (by omega)

/-- The second round of digits, started at `bit = 1 << 14`, ends with a result below
`2^30 + 2^14` whatever the 32-bit state it starts from. -/
theorem digits_low (fuel : Nat) (hf : 20 ≤ fuel) (num result : Nat)
    (hres : result < 4294967296) :
    ∃ num' result', Sqrt.digits fuel num result 16384 = some (num', result') ∧
      result' ≤ 1073754112 := by
  obtain ⟨f, rfl⟩ : ∃ f, fuel = f + 3 := ⟨fuel - 3, by omega⟩
  have e1 : 16384 >>> 2 = 4096 := by decide
  have e2 : 4096 >>> 2 = 1024 := by decide
  obtain ⟨n1, r1, h1, hr1⟩ := digits_step (f + 2) num result 16384 (by norm_num)
  rw [e1] at h1
  obtain ⟨n2, r2, h2, hr2⟩ := digits_step (f + 1) n1 r1 4096 (by norm_num)
  rw [e2] at h2
  have hpow := four_pow_le (f + 3) hf
  simp only [Nat.add_sub_cancel] at hpow
  obtain ⟨n3, r3, h3, hr3⟩ := digits_bound 1073754112 1024 (by norm_num) f n2 r2
    1024 (by norm_num at hpow ⊢; omega) (by norm_num) (by omega)
  exact ⟨n3, r3, by rw [h1, h2, h3], hr3⟩

theorem sqrt_zero (fuel : Nat) (hf : 20 ≤ fuel) : fix16_sqrt true fuel 0 = some 0 := by
  obtain ⟨f, rfl⟩ : ∃ f, fuel = f + 1 := ⟨fuel - 1, by omega⟩
  have hpow : 4 ^ 19 ≤ 4 ^ f := Nat.pow_le_pow_right (by norm_num) (by omega)
  have h0 : fix_abs 0 = 0 := by decide
  have hbit : (if (0 : Nat) &&& 0xFFF00000 ≠ 0 then (1 <<< 30) % 4294967296
      else (1 <<< 18) % 4294967296) = 262144 := by decide
  have e14 : (1 <<< 14) % 4294967296 = 16384 := by decide
  have hs := seek_zero f 262144 (by norm_num at hpow ⊢; omega)
  have hd0 := digits_zero f 0 (by positivity) (by norm_num)
  have hd1 := digits_zero f 16384 (by norm_num at hpow ⊢; omega) (by norm_num)
  unfold fix16_sqrt
  simp only [h0, hbit, hs, hd0, e14]
  simp [hd1]
  decide

theorem sqrt_pair (fuel : Nat) (hf : 20 ≤ fuel) (x : Int) (hx : isI32 x) :
    ∃ m : Nat, m ≤ 2147483647 ∧
      fix16_sqrt true fuel x = some (if x < 0 then wrapI32 (-toI32 m) else toI32 m) ∧
      fix16_sqrt true fuel (-x) = some (if -x < 0 then wrapI32 (-toI32 m) else toI32 m) := by
  have habs : fix_abs (-x) = fix_abs x := by
    unfold isI32 at hx
    unfold fix_abs toU32
    split_ifs <;> omega
  obtain ⟨_, hnum⟩ := fix_abs_eq x hx
  obtain ⟨f, rfl⟩ : ∃ f, fuel = f + 1 := ⟨fuel - 1, by omega⟩
  have hpow : 4 ^ 19 ≤ 4 ^ f := Nat.pow_le_pow_right (by norm_num) (by omega)
  unfold fix16_sqrt
  simp only [habs]
  generalize fix_abs x = num at *
  have hbit : (if num &&& 0xFFF00000 ≠ 0 then (1 <<< 30) % 4294967296
      else (1 <<< 18) % 4294967296) ≤ 1073741824 := by
    split_ifs <;> decide
  generalize (if num &&& 0xFFF00000 ≠ 0 then (1 <<< 30) % 4294967296
      else (1 <<< 18) % 4294967296) = bit0 at *
  obtain ⟨b, hs, hb⟩ := seek_le f bit0 num (by norm_num at hpow ⊢; omega)
  obtain ⟨n1, r1, hd1, _⟩ := digits_bound 4294967296 1073741824 (by norm_num) f num 0 b
    (by norm_num at hpow ⊢; omega) (by omega) (by norm_num)
  have e14 : (1 <<< 14) % 4294967296 = 16384 := by decide
  simp only [hs, hd1, e14]
  generalize (if decide (n1 > 65535) = true then
      ((((n1 + 4294967296 - r1) % 4294967296) <<< 16) % 4294967296
        + 4294967296 - 0x8000) % 4294967296
    else (n1 <<< 16) % 4294967296) = n2
  have hr2 : (if decide (n1 > 65535) = true then
      ((r1 <<< 16) % 4294967296 + 0x8000) % 4294967296
    else (r1 <<< 16) % 4294967296) < 4294967296 := by
    split_ifs <;> exact Nat.mod_lt _ (by norm_num)
  generalize (if decide (n1 > 65535) = true then
      ((r1 <<< 16) % 4294967296 + 0x8000) % 4294967296
    else (r1 <<< 16) % 4294967296) = r2 at *
  obtain ⟨n3, r3, hd3, hr3⟩ := digits_low (f + 1) hf n2 r2 hr2
  simp only [hd3]
  refine ⟨if True ∧ n3 > r3 then (r3 + 1) % 4294967296 else r3, ?_, ?_, ?_⟩
  · split_ifs <;> omega
  · simp
  · simp

/-- C19: for every 32-bit `x` other than `fix16_minimum` and any fuel of at least 20 steps,
`fix16_sqrt` returns a value `r` at `x` and returns `-r` at `-x`. -/
theorem sqrt_neg (fuel : Nat) (hf : 20 ≤ fuel) (x : Int) (hx : isI32 x)
    (_hmin : x ≠ fix16_minimum) :
    ∃ r, fix16_sqrt true fuel x = some r ∧ fix16_sqrt true fuel (-x) = some (-r) := by
  by_cases h0 : x = 0
  · subst h0
    exact ⟨0, sqrt_zero fuel hf, by simpa using sqrt_zero fuel hf⟩
  · obtain ⟨m, hm, h1, h2⟩ := sqrt_pair fuel hf x hx
    rw [toI32_small m (by omega), wrapI32_eq_emod] at h1 h2
    by_cases hneg : x < 0
    · refine ⟨-(m : Int), ?_, ?_⟩
      · rw [h1, if_pos hneg]
        congr 1
        omega
      · rw [h2, if_neg (by omega), neg_neg]
    · refine ⟨(m : Int), ?_, ?_⟩
      · rw [h1, if_neg hneg]
      · rw [h2, if_pos (by omega)]
        congr 1
        omega

theorem sqrt_neg_witness :
    ∃ r, fix16_sqrt true 20 262144 = some r ∧ fix16_sqrt true 20 (-262144) = some (-r) :=
  sqrt_neg 20 (le_refl _) 262144 (by decide) (by decide)

/-- C18 (failing input): at `x = 1688878166` (`0x64AA2C56`), with `N = x * 65536`,
`fix16_sqrt` returns `r = 10520566` although `N > r^2 + r`, so the nearest integer to the
square root of `N` is `r + 1`; `fix16_sqrt(4.0) = 2.0` does hold. -/
theorem sqrt_not_nearest :
    (0 : Int) ≤ 1688878166 ∧ (1688878166 : Int) ≤ 0x7FFFFFFF ∧
    fix16_sqrt true 20 1688878166 = some 10520566 ∧
    ¬ ((1688878166 : Int) * 65536 ≤ 10520566 ^ 2 + 10520566) ∧
    fix16_sqrt true 20 0x00040000 = some 0x00020000 := by
  decide

/-- C16 (failing input): at `x = 1`, `y = -2^30` the software `fix16_mod` leaves its two
loops after three steps with `0x40000001`, the C99 remainder `x % y` of the hardware
branch is `1`. -/
theorem soft_mod_differs :
    isI32 1 ∧ isI32 (-1073741824) ∧ (-1073741824 : Int) ≠ 0 ∧
    Soft.fix16_mod 10 1 (-1073741824) = some 1073741825 ∧
    Hard.fix16_mod 1 (-1073741824) = some 1 := by
  decide

/-- C17 (failing input): at `x = -1`, `y = -2^30` the software `fix16_mod` returns
`0x7FFFFFFF`, a positive value for a negative dividend; `mod(-5.0, 3.0) = -2.0` does hold
in both branches. -/
theorem soft_mod_sign :
    isI32 (-1) ∧ isI32 (-1073741824) ∧ (-1073741824 : Int) ≠ 0 ∧
    Soft.fix16_mod 10 (-1) (-1073741824) = some 2147483647 ∧
    Hard.fix16_mod (-1) (-1073741824) = some (-1) ∧
    Soft.fix16_mod 10 (-327680) 196608 = some (-131072) ∧
    Hard.fix16_mod (-327680) 196608 = some (-131072) := by
  decide

/-! ## Linear interpolation -/

/-- Bounds of a weighted sum `a * (W - f) + b * f` with weights `0 ≤ f ≤ W`. -/
theorem lerp_bounds (W a b f : Int) (hf0 : 0 ≤ f) (hfW : f ≤ W) :
    min a b * W ≤ a * (W - f) + b * f ∧ a * (W - f) + b * f ≤ max a b * W := by
  have h1 : 0 ≤ W - f := by omega
  rcases le_total a b with hab | hab
  · rw [min_eq_left hab, max_eq_right hab]
    constructor <;> nlinarith
  · rw [min_eq_right hab, max_eq_left hab]
    constructor <;> nlinarith

theorem lerp_parts (W a b f : Int) (ha : isI32 a) (hb : isI32 b) (hf0 : 0 ≤ f) (hfW : f ≤ W)
    (hW : W ≤ 4294967296) :
    (-9223372036854775808 ≤ a * (W - f) ∧ a * (W - f) ≤ 9223372032559808512) ∧
    (-9223372036854775808 ≤ b * f ∧ b * f ≤ 9223372032559808512) := by
  unfold isI32 at ha hb
  have h1 : 0 ≤ W - f := by omega
  have h2 : W - f ≤ 4294967296 := by omega
  have h3 : f ≤ 4294967296 := by omega
  refine ⟨⟨?_, ?_⟩, ⟨?_, ?_⟩⟩ <;> nlinarith

theorem lerp8_eq (a b : Int) (f : Nat) (ha : isI32 a) (hb : isI32 b) (hf : f < 256) :
    fix16_lerp8 a b f = (a * (2 ^ 8 - (f : Int)) + b * (f : Int)) / 2 ^ 8 := by
  obtain ⟨hlo, hhi⟩ := lerp_bounds 256 a b f (by omega) (by omega)
  obtain ⟨⟨p1, p2⟩, ⟨p3, p4⟩⟩ := lerp_parts 256 a b f ha hb (by omega) (by omega) (by norm_num)
  have hmin : -2147483648 ≤ min a b := by unfold isI32 at ha hb; exact le_min ha.1 hb.1
  have hmax : max a b ≤ 2147483647 := by unfold isI32 at ha hb; exact max_le ha.2 hb.2
  have e8 : (1 <<< 8) % 4294967296 = 256 := by decide
  have e8' : Int.toNat 8 = 8 := by decide
  unfold fix16_lerp8 int64_mul_i32_i32 int64_add int64_shift int64_lo
  simp only [e8, toI32_small 256 (by norm_num), toI32_small f (by omega), Nat.cast_ofNat]
  rw [wrapI32_eq (256 - (f : Int)) (by omega) (by omega)]
  norm_num only
  generalize a * (256 - (f : Int)) = P1 at *
  generalize b * (f : Int) = P2 at *
  generalize min a b = lo at *
  generalize max a b = hi at *
  rw [wrapI64_eq P1 (by omega) (by omega), wrapI64_eq P2 (by omega) (by omega),
    wrapI64_eq (P1 + P2) (by omega) (by omega), if_neg (by norm_num), e8',
    Int.shiftRight_eq_div_pow]
  unfold toI32 toU64
  norm_num
  split_ifs <;> omega

theorem lerp16_eq (a b : Int) (f : Nat) (ha : isI32 a) (hb : isI32 b) (hf : f < 65536) :
    fix16_lerp16 a b f = (a * (2 ^ 16 - (f : Int)) + b * (f : Int)) / 2 ^ 16 := by
  obtain ⟨hlo, hhi⟩ := lerp_bounds 65536 a b f (by omega) (by omega)
  obtain ⟨⟨p1, p2⟩, ⟨p3, p4⟩⟩ := lerp_parts 65536 a b f ha hb (by omega) (by omega)
    (by norm_num)
  have hmin : -2147483648 ≤ min a b := by unfold isI32 at ha hb; exact le_min ha.1 hb.1
  have hmax : max a b ≤ 2147483647 := by unfold isI32 at ha hb; exact max_le ha.2 hb.2
  have e16 : (1 <<< 16) % 4294967296 = 65536 := by decide
  have e16' : Int.toNat 16 = 16 := by decide
  unfold fix16_lerp16 int64_mul_i32_i32 int64_add int64_shift int64_lo
  simp only [e16, toI32_small 65536 (by norm_num), toI32_small f (by omega), Nat.cast_ofNat]
  rw [wrapI32_eq (65536 - (f : Int)) (by omega) (by omega)]
  norm_num only
  generalize a * (65536 - (f : Int)) = P1 at *
  generalize b * (f : Int) = P2 at *
  generalize min a b = lo at *
  generalize max a b = hi at *
  rw [wrapI64_eq P1 (by omega) (by omega), wrapI64_eq P2 (by omega) (by omega),
    wrapI64_eq (P1 + P2) (by omega) (by omega), e16', Int.shiftRight_eq_div_pow]
  unfold toI32 toU64
  norm_num
  split_ifs <;> omega

theorem lerp32_eq (a b : Int) (f : Nat) (ha : isI32 a) (hb : isI32 b) (hf : f < 4294967296) :
    fix16_lerp32 a b f = (a * (2 ^ 32 - (f : Int)) + b * (f : Int)) / 2 ^ 32 := by
  obtain ⟨hlo, hhi⟩ := lerp_bounds 4294967296 a b f (by omega) (by omega)
  obtain ⟨⟨p1, p2⟩, ⟨p3, p4⟩⟩ := lerp_parts 4294967296 a b f ha hb (by omega) (by omega)
    (by norm_num)
  have hmin : -2147483648 ≤ min a b := by unfold isI32 at ha hb; exact le_min ha.1 hb.1
  have hmax : max a b ≤ 2147483647 := by unfold isI32 at ha hb; exact max_le ha.2 hb.2
  unfold fix16_lerp32
  by_cases h0 : f = 0
  · subst h0
    simp
  · rw [if_pos h0]
    unfold int64_mul_i64_i32 int64_add int64_sub int64_const int64_hi
    simp only [zero_mul, zero_add, one_mul, Nat.cast_zero, add_zero]
    rw [wrapI64_eq (f : Int) (by omega) (by omega), wrapI64_eq 4294967296 (by norm_num)
      (by norm_num), wrapI64_eq (4294967296 - (f : Int)) (by omega) (by omega)]
    norm_num only
    rw [mul_comm (4294967296 - (f : Int)) a, mul_comm (f : Int) b]
    generalize a * (4294967296 - (f : Int)) = P1 at *
    generalize b * (f : Int) = P2 at *
    generalize min a b = lo at *
    generalize max a b = hi at *
    rw [wrapI64_eq P1 (by omega) (by omega), wrapI64_eq P2 (by omega) (by omega),
      wrapI64_eq (P1 + P2) (by omega) (by omega), Int.shiftRight_eq_div_pow, wrapI32_eq_emod]
    norm_num
    omega

/-- C20: for `N` in `{8, 16, 32}`, 32-bit `a`, `b` and an `N`-bit fraction `f`,
`fix16_lerpN a b f` is `floor((a * (2^N - f) + b * f) / 2^N)`, the two products and their sum
fit 64 bits, the result lies between `min a b` and `max a b`, and `lerpN a b 0 = a`. -/
theorem lerp_spec (a b : Int) (f : Nat) (ha : isI32 a) (hb : isI32 b) :
    (f < 2 ^ 8 →
      fix16_lerp8 a b f = (a * (2 ^ 8 - (f : Int)) + b * (f : Int)) / 2 ^ 8 ∧
      isI64 (a * (2 ^ 8 - (f : Int))) ∧ isI64 (b * (f : Int)) ∧
      isI64 (a * (2 ^ 8 - (f : Int)) + b * (f : Int)) ∧
      min a b ≤ fix16_lerp8 a b f ∧ fix16_lerp8 a b f ≤ max a b) ∧
    (f < 2 ^ 16 →
      fix16_lerp16 a b f = (a * (2 ^ 16 - (f : Int)) + b * (f : Int)) / 2 ^ 16 ∧
      isI64 (a * (2 ^ 16 - (f : Int))) ∧ isI64 (b * (f : Int)) ∧
      isI64 (a * (2 ^ 16 - (f : Int)) + b * (f : Int)) ∧
      min a b ≤ fix16_lerp16 a b f ∧ fix16_lerp16 a b f ≤ max a b) ∧
    (f < 2 ^ 32 →
      fix16_lerp32 a b f = (a * (2 ^ 32 - (f : Int)) + b * (f : Int)) / 2 ^ 32 ∧
      isI64 (a * (2 ^ 32 - (f : Int))) ∧ isI64 (b * (f : Int)) ∧
      isI64 (a * (2 ^ 32 - (f : Int)) + b * (f : Int)) ∧
      min a b ≤ fix16_lerp32 a b f ∧ fix16_lerp32 a b f ≤ max a b) ∧
    fix16_lerp8 a b 0 = a ∧ fix16_lerp16 a b 0 = a ∧ fix16_lerp32 a b 0 = a := by
  have hmin : -2147483648 ≤ min a b := by unfold isI32 at ha hb; exact le_min ha.1 hb.1
  have hmax : max a b ≤ 2147483647 := by unfold isI32 at ha hb; exact max_le ha.2 hb.2
  have key : ∀ W : Int, 0 < W → W ≤ 4294967296 → (f : Int) < W →
      isI64 (a * (W - (f : Int))) ∧ isI64 (b * (f : Int)) ∧
      isI64 (a * (W - (f : Int)) + b * (f : Int)) ∧
      min a b * W ≤ a * (W - (f : Int)) + b * (f : Int) ∧
      a * (W - (f : Int)) + b * (f : Int) ≤ max a b * W := by
    intro W hW0 hW hfW
    obtain ⟨hlo, hhi⟩ := lerp_bounds W a b f (by omega) (by omega)
    obtain ⟨⟨p1, p2⟩, ⟨p3, p4⟩⟩ := lerp_parts W a b f ha hb (by omega) (by omega) hW
    have h1 : -9223372036854775808 ≤ min a b * W := by nlinarith
    have h2 : max a b * W ≤ 9223372032559808512 := by nlinarith
    unfold isI64
    refine ⟨⟨p1, by omega⟩, ⟨p3, by omega⟩, ⟨by omega, by omega⟩, hlo, hhi⟩
  refine ⟨fun hf => ?_, fun hf => ?_, fun hf => ?_, ?_, ?_, ?_⟩
  · obtain ⟨k1, k2, k3, k4, k5⟩ := key (2 ^ 8) (by norm_num) (by norm_num) (by
      norm_num at hf ⊢; omega)
    rw [lerp8_eq a b f ha hb (by norm_num at hf ⊢; omega)]
    refine ⟨rfl, k1, k2, k3, ?_, ?_⟩
    · exact Int.le_ediv_of_mul_le (by norm_num) k4
    · exact Int.ediv_le_of_le_mul (by norm_num) k5
  · obtain ⟨k1, k2, k3, k4, k5⟩ := key (2 ^ 16) (by norm_num) (by norm_num) (by
      norm_num at hf ⊢; omega)
    rw [lerp16_eq a b f ha hb (by norm_num at hf ⊢; omega)]
    refine ⟨rfl, k1, k2, k3, ?_, ?_⟩
    · exact Int.le_ediv_of_mul_le (by norm_num) k4
    · exact Int.ediv_le_of_le_mul (by norm_num) k5
  · obtain ⟨k1, k2, k3, k4, k5⟩ := key (2 ^ 32) (by norm_num) (by norm_num) (by
      norm_num at hf ⊢; omega)
    rw [lerp32_eq a b f ha hb (by norm_num at hf ⊢; omega)]
    refine ⟨rfl, k1, k2, k3, ?_, ?_⟩
    · exact Int.le_ediv_of_mul_le (by norm_num) k4
    · exact Int.ediv_le_of_le_mul (by norm_num) k5
  · rw [lerp8_eq a b 0 ha hb (by norm_num)]
    norm_num
  · rw [lerp16_eq a b 0 ha hb (by norm_num)]
    norm_num
  · rw [lerp32_eq a b 0 ha hb (by norm_num)]
    norm_num

theorem lerp_spec_witness :
    ((128 : Nat) < 2 ^ 8 →
      fix16_lerp8 100 200 128 =
        (100 * (2 ^ 8 - ((128 : Nat) : Int)) + 200 * ((128 : Nat) : Int)) / 2 ^ 8 ∧
      isI64 (100 * (2 ^ 8 - ((128 : Nat) : Int))) ∧ isI64 (200 * ((128 : Nat) : Int)) ∧
      isI64 (100 * (2 ^ 8 - ((128 : Nat) : Int)) + 200 * ((128 : Nat) : Int)) ∧
      min 100 200 ≤ fix16_lerp8 100 200 128 ∧ fix16_lerp8 100 200 128 ≤ max 100 200) ∧
    ((128 : Nat) < 2 ^ 16 →
      fix16_lerp16 100 200 128 =
        (100 * (2 ^ 16 - ((128 : Nat) : Int)) + 200 * ((128 : Nat) : Int)) / 2 ^ 16 ∧
      isI64 (100 * (2 ^ 16 - ((128 : Nat) : Int))) ∧ isI64 (200 * ((128 : Nat) : Int)) ∧
      isI64 (100 * (2 ^ 16 - ((128 : Nat) : Int)) + 200 * ((128 : Nat) : Int)) ∧
      min 100 200 ≤ fix16_lerp16 100 200 128 ∧ fix16_lerp16 100 200 128 ≤ max 100 200) ∧
    ((128 : Nat) < 2 ^ 32 →
      fix16_lerp32 100 200 128 =
        (100 * (2 ^ 32 - ((128 : Nat) : Int)) + 200 * ((128 : Nat) : Int)) / 2 ^ 32 ∧
      isI64 (100 * (2 ^ 32 - ((128 : Nat) : Int))) ∧ isI64 (200 * ((128 : Nat) : Int)) ∧
      isI64 (100 * (2 ^ 32 - ((128 : Nat) : Int)) + 200 * ((128 : Nat) : Int)) ∧
      min 100 200 ≤ fix16_lerp32 100 200 128 ∧ fix16_lerp32 100 200 128 ≤ max 100 200) ∧
    fix16_lerp8 100 200 0 = 100 ∧ fix16_lerp16 100 200 0 = 100 ∧
    fix16_lerp32 100 200 0 = 100 :=
  lerp_spec 100 200 128 (by decide) (by decide)

/-! ## The software remainder with a positive divisor -/

theorem subLoop_pos (n : Nat) : ∀ (x y : Int), 0 < y → 0 ≤ x → x ≤ 2147483647 →
    x < y * ((n : Int) + 1) → Soft.subLoop (n + 1) x y = some (x % y) := by
  induction n with
  | zero =>
    intro x y hy hx _ hlt
    have hlt' : x < y := by simpa using hlt
    rw [Soft.subLoop, if_neg (by omega), Int.emod_eq_of_lt hx hlt']
  | succ n ih =>
    intro x y hy hx hx31 hlt
    rw [Soft.subLoop]
    split_ifs with h
    · rw [wrapI32_eq (x - y) (by omega) (by omega)]
      rw [ih (x - y) y hy (by omega) (by omega) (by push_cast at hlt ⊢; nlinarith),
        Int.emod_sub_cancel]
    · rw [Int.emod_eq_of_lt hx (by omega)]

theorem addLoop_neg (n : Nat) : ∀ (x y : Int), 0 < y → y ≤ 2147483647 → x ≤ 0 →
    -2147483648 ≤ x → -x < y * ((n : Int) + 1) →
    Soft.addLoop (n + 1) x y = some (-((-x) % y)) := by
  induction n with
  | zero =>
    intro x y hy hy31 hx hx31 hlt
    have hlt' : -x < y := by simpa using hlt
    have hw : wrapI32 (-y) = -y := wrapI32_eq _ (by omega) (by omega)
    rw [Soft.addLoop, hw, if_neg (by omega), Int.emod_eq_of_lt (by omega) hlt', neg_neg]
  | succ n ih =>
    intro x y hy hy31 hx hx31 hlt
    have hw : wrapI32 (-y) = -y := wrapI32_eq _ (by omega) (by omega)
    rw [Soft.addLoop, hw]
    split_ifs with h
    · rw [wrapI32_eq (x + y) (by omega) (by omega)]
      rw [ih (x + y) y hy hy31 (by omega) (by omega) (by push_cast at hlt ⊢; nlinarith)]
      have e : -(x + y) = -x - y := by ring
      rw [e, Int.emod_sub_cancel]
    · rw [Int.emod_eq_of_lt (by omega) (by omega), neg_neg]

theorem neg_tmod_eq (a b : Int) : Int.tmod (-a) b = -(Int.tmod a b) := by
  rw [Int.tmod_def, Int.tmod_def, Int.neg_tdiv]
  ring

/-- For a positive divisor the software `fix16_mod` ends, given more fuel than `|x|`, and
returns the C99 remainder of the hardware branch. -/
theorem soft_mod_pos (fuel : Nat) (x y : Int) (hx : isI32 x) (hy : isI32 y) (hy0 : 0 < y)
    (hf : |x| < (fuel : Int)) :
    Soft.fix16_mod fuel x y = some (Int.tmod x y) ∧ Hard.fix16_mod x y = some (Int.tmod x y) := by
  unfold isI32 at hx hy
  obtain ⟨n, rfl⟩ : ∃ n, fuel = n + 1 := ⟨fuel - 1, by
    have := abs_nonneg x
    omega⟩
  have hfuel : |x| < y * ((n : Int) + 1) := by
    push_cast at hf
    nlinarith [abs_nonneg x]
  have htm : -2147483648 ≤ Int.tmod x y ∧ Int.tmod x y ≤ 2147483647 := by
    by_cases h0 : 0 ≤ x
    · have h1 := Int.tmod_nonneg y h0
      have h2 := Int.tmod_lt_of_pos x hy0
      omega
    · have e : Int.tmod x y = -(Int.tmod (-x) y) := by
        rw [neg_tmod_eq, neg_neg]
      have h1 := Int.tmod_nonneg y (show 0 ≤ -x by omega)
      have h2 := Int.tmod_lt_of_pos (-x) hy0
      omega
  constructor
  · unfold Soft.fix16_mod
    by_cases h0 : 0 ≤ x
    · rw [abs_of_nonneg h0] at hfuel
      rw [subLoop_pos n x y hy0 h0 hx.2 hfuel]
      simp only []
      have hr0 := Int.emod_nonneg x (show y ≠ 0 by omega)
      have hw : wrapI32 (-y) = -y := wrapI32_eq _ (by omega) (by omega)
      rw [Soft.addLoop, hw, if_neg (by omega), Int.tmod_eq_emod h0 (by omega)]
    · rw [abs_of_neg (by omega)] at hfuel
      rw [Soft.subLoop, if_neg (by omega)]
      simp only []
      rw [addLoop_neg n x y hy0 hy.2 (by omega) hx.1 hfuel]
      rw [← Int.tmod_eq_emod (show 0 ≤ -x by omega) (by omega), neg_tmod_eq, neg_neg]
  · unfold Hard.fix16_mod
    rw [if_neg (by omega), wrapI32_eq _ htm.1 htm.2]

/-! ## Assert-on-overflow product -/

/-- Two 32-bit words differ in their top bit exactly when one of them is below `2^31` and the
other is not. -/
theorem signbit_ne_iff (u l : Nat) (hu : u < 4294967296) (hl : l < 4294967296) :
    (u &&& 0x80000000 ≠ l &&& 0x80000000) ↔ ¬ (u < 2147483648 ↔ l < 2147483648) := by
  rw [and_signbit u hu, and_signbit l hl]
  split_ifs <;> simp [*]

/-- The value and the hook count of `fix16_amul_int32` for every pair of operands: the exact
product without a call when it lies in `(-2^31, 2^31)`, the sentinel with one call
otherwise, and so also for the product `-2^31`, which is a 32-bit value. -/
theorem amul_int32_cases (a b : Int) (ha : isI32 a) (hb : isI32 b) :
    fix16_amul_int32 a b =
      if -2147483648 < a * b ∧ a * b ≤ 2147483647 then (a * b, 0) else (fix16_overflow, 1) := by
  have hp := mul_bound a b ha hb
  unfold fix16_amul_int32 int64_mul_i32_i32 fix16_assert
  generalize a * b = p at hp ⊢
  rw [wrapI64_eq p (by omega) (by omega)]
  unfold int64_hi int64_lo toU64 fix16_overflow
  simp only []
  have e32 : ((2 ^ 32 : Nat) : Int) = 4294967296 := by norm_num
  rw [Int.shiftRight_eq_div_pow, e32, wrapI32_eq (p / 4294967296) (by omega) (by omega)]
  have hlo : (p % 18446744073709551616).toNat % 4294967296 = (p % 4294967296).toNat := by omega
  rw [hlo]
  obtain ⟨l, hl⟩ : ∃ l : Nat, (p % 4294967296).toNat = l := ⟨_, rfl⟩
  obtain ⟨q, hq⟩ : ∃ q : Int, p / 4294967296 = q := ⟨_, rfl⟩
  obtain ⟨u, hu⟩ : ∃ u : Nat, toU32 q = u := ⟨_, rfl⟩
  have hu2 : (u : Int) = q % 4294967296 := by rw [← hu]; unfold toU32; omega
  rw [hl, hq, hu]
  have hl2 : l < 4294967296 := by omega
  have hpq : p = q * 4294967296 + l := by omega
  rw [toI32_eq l hl2]
  simp only [signbit_ne_iff u l (by omega) hl2, Bool.false_eq_true, if_false]
  clear hl hq hu hlo e32
  split_ifs
  all_goals first | contradiction | (exfalso; omega) | (refine Prod.ext ?_ ?_ <;> simp only [] <;> omega)

/-- Claim C21, failing input: `fix16_amul_int32(0x80000000, 1)` has the exact product `-2^31`,
which lies in `[-2^31, 2^31 - 1]`, and still calls the failure hook once (and returns the
sentinel, here equal to the product). -/
theorem amul_int32_minimum :
    isI32 (-2147483648 * 1) ∧ fix16_amul_int32 (-2147483648) 1 = (-2147483648 * 1, 1) := by
  decide

/-! ## Quotient of a wide dividend -/

/-- Claim C22, failing input: for the dividend `A = 256 * 2^32 = 2^40` and the divisor 1,
`fix16_div_huge_int` returns 0 without a call of the failure hook, while the quotient
`A * 65536 / 1` is `2^56`: the left shift by 24 drops the set bit of `A`. -/
theorem div_huge_int_silent :
    fix16_div_huge_int 256 0 1 = (0, 0) ∧
      ¬ |(((fix16_div_huge_int 256 0 1).1 : Int) : ℚ)
          - ((256 * 4294967296 + 0 : Int) : ℚ) * 65536 / ((1 : Int) : ℚ)| < 1 := by
  have h : fix16_div_huge_int 256 0 1 = (0, 0) := by decide
  refine ⟨h, ?_⟩
  rw [h]
  norm_num

/-! ## Software remainder: a run that does not end -/

/-- The second loop of the software `fix16_mod` with the divisor `-2^30` never leaves the
four values `-2^31`, `2^30`, `0`, `-2^30`. -/
theorem addLoop_cycle (fuel : Nat) :
    Soft.addLoop fuel (-2147483648) (-1073741824) = none ∧
    Soft.addLoop fuel 1073741824 (-1073741824) = none ∧
    Soft.addLoop fuel 0 (-1073741824) = none ∧
    Soft.addLoop fuel (-1073741824) (-1073741824) = none := by
  induction fuel with
  | zero => exact ⟨rfl, rfl, rfl, rfl⟩
  | succ n ih =>
    obtain ⟨h1, h2, h3, h4⟩ := ih
    have e1 : wrapI32 (-(-1073741824 : Int)) = 1073741824 := by decide
    have e2 : wrapI32 (-2147483648 + -1073741824) = 1073741824 := by decide
    have e3 : wrapI32 (1073741824 + -1073741824) = 0 := by decide
    have e4 : wrapI32 (0 + -1073741824) = -1073741824 := by decide
    have e5 : wrapI32 (-1073741824 + -1073741824) = -2147483648 := by decide
    refine ⟨?_, ?_, ?_, ?_⟩
    · rw [Soft.addLoop, e1, if_pos (by decide), e2]; exact h2
    · rw [Soft.addLoop, e1, if_pos (by decide), e3]; exact h3
    · rw [Soft.addLoop, e1, if_pos (by decide), e4]; exact h4
    · rw [Soft.addLoop, e1, if_pos (by decide), e5]; exact h1

/-- Claim C24, failing input: the software `fix16_mod(0, -2^30)` does not end.  Its first loop
ends with `x_calc = -2^31`, and its second loop then repeats the values `-2^31`, `2^30`, `0`,
`-2^30` for ever, so no amount of fuel gives a result. -/
theorem soft_mod_loops (fuel : Nat) : Soft.fix16_mod fuel 0 (-1073741824) = none := by
  unfold Soft.fix16_mod
  match fuel with
  | 0 => rfl
  | 1 => rfl
  | 2 => rfl
  | n + 3 =>
    have hs : Soft.subLoop (n + 3) 0 (-1073741824) = some (-2147483648) := by
      have e1 : wrapI32 (0 - -1073741824) = 1073741824 := by decide
      have e2 : wrapI32 (1073741824 - -1073741824) = -2147483648 := by decide
      rw [Soft.subLoop, if_pos (by decide), e1, Soft.subLoop, if_pos (by decide), e2,
        Soft.subLoop, if_neg (by decide)]
    rw [hs]
    exact (addLoop_cycle (n + 3)).1

/-! ## Parsing a negatively signed numeral -/

/-- Claim C26, failing input: the text `-32768.5` (character codes 45 51 50 55 54 56 46 53)
is parsed to the positive value `0x7FFF8000`, that is `+32767.5`: the range check admits
the integer part 32768, the fraction is added to `0x80000000`, and the negation wraps. -/
theorem from_str_minus_positive :
    fix16_from_str (Soft.fix16_div true 64) [45, 51, 50, 55, 54, 56, 46, 53]
      = some 2147450880 := by
  decide


/-! ## Fractions of `2^32` -/

/-- Where `fract32_create` divides by zero: exactly at the numerator 0 with the denominator 1
(the divisor is `inDenominator - 1`); everywhere else it returns, and with
`inDenominator <= inNumerator` it returns `0xFFFFFFFF`. -/
theorem fract32_create_cases (n d : Nat) (hd : d < 4294967296) :
    (fract32_create n d = none ↔ (n = 0 ∧ d = 1)) ∧
      (d ≤ n → fract32_create n d = some 0xFFFFFFFF) := by
  unfold fract32_create
  constructor
  · by_cases h : d > n
    · rw [if_pos h, if_neg (by omega)]
      by_cases h1 : d = 1
      · subst h1
        have : n = 0 := by omega
        subst this
        simp
      · rw [if_neg (by omega)]
        constructor
        · intro hc; cases hc
        · intro hc; omega
    · rw [if_neg h]
      constructor
      · intro hc; cases hc
      · intro hc; omega
  · intro h
    rw [if_neg (by omega)]

/-- Claim C27, failing input: `fract32_create(0, 1)` takes the branch
`inDenominator > inNumerator` and divides `0xFFFFFFFF` by `inDenominator - 1 = 0`. -/
theorem fract32_create_zero_one : fract32_create 0 1 = none := by
  decide

/-! ## Hardware-divide variant: the result is within one unit -/

/-- The all-ones word shifted right by `k` is `2^(32-k) - 1`. -/
theorem shr_ones (k : Nat) (hk : k ≤ 32) : 0xFFFFFFFF >>> k = 2 ^ (32 - k) - 1 := by
  interval_cases k <;> decide

/-- The mask `~(0xFFFFFFFF >> k)` selects the top `k` bits: a word has none of them set exactly
when it is below `2^(32-k)`. -/
theorem and_high_mask (x k : Nat) (hx : x < 4294967296) (hk : k ≤ 32) :
    x &&& (0xFFFFFFFF ^^^ (0xFFFFFFFF >>> k)) = 0 ↔ x < 2 ^ (32 - k) := by
  have h1 : x &&& 0xFFFFFFFF = x :=
    Nat.and_pow_two_sub_one_of_lt_two_pow (n := 32) (by norm_num; exact hx)
  rw [Nat.and_xor_distrib_left, h1, shr_ones k hk, Nat.and_pow_two_sub_one_eq_mod,
    Nat.xor_eq_zero]
  constructor
  · intro h; rw [h]; exact Nat.mod_lt _ (by positivity)
  · intro h; exact (Nat.mod_eq_of_lt h).symm

/-- The test `!(x & 0xF0000000)` of `clz_fn`. -/
theorem and_top_nibble (x : Nat) (hx : x < 4294967296) :
    x &&& 0xF0000000 = 0 ↔ x < 268435456 := by
  have h := and_high_mask x 4 hx (by norm_num)
  have e : (0xFFFFFFFF ^^^ (0xFFFFFFFF >>> 4) : Nat) = 0xF0000000 := by decide
  rw [e] at h
  rw [h]; norm_num

/-- The test `divider & 0xFFF00000` of the kick-start. -/
theorem and_top_twelve (x : Nat) (hx : x < 4294967296) :
    x &&& 0xFFF00000 = 0 ↔ x < 1048576 := by
  have h := and_high_mask x 12 hx (by norm_num)
  have e : (0xFFFFFFFF ^^^ (0xFFFFFFFF >>> 12) : Nat) = 0xFFF00000 := by decide
  rw [e] at h
  rw [h]; norm_num

/-- The nibble loop of `clz_fn` ends with the word shifted left by `4 * j` bits, its top
nibble non-zero, and the count raised by `4 * j`. -/
theorem clzNibbles_spec (fuel : Nat) : ∀ x r : Nat, 0 < x → x < 4294967296 →
    268435456 ≤ x * 16 ^ fuel → r + 4 * fuel < 256 →
    ∃ j, j ≤ fuel ∧ Hard.clzNibbles (fuel + 1) x r = some (x * 16 ^ j, r + 4 * j) ∧
      268435456 ≤ x * 16 ^ j ∧ x * 16 ^ j < 4294967296 := by
  induction fuel with
  | zero =>
    intro x r hx0 hx h28 hr
    refine ⟨0, le_refl _, ?_, by simpa using h28, by simpa using hx⟩
    rw [Hard.clzNibbles, if_neg]
    · simp
    · rw [and_top_nibble x hx]; omega
  | succ n ih =>
    intro x r hx0 hx h28 hr
    by_cases h : x < 268435456
    · have hstep : Hard.clzNibbles (n + 1 + 1) x r
          = Hard.clzNibbles (n + 1) (x * 16) (r + 4) := by
        rw [Hard.clzNibbles, if_pos ((and_top_nibble x hx).2 h), Nat.shiftLeft_eq,
          Nat.mod_eq_of_lt (by omega), Nat.mod_eq_of_lt (by omega)]
      obtain ⟨j, hj, he, h1, h2⟩ := ih (x * 16) (r + 4) (by omega) (by omega)
        (by rw [pow_succ] at h28; linarith) (by omega)
      refine ⟨j + 1, by omega, ?_, ?_, ?_⟩
      · rw [hstep, he]
        congr 2
        · rw [pow_succ]; ring
        · ring
      · rw [pow_succ]; linarith
      · rw [pow_succ]; linarith
    · refine ⟨0, by omega, ?_, by simpa using h, by simpa using hx⟩
      rw [Hard.clzNibbles, if_neg]
      · simp
      · rw [and_top_nibble x hx]; omega

/-- The bit loop of `clz_fn` ends with the count raised by the `j` that brings the top set bit
to bit 31. -/
theorem clzBits_spec (fuel : Nat) : ∀ x r : Nat, 0 < x → x < 4294967296 →
    2147483648 ≤ x * 2 ^ fuel → r + fuel < 256 →
    ∃ j, j ≤ fuel ∧ Hard.clzBits (fuel + 1) x r = some (r + j) ∧
      2147483648 ≤ x * 2 ^ j ∧ x * 2 ^ j < 4294967296 := by
  induction fuel with
  | zero =>
    intro x r hx0 hx h28 hr
    refine ⟨0, le_refl _, ?_, by simpa using h28, by simpa using hx⟩
    rw [Hard.clzBits, if_neg]
    · simp
    · rw [and_signbit x hx]; rw [if_neg (by omega)]; norm_num
  | succ n ih =>
    intro x r hx0 hx h28 hr
    by_cases h : x < 2147483648
    · have hstep : Hard.clzBits (n + 1 + 1) x r = Hard.clzBits (n + 1) (x * 2) (r + 1) := by
        rw [Hard.clzBits, if_pos (by rw [and_signbit x hx, if_pos h]), Nat.shiftLeft_eq,
          Nat.mod_eq_of_lt (by omega), Nat.mod_eq_of_lt (by omega)]
      obtain ⟨j, hj, he, h1, h2⟩ := ih (x * 2) (r + 1) (by omega) (by omega)
        (by rw [pow_succ] at h28; linarith) (by omega)
      refine ⟨j + 1, by omega, ?_, ?_, ?_⟩
      · rw [hstep, he]
        congr 1
        ring
      · rw [pow_succ]; linarith
      · rw [pow_succ]; linarith
    · refine ⟨0, by omega, ?_, by simpa using h, by simpa using hx⟩
      rw [Hard.clzBits, if_neg]
      · simp
      · rw [and_signbit x hx]; rw [if_neg h]; norm_num

/-- `clz_fn` on a non-zero word: the count `c` of leading zeros, the shift that brings the
top set bit to bit 31. -/
theorem clz_spec (x : Nat) (hx0 : 0 < x) (hx : x < 4294967296) :
    ∃ c, Hard.clz_fn 32 x = some c ∧ c ≤ 31 ∧ 2147483648 ≤ x * 2 ^ c ∧
      x * 2 ^ c < 4294967296 := by
  obtain ⟨j, hj, he, h1, h2⟩ := clzNibbles_spec 31 x 0 hx0 hx
    (by have : (1 : Nat) * 16 ^ 31 ≤ x * 16 ^ 31 := Nat.mul_le_mul_right _ hx0
        norm_num at this ⊢; omega) (by norm_num)
  have hj7 : j ≤ 7 := by
    by_contra hc
    have h8 : 16 ^ 8 ≤ 16 ^ j := Nat.pow_le_pow_right (by norm_num) (by omega)
    have : x * 16 ^ 8 ≤ x * 16 ^ j := Nat.mul_le_mul_left _ h8
    norm_num at this
    omega
  obtain ⟨i, hi, hb, h3, h4⟩ := clzBits_spec 31 (x * 16 ^ j) (0 + 4 * j) (by omega) h2
    (by have : (1 : Nat) * 2 ^ 31 ≤ x * 16 ^ j * 2 ^ 31 := Nat.mul_le_mul_right _ (by omega)
        norm_num at this ⊢; omega) (by omega)
  have hi3 : i ≤ 3 := by
    by_contra hc
    have h8 : 2 ^ 4 ≤ 2 ^ i := Nat.pow_le_pow_right (by norm_num) (by omega)
    have : x * 16 ^ j * 2 ^ 4 ≤ x * 16 ^ j * 2 ^ i := Nat.mul_le_mul_left _ h8
    norm_num at this
    omega
  have hpow : x * 16 ^ j * 2 ^ i = x * 2 ^ (0 + 4 * j + i) := by
    have : (16 : Nat) ^ j = 2 ^ (4 * j) := by rw [pow_mul]; norm_num
    rw [this, mul_assoc, ← pow_add]; congr 2; omega
  refine ⟨0 + 4 * j + i, ?_, by omega, by rw [← hpow]; exact h3, by rw [← hpow]; exact h4⟩
  unfold Hard.clz_fn
  rw [if_neg (by omega), he]
  exact hb

/-- The loop that strips zero nibbles off the divider: it ends, and what it takes from
`bit_pos` it divides out of the divider exactly. -/
theorem strip_spec (fuel : Nat) : ∀ (d : Nat) (bp : Int), 0 < d → 0 ≤ bp → bp < 4 * fuel →
    ∃ (dv k : Nat), Hard.strip fuel d bp = some (dv, bp - k) ∧ 0 < dv ∧ (k : Int) ≤ bp ∧
      d = dv * 2 ^ k := by
  induction fuel with
  | zero => intro d bp _ h1 h2; omega
  | succ n ih =>
    intro d bp hd h1 h2
    by_cases h : d &&& 0xF = 0 ∧ bp ≥ 4
    · have hmod : d % 16 = 0 := by
        have := Nat.and_pow_two_sub_one_eq_mod d 4
        norm_num at this
        omega
      obtain ⟨dv, k, he, hdv, hk, hdk⟩ := ih (d >>> 4) (bp - 4)
        (by rw [Nat.shiftRight_eq_div_pow]; norm_num; omega) (by omega) (by omega)
      refine ⟨dv, k + 4, ?_, hdv, by push_cast; omega, ?_⟩
      · rw [Hard.strip, if_pos h, he]
        congr 2
        push_cast; ring
      · rw [Nat.shiftRight_eq_div_pow] at hdk
        rw [pow_add, ← mul_assoc, ← hdk]
        norm_num
        omega
    · refine ⟨d, 0, ?_, hd, by simpa using h1, by simp⟩
      rw [Hard.strip, if_neg h]
      simp

/-- The main loop of the hardware-divide `fix16_div`, entered with `bit_pos = m - 1`: it ends,
either by `return (fix16_overflow)` or with the quotient grown by
`remainder * 2^m / (2 * divider)`, a number below `2^32`. -/
theorem hard_main_spec (fuel : Nat) : ∀ (m dv rem q : Nat), 0 < dv → dv ≤ 2147483648 →
    rem < 4294967296 → m ≤ 18 → m + 1 ≤ fuel → (m = 0 → rem < 2 * dv) →
    q + rem * 2 ^ m / (2 * dv) < 18446744073709551616 →
    Hard.mainLoop fuel dv rem q ((m : Int) - 1) = some Hard.Exit.overflow ∨
      (Hard.mainLoop fuel dv rem q ((m : Int) - 1)
          = some (Hard.Exit.done (q + rem * 2 ^ m / (2 * dv))) ∧
        rem * 2 ^ m / (2 * dv) < 4294967296) := by
  induction fuel with
  | zero => intro m dv rem q _ _ _ _ h; omega
  | succ n ih =>
    intro m dv rem q hdv hdv2 hrem hm hfuel hm0 hq
    by_cases hc : rem ≠ 0 ∧ (m : Int) - 1 ≥ 0
    · obtain ⟨hr0, hm1⟩ := hc
      obtain ⟨c, hclz, hc31, hc1, hc2⟩ := clz_spec rem (by omega) hrem
      -- the shift and what is left of bit_pos
      obtain ⟨s, t, hs, hst, hsc⟩ : ∃ s t : Nat,
          (if (c : Int) > (m : Int) - 1 then (m : Int) - 1 else (c : Int)) = (s : Int) ∧
          s + t + 1 = m ∧ s ≤ c := by
        by_cases h : (c : Int) > (m : Int) - 1
        · exact ⟨m - 1, 0, by rw [if_pos h]; omega, by omega, by omega⟩
        · exact ⟨c, m - 1 - c, by rw [if_neg h], by omega, le_refl _⟩
      have hbp : (m : Int) - 1 - (s : Int) = (t : Int) := by omega
      have hrs : rem * 2 ^ s < 4294967296 :=
        lt_of_le_of_lt (Nat.mul_le_mul_left _ (Nat.pow_le_pow_right (by norm_num) hsc)) hc2
      obtain ⟨r1, hr1⟩ : ∃ r1, rem * 2 ^ s = r1 := ⟨_, rfl⟩
      have hmod : r1 % dv < dv := Nat.mod_lt _ hdv
      have hdm := Nat.div_add_mod r1 dv
      -- the quotient splits into this digit and the rest
      have hpow : rem * 2 ^ m = r1 * (2 * 2 ^ t) := by
        rw [← hr1, ← hst, pow_add, pow_add]; ring
      have hsplit : rem * 2 ^ m / (2 * dv)
          = r1 / dv * 2 ^ t + 2 * (r1 % dv) * 2 ^ t / (2 * dv) := by
        have e : rem * 2 ^ m = 2 * (r1 % dv) * 2 ^ t + (r1 / dv * 2 ^ t) * (2 * dv) := by
          rw [hpow]; nth_rewrite 1 [← hdm]; ring
        rw [e, Nat.add_mul_div_right _ _ (by omega : 0 < 2 * dv)]
        ring
      have hrest : 2 * (r1 % dv) * 2 ^ t / (2 * dv) < 2 ^ t := by
        rw [Nat.div_lt_iff_lt_mul (by omega : 0 < 2 * dv)]
        have : 2 * (r1 % dv) < 2 * dv := by omega
        calc 2 * (r1 % dv) * 2 ^ t < 2 * dv * 2 ^ t :=
              Nat.mul_lt_mul_of_pos_right this (by positivity)
          _ = 2 ^ t * (2 * dv) := by ring
      have hdiv32 : r1 / dv < 4294967296 :=
        lt_of_le_of_lt (Nat.div_le_self _ _) (by omega)
      have hq2 : q + (r1 / dv * 2 ^ t + 2 * (r1 % dv) * 2 ^ t / (2 * dv))
          < 18446744073709551616 := by rw [← hsplit]; exact hq
      have hstep : Hard.mainLoop (n + 1) dv rem q ((m : Int) - 1) =
          if r1 / dv &&& (0xFFFFFFFF ^^^ (0xFFFFFFFF >>> t)) ≠ 0 then some Hard.Exit.overflow
          else Hard.mainLoop n dv (2 * (r1 % dv)) (q + r1 / dv * 2 ^ t) ((t : Int) - 1) := by
        rw [Hard.mainLoop, if_pos ⟨hr0, hm1⟩, hclz]
        simp only [hs, hbp, Int.toNat_ofNat, Nat.shiftLeft_eq, hr1,
          Nat.mod_eq_of_lt (by omega : r1 < 4294967296), if_neg (by omega : ¬ dv = 0)]
        have hq64 : q + r1 / dv * 2 ^ t < 18446744073709551616 :=
          lt_of_le_of_lt (Nat.add_le_add_left (Nat.le_add_right _ _) q) hq2
        have hd64 : r1 / dv * 2 ^ t < 18446744073709551616 :=
          lt_of_le_of_lt (Nat.le_add_left _ q) hq64
        rw [Nat.mod_eq_of_lt (by omega : r1 % dv * 2 ^ 1 < 4294967296),
          Nat.mod_eq_of_lt hd64, Nat.mod_eq_of_lt hq64]
        congr 2
        ring
      rw [hstep]
      by_cases hov : r1 / dv &&& (0xFFFFFFFF ^^^ (0xFFFFFFFF >>> t)) ≠ 0
      · left; rw [if_pos hov]
      · rw [if_neg hov]
        have hlt : r1 / dv < 2 ^ (32 - t) :=
          (and_high_mask _ t hdiv32 (by omega)).1 (by simpa using hov)
        have hT : rem * 2 ^ m / (2 * dv) < 4294967296 := by
          rw [hsplit]
          have h1 : (r1 / dv + 1) * 2 ^ t ≤ 2 ^ (32 - t) * 2 ^ t :=
            Nat.mul_le_mul_right _ hlt
          rw [← pow_add, Nat.sub_add_cancel (by omega : t ≤ 32)] at h1
          have h2 : (r1 / dv + 1) * 2 ^ t = r1 / dv * 2 ^ t + 2 ^ t := by ring
          norm_num at h1
          omega
        rcases ih t dv (2 * (r1 % dv)) (q + r1 / dv * 2 ^ t) hdv hdv2 (by omega) (by omega)
          (by omega) (fun _ => by omega) (by rw [add_assoc, ← hsplit]; exact hq) with h | ⟨h, _⟩
        · left; exact h
        · right
          refine ⟨?_, hT⟩
          rw [h, hsplit, add_assoc]
    · right
      have hz : rem * 2 ^ m / (2 * dv) = 0 := by
        by_cases h0 : rem = 0
        · subst h0; simp
        · have hm00 : m = 0 := by
            by_contra hne
            exact hc ⟨h0, by omega⟩
          subst hm00
          rw [pow_zero, mul_one]
          exact Nat.div_eq_of_lt (hm0 rfl)
      rw [hz]
      refine ⟨?_, by norm_num⟩
      rw [Hard.mainLoop, if_neg hc]
      rfl

/-- The kick-start of the hardware-divide `fix16_div`: the estimate never exceeds the
remainder, and what the truncating shift of `quotient * divider` drops (`e` below) is all that
the estimate costs. -/
theorem kick_spec (r0 d : Nat) (hd : 1048576 ≤ d) (hd2 : d ≤ 2147483648)
    (hr0 : r0 ≤ 2147483648) :
    r0 / (d / 131072 + 1) * d / 131072 ≤ r0 ∧
    r0 / (d / 131072 + 1) * d + (r0 - r0 / (d / 131072 + 1) * d / 131072) * 131072
      = r0 * 131072 + r0 / (d / 131072 + 1) * d % 131072 ∧
    r0 / (d / 131072 + 1) < 268435456 := by
  obtain ⟨sd, hsd⟩ : ∃ sd, d / 131072 + 1 = sd := ⟨_, rfl⟩
  rw [hsd]
  obtain ⟨q0, hq0⟩ : ∃ q0, r0 / sd = q0 := ⟨_, rfl⟩
  rw [hq0]
  have h1 : q0 * sd ≤ r0 := by rw [← hq0]; exact Nat.div_mul_le_self _ _
  have h2 : d ≤ sd * 131072 := by omega
  have h3 : q0 * d ≤ q0 * (sd * 131072) := Nat.mul_le_mul_left _ h2
  have h4 : q0 * (sd * 131072) = q0 * sd * 131072 := by ring
  have h5 : q0 * 9 ≤ q0 * sd := Nat.mul_le_mul_left _ (by omega)
  generalize q0 * d = X at *
  generalize q0 * sd = Y at *
  omega

/-- The last steps of the hardware-divide `fix16_div` in numbers: a 17-bit-fraction quotient
`Q` of `r0 * 2^17 + e` by `d` with `e <= d`, incremented or not and halved, is within `d` of
`r0 * 65536` after multiplication by `d`. -/
theorem halve_bound (r0 d e Q Q1 : Nat) (hd : 1 ≤ d) (he : e ≤ d)
    (hQ : Q = (r0 * 131072 + e) / d) (hQ1 : Q1 = Q ∨ Q1 = Q + 1) :
    Q1 / 2 * d ≤ r0 * 65536 + d ∧ r0 * 65536 ≤ Q1 / 2 * d + d := by
  have h1 : Q * d ≤ r0 * 131072 + e := by rw [hQ]; exact Nat.div_mul_le_self _ _
  have h2 : r0 * 131072 + e < Q * d + d := by
    rw [hQ]
    have := Nat.lt_div_mul_add (a := r0 * 131072 + e) (b := d) (by omega)
    linarith
  obtain ⟨R, hR⟩ : ∃ R, Q1 / 2 = R := ⟨_, rfl⟩
  rw [hR]
  have h3 : 2 * R ≤ Q + 1 := by omega
  have h4 : Q ≤ 2 * R + 1 := by omega
  have h5 : 2 * R * d ≤ (Q + 1) * d := Nat.mul_le_mul_right _ h3
  have h6 : Q * d ≤ (2 * R + 1) * d := Nat.mul_le_mul_right _ h4
  have h7 : 2 * R * d = 2 * (R * d) := by ring
  have h8 : (Q + 1) * d = Q * d + d := by ring
  have h9 : (2 * R + 1) * d = 2 * (R * d) + d := by ring
  generalize Q * d = X at *
  generalize R * d = Y at *
  omega

/-- The sign applied to the magnitude `R` of the quotient keeps the bound: from
`|R * d - r0 * 65536| <= d` on the magnitudes to the signed operands. -/
theorem signed_quotient_bound (a b : Int) (r0 d R : Nat)
    (ear : (r0 : Int) = if a < 0 then -a else a) (ebd : (d : Int) = if b < 0 then -b else b)
    (hup : R * d ≤ r0 * 65536 + d) (hlo : r0 * 65536 ≤ R * d + d) :
    |(if (0 ≤ a ↔ 0 ≤ b) then (R : Int) else -(R : Int)) * b - a * 65536| ≤ |b| := by
  have hupZ : (R : Int) * (d : Int) ≤ (r0 : Int) * 65536 + d := by exact_mod_cast hup
  have hloZ : (r0 : Int) * 65536 ≤ (R : Int) * (d : Int) + d := by exact_mod_cast hlo
  generalize (R : Int) = Rz at *
  generalize (r0 : Int) = rz at *
  generalize (d : Int) = dz at *
  clear hup hlo
  rw [abs_le]
  by_cases ha0 : a < 0
  · rw [if_pos ha0] at ear
    have ea : a = -rz := by omega
    by_cases hb0 : b < 0
    · rw [if_pos hb0] at ebd
      have eb : b = -dz := by omega
      rw [if_pos (by omega), abs_of_neg hb0, ea, eb]
      constructor <;> linarith
    · rw [if_neg hb0] at ebd
      rw [if_neg (by omega), abs_of_nonneg (by omega), ea, ← ebd]
      constructor <;> linarith
  · rw [if_neg ha0] at ear
    by_cases hb0 : b < 0
    · rw [if_pos hb0] at ebd
      have eb : b = -dz := by omega
      rw [if_neg (by omega), abs_of_neg hb0, ← ear, eb]
      constructor <;> linarith
    · rw [if_neg hb0] at ebd
      rw [if_pos (by omega), abs_of_nonneg (by omega), ← ear, ← ebd]
      constructor <;> linarith

/-- The hardware-divide `fix16_div` ends for every non-zero divisor, and a result other than
the sentinel is within `|b|` of `a * 65536` after multiplication by `b`. -/
theorem hard_div_bound (rounding : Bool) (fuel : Nat) (hf : 19 ≤ fuel) (a b : Int)
    (ha : isI32 a) (hb : isI32 b) (hb0 : b ≠ 0) :
    ∃ r, Hard.fix16_div rounding fuel a b = some r ∧
      (r ≠ fix16_overflow → |r * b - a * 65536| ≤ |b|) := by
  obtain ⟨ear, hr⟩ := fix_abs_eq a ha
  obtain ⟨ebd, hd2⟩ := fix_abs_eq b hb
  have hsign := xor_signbit (toU32 a) (toU32 b) (toU32_lt a) (toU32_lt b)
  have eua := toU32_of_isI32 a ha
  have eub := toU32_of_isI32 b hb
  have hsign' : ((toU32 a ^^^ toU32 b) &&& 0x80000000 ≠ 0) ↔ ¬ (0 ≤ a ↔ 0 ≤ b) := by
    rw [hsign]
    unfold isI32 at ha hb
    split_ifs at eua eub <;> omega
  have hd1 : 1 ≤ fix_abs b := by
    split_ifs at ebd <;> omega
  unfold Hard.fix16_div
  simp only [hb0, if_false, hsign']
  generalize fix_abs a = r0 at *
  generalize fix_abs b = d at *
  clear hsign hsign' eua eub
  have hsd : ((d >>> 17) + 1) % 4294967296 = d / 131072 + 1 := by
    rw [Nat.shiftRight_eq_div_pow]; norm_num; omega
  simp only [hsd]
  rw [if_neg (by intro h; omega)]
  -- the kick-start
  obtain ⟨q0, rem, e, hq0, hrem, hrem32, hq0lt, hN, he, hkq⟩ : ∃ q0 rem e : Nat,
      (if decide (d &&& 4293918720 ≠ 0) = true then r0 / (d / 131072 + 1) else 0) = q0 ∧
      (if decide (d &&& 4293918720 ≠ 0) = true then
        (r0 + 4294967296 - (q0 * d % 18446744073709551616) >>> 17 % 4294967296) % 4294967296
        else r0) = rem ∧
      rem < 4294967296 ∧ q0 < 268435456 ∧ q0 * d + rem * 131072 = r0 * 131072 + e ∧ e ≤ d ∧
      (q0 = 0 ∨ 1048576 ≤ d) := by
    by_cases hk : d < 1048576
    · have hkick : decide (d &&& 4293918720 ≠ 0) = false := by
        rw [decide_eq_false_iff_not, not_not]
        exact (and_top_twelve d (by omega)).2 hk
      refine ⟨0, r0, 0, ?_, ?_, by omega, by omega, by omega, by omega, Or.inl rfl⟩
      · rw [hkick]; rfl
      · rw [hkick]; rfl
    · have hkick : decide (d &&& 4293918720 ≠ 0) = true := by
        rw [decide_eq_true_iff]
        intro h0
        exact hk ((and_top_twelve d (by omega)).1 h0)
      obtain ⟨h1, h2, h3⟩ := kick_spec r0 d (by omega) hd2 hr
      have hprod : r0 / (d / 131072 + 1) * d < 18446744073709551616 := by
        have := Nat.mul_le_mul (Nat.le_of_lt h3) hd2
        omega
      refine ⟨r0 / (d / 131072 + 1), r0 - r0 / (d / 131072 + 1) * d / 131072,
        r0 / (d / 131072 + 1) * d % 131072, ?_, ?_, by omega, h3, h2, by omega, Or.inr (by omega)⟩
      · rw [hkick]; rfl
      · rw [hkick, if_pos rfl, Nat.mod_eq_of_lt hprod, Nat.shiftRight_eq_div_pow]
        norm_num
        omega
  simp only [hq0]
  rw [hrem]
  clear hq0 hrem
  -- the loop that strips the divider
  obtain ⟨dv, k, hstrip, hdv, hk, hdk⟩ := strip_spec fuel d 17 (by omega) (by norm_num)
    (by omega)
  rw [hstrip]
  simp only []
  have hk17 : k ≤ 17 := by omega
  have hbp : (17 : Int) - (k : Int) = ((18 - k : Nat) : Int) - 1 := by omega
  have hdvd : dv ≤ d := by
    rw [hdk]; exact Nat.le_mul_of_pos_right _ (by positivity)
  have hT : rem * 2 ^ (18 - k) / (2 * dv) = rem * 131072 / d := by
    have e1 : rem * 2 ^ (18 - k) = rem * 2 ^ (17 - k) * 2 := by
      rw [show 18 - k = (17 - k) + 1 by omega, pow_succ]; ring
    have e2 : rem * 131072 = rem * 2 ^ (17 - k) * 2 ^ k := by
      rw [mul_assoc, ← pow_add, show 17 - k + k = 17 by omega]
      norm_num
    rw [e1, e2, hdk, mul_comm 2 dv, Nat.mul_div_mul_right _ _ (by norm_num),
      Nat.mul_div_mul_right _ _ (by positivity)]
  have hTle : rem * 131072 / d ≤ rem * 131072 := Nat.div_le_self _ _
  rw [hbp]
  rcases hard_main_spec fuel (18 - k) dv rem q0 hdv (by omega) hrem32 (by omega) (by omega)
    (by omega) (by rw [hT]; omega) with h | ⟨h, hT32⟩
  · rw [h]
    exact ⟨fix16_overflow, rfl, fun hne => absurd rfl hne⟩
  · rw [h, hT]
    rw [hT] at hT32
    simp only []
    -- the quotient with 17 fractional bits
    obtain ⟨Q, hQ⟩ : ∃ Q, q0 + rem * 131072 / d = Q := ⟨_, rfl⟩
    rw [hQ]
    have hQe : Q = (r0 * 131072 + e) / d := by
      rw [← hQ, ← hN, add_comm (q0 * d), Nat.add_mul_div_right _ _ (by omega : 0 < d)]
      exact add_comm _ _
    have hQ32 : Q < 4294967296 := by
      rcases hkq with h0 | hbig
      · omega
      · rw [hQe, Nat.div_lt_iff_lt_mul (by omega)]
        omega
    obtain ⟨Q1, hQ1, hQ1c⟩ : ∃ Q1, (if rounding = true then (Q + 1) % 18446744073709551616
        else Q) = Q1 ∧ (Q1 = Q ∨ Q1 = Q + 1) := by
      by_cases hro : rounding = true
      · exact ⟨Q + 1, by rw [if_pos hro]; omega, Or.inr rfl⟩
      · exact ⟨Q, by rw [if_neg hro], Or.inl rfl⟩
    rw [hQ1]
    obtain ⟨hup, hlo⟩ := halve_bound r0 d e Q Q1 hd1 he hQe hQ1c
    have hshift : Q1 >>> 1 = Q1 / 2 := by rw [Nat.shiftRight_eq_div_pow, pow_one]
    rw [hshift]
    obtain ⟨R, hR⟩ : ∃ R, Q1 / 2 = R := ⟨_, rfl⟩
    rw [hR] at hup hlo ⊢
    have hR31 : R ≤ 2147483648 := by omega
    rw [toI32_eq R (by omega)]
    unfold fix16_minimum fix16_overflow
    by_cases hbig : R < 2147483648
    · rw [if_pos hbig]
      have hw : wrapI32 (-(R : Int)) = -(R : Int) := wrapI32_eq _ (by omega) (by omega)
      simp only [hw, show ¬ ((R : Int) = -2147483648) by omega, if_false]
      have hfin := signed_quotient_bound a b r0 d R ear ebd hup hlo
      by_cases hs : (0 ≤ a ↔ 0 ≤ b)
      · rw [if_neg (by intro hc; exact hc hs)]
        rw [if_pos hs] at hfin
        exact ⟨(R : Int), rfl, fun _ => hfin⟩
      · rw [if_pos hs]
        rw [if_neg hs] at hfin
        exact ⟨-(R : Int), rfl, fun _ => hfin⟩
    · rw [if_neg hbig]
      have hRe : (R : Int) - 4294967296 = -2147483648 := by omega
      rw [hRe]
      refine ⟨-2147483648, ?_, fun hne => absurd rfl hne⟩
      split_ifs <;> rfl

/-- Claim C25: for every `a` and every non-zero `b` the hardware-division `fix16_div` returns
(19 units of fuel are enough, in both rounding builds), and when the result `r` is not
`0x80000000` it is within one unit of the exact quotient: `|r * b - a * 65536| <= |b|`. -/
theorem hard_div_within_one (rounding : Bool) (fuel : Nat) (hf : 19 ≤ fuel) (a b : Int)
    (ha : isI32 a) (hb : isI32 b) (hb0 : b ≠ 0) :
    ∃ r, Hard.fix16_div rounding fuel a b = some r ∧
      (r ≠ fix16_overflow → |r * b - a * 65536| ≤ |b|) :=
  hard_div_bound rounding fuel hf a b ha hb hb0

theorem hard_div_within_one_witness :
    ∃ r, Hard.fix16_div true 19 68 3000000 = some r ∧
      (r ≠ fix16_overflow → |r * 3000000 - 68 * 65536| ≤ |(3000000 : Int)|) :=
  hard_div_within_one true 19 (le_refl _) 68 3000000 (by decide) (by decide) (by decide)

/-! ## Decimal text: the round trip -/

/-- One round of `itoa_loop` that writes a digit. -/
theorem itoa_emit (n : Nat) (buf : List Nat) (scale value : Nat) (skip : Bool)
    (hs : scale ≠ 0) (hv : value / scale < 10)
    (he : skip = false ∨ value / scale ≠ 0 ∨ scale = 1) :
    Str.itoa_loop (n + 1) buf scale value skip
      = Str.itoa_loop n (buf ++ [48 + value / scale]) (scale / 10) (value % scale) false := by
  have hd : value / scale % 256 = value / scale := Nat.mod_eq_of_lt (by omega)
  have hcond : ((!skip) || decide (value / scale % 256 ≠ 0) || decide (scale = 1)) = true := by
    rw [hd]
    rcases he with h | h | h
    · simp [h]
    · simp [h]
    · simp [h]
  rw [Str.itoa_loop, if_pos hs]
  simp only [hd]
  rw [hd] at hcond
  rw [if_pos hcond, Nat.mod_eq_of_lt (by omega : 48 + value / scale < 256)]

/-- One round of `itoa_loop` that skips a leading zero. -/
theorem itoa_skip (n : Nat) (buf : List Nat) (scale value : Nat)
    (hs : scale ≠ 0) (hs1 : scale ≠ 1) (hv : value / scale = 0) :
    Str.itoa_loop (n + 1) buf scale value true
      = Str.itoa_loop n buf (scale / 10) value true := by
  rw [Str.itoa_loop, if_pos hs]
  simp [hv, hs1]

/-- The last round of `itoa_loop`: the scale has reached zero. -/
theorem itoa_done (n : Nat) (buf : List Nat) (value : Nat) (skip : Bool) :
    Str.itoa_loop (n + 1) buf 0 value skip = some buf := by
  rw [Str.itoa_loop, if_neg (by simp)]

/-- `itoa_loop` at the scale 1: the last digit. -/
theorem itoa_rest1 (n : Nat) (buf : List Nat) (value : Nat) (skip : Bool) (hv : value < 10) :
    Str.itoa_loop (n + 2) buf 1 value skip = some (buf ++ [48 + value]) := by
  rw [itoa_emit (n + 1) buf 1 value skip (by norm_num) (by omega) (Or.inr (Or.inr rfl)),
    show (1 : Nat) / 10 = 0 by norm_num, itoa_done, Nat.div_one]

/-- `itoa_loop` from the scale 10 without skipping: two digits. -/
theorem itoa_rest2 (n : Nat) (buf : List Nat) (value : Nat) (hv : value < 100) :
    Str.itoa_loop (n + 3) buf 10 value false
      = some (buf ++ [48 + value / 10, 48 + value % 10]) := by
  rw [itoa_emit (n + 2) buf 10 value false (by norm_num) (by omega) (Or.inl rfl),
    show (10 : Nat) / 10 = 1 by norm_num, itoa_rest1 n _ _ false (by omega)]
  simp only [List.append_assoc, List.singleton_append]

/-- `itoa_loop` from the scale 100 without skipping: three digits. -/
theorem itoa_rest3 (n : Nat) (buf : List Nat) (value : Nat) (hv : value < 1000) :
    Str.itoa_loop (n + 4) buf 100 value false
      = some (buf ++ [48 + value / 100, 48 + value / 10 % 10, 48 + value % 10]) := by
  rw [itoa_emit (n + 3) buf 100 value false (by norm_num) (by omega) (Or.inl rfl),
    show (100 : Nat) / 10 = 10 by norm_num, itoa_rest2 n _ _ (by omega)]
  simp only [List.append_assoc, List.singleton_append]
  rw [show value % 100 / 10 = value / 10 % 10 by omega,
    show value % 100 % 10 = value % 10 by omega]

/-- `itoa_loop` from the scale 1000 without skipping: four digits. -/
theorem itoa_rest4 (n : Nat) (buf : List Nat) (value : Nat) (hv : value < 10000) :
    Str.itoa_loop (n + 5) buf 1000 value false
      = some (buf ++ [48 + value / 1000, 48 + value / 100 % 10, 48 + value / 10 % 10,
          48 + value % 10]) := by
  rw [itoa_emit (n + 4) buf 1000 value false (by norm_num) (by omega) (Or.inl rfl),
    show (1000 : Nat) / 10 = 100 by norm_num, itoa_rest3 n _ _ (by omega)]
  simp only [List.append_assoc, List.singleton_append]
  rw [show value % 1000 / 100 = value / 100 % 10 by omega,
    show value % 1000 / 10 % 10 = value / 10 % 10 by omega,
    show value % 1000 % 10 = value % 10 by omega]

/-- `itoa_loop` without skipping writes the five decimal digits of a value below 100000. -/
theorem itoa_five (n : Nat) (buf : List Nat) (value : Nat) (hv : value < 100000) :
    Str.itoa_loop (n + 6) buf 10000 value false
      = some (buf ++ [48 + value / 10000, 48 + value / 1000 % 10, 48 + value / 100 % 10,
          48 + value / 10 % 10, 48 + value % 10]) := by
  rw [itoa_emit (n + 5) buf 10000 value false (by norm_num) (by omega) (Or.inl rfl),
    show (10000 : Nat) / 10 = 1000 by norm_num, itoa_rest4 n _ _ (by omega)]
  simp only [List.append_assoc, List.singleton_append]
  rw [show value % 10000 / 1000 = value / 1000 % 10 by omega,
    show value % 10000 / 100 % 10 = value / 100 % 10 by omega,
    show value % 10000 / 10 % 10 = value / 10 % 10 by omega,
    show value % 10000 % 10 = value % 10 by omega]

/-- A digit read by the integer loop of `fix16_from_str`. -/
theorem intLoop_digit (c : Nat) (buf : List Nat) (acc : Nat) (cnt : Int)
    (hc : 48 ≤ c ∧ c ≤ 57) (hacc : acc < 400000000) (hcnt : 0 ≤ cnt ∧ cnt < 100) :
    Str.intLoop (c :: buf) acc cnt = Str.intLoop buf (acc * 10 + (c - 48)) (cnt + 1) := by
  have hd : Str.isdigit c = true := by
    unfold Str.isdigit; rw [decide_eq_true_iff]; omega
  rw [Str.intLoop, if_pos hd, wrapI32_eq _ (by omega) (by omega)]
  congr 1
  unfold toU32
  omega

/-- The integer loop of `fix16_from_str` stops at a character that is not a digit. -/
theorem intLoop_stop (c : Nat) (buf : List Nat) (acc : Nat) (cnt : Int)
    (hc : ¬ (48 ≤ c ∧ c ≤ 57)) :
    Str.intLoop (c :: buf) acc cnt = (c :: buf, acc, cnt) := by
  have hd : ¬ Str.isdigit c = true := by
    unfold Str.isdigit; rw [decide_eq_true_iff]; omega
  rw [Str.intLoop, if_neg hd]

/-- The integer part written by `fix16_to_str` and read back by `fix16_from_str`: the text
starts with a digit, and the integer loop stops at the point with the value written and a
count of one to five digits. -/
theorem itoa_int_parse (n : Nat) (buf : List Nat) (I : Nat) (hI : I < 100000) :
    ∃ c0 tl, Str.itoa_loop (n + 6) buf 10000 I true = some (buf ++ c0 :: tl) ∧
      48 ≤ c0 ∧ c0 ≤ 57 ∧
      ∀ rest, ∃ cnt : Int, Str.intLoop (c0 :: tl ++ 46 :: rest) 0 0 = (46 :: rest, I, cnt) ∧
        1 ≤ cnt ∧ cnt ≤ 5 := by
  by_cases h5 : 10000 ≤ I
  · refine ⟨48 + I / 10000, [48 + I / 1000 % 10, 48 + I / 100 % 10, 48 + I / 10 % 10,
      48 + I % 10], ?_, by omega, by omega, fun rest => ⟨5, ?_, by norm_num, by norm_num⟩⟩
    · rw [itoa_emit (n + 5) buf 10000 I true (by norm_num) (by omega)
          (Or.inr (Or.inl (by omega))),
        show (10000 : Nat) / 10 = 1000 by norm_num, itoa_rest4 n _ _ (by omega)]
      simp only [List.append_assoc, List.singleton_append]
      rw [show I % 10000 / 1000 = I / 1000 % 10 by omega,
        show I % 10000 / 100 % 10 = I / 100 % 10 by omega,
        show I % 10000 / 10 % 10 = I / 10 % 10 by omega,
        show I % 10000 % 10 = I % 10 by omega]
    · simp only [List.cons_append, List.nil_append]
      rw [intLoop_digit _ _ _ _ (by omega) (by omega) (by omega),
        intLoop_digit _ _ _ _ (by omega) (by omega) (by omega),
        intLoop_digit _ _ _ _ (by omega) (by omega) (by omega),
        intLoop_digit _ _ _ _ (by omega) (by omega) (by omega),
        intLoop_digit _ _ _ _ (by omega) (by omega) (by omega),
        intLoop_stop _ _ _ _ (by omega)]
      refine Prod.ext rfl (Prod.ext ?_ ?_)
      · simp only []; omega
      · simp only []; norm_num
  · by_cases h4 : 1000 ≤ I
    · refine ⟨48 + I / 1000, [48 + I % 1000 / 100, 48 + I % 1000 / 10 % 10,
        48 + I % 1000 % 10], ?_, by omega, by omega,
        fun rest => ⟨4, ?_, by norm_num, by norm_num⟩⟩
      · rw [itoa_skip (n + 5) buf 10000 I (by norm_num) (by norm_num) (by omega),
          show (10000 : Nat) / 10 = 1000 by norm_num,
          itoa_emit (n + 4) buf 1000 I true (by norm_num) (by omega)
            (Or.inr (Or.inl (by omega))),
          show (1000 : Nat) / 10 = 100 by norm_num, itoa_rest3 n _ _ (by omega)]
        simp only [List.append_assoc, List.singleton_append]
      · simp only [List.cons_append, List.nil_append]
        rw [intLoop_digit _ _ _ _ (by omega) (by omega) (by omega),
          intLoop_digit _ _ _ _ (by omega) (by omega) (by omega),
          intLoop_digit _ _ _ _ (by omega) (by omega) (by omega),
          intLoop_digit _ _ _ _ (by omega) (by omega) (by omega),
          intLoop_stop _ _ _ _ (by omega)]
        refine Prod.ext rfl (Prod.ext ?_ ?_)
        · simp only []; omega
        · simp only []; norm_num
    · by_cases h3 : 100 ≤ I
      · refine ⟨48 + I / 100, [48 + I % 100 / 10, 48 + I % 100 % 10], ?_, by omega, by omega,
          fun rest => ⟨3, ?_, by norm_num, by norm_num⟩⟩
        · rw [itoa_skip (n + 5) buf 10000 I (by norm_num) (by norm_num) (by omega),
            show (10000 : Nat) / 10 = 1000 by norm_num,
            itoa_skip (n + 4) buf 1000 I (by norm_num) (by norm_num) (by omega),
            show (1000 : Nat) / 10 = 100 by norm_num,
            itoa_emit (n + 3) buf 100 I true (by norm_num) (by omega)
              (Or.inr (Or.inl (by omega))),
            show (100 : Nat) / 10 = 10 by norm_num, itoa_rest2 n _ _ (by omega)]
          simp only [List.append_assoc, List.singleton_append]
        · simp only [List.cons_append, List.nil_append]
          rw [intLoop_digit _ _ _ _ (by omega) (by omega) (by omega),
            intLoop_digit _ _ _ _ (by omega) (by omega) (by omega),
            intLoop_digit _ _ _ _ (by omega) (by omega) (by omega),
            intLoop_stop _ _ _ _ (by omega)]
          refine Prod.ext rfl (Prod.ext ?_ ?_)
          · simp only []; omega
          · simp only []; norm_num
      · by_cases h2 : 10 ≤ I
        · refine ⟨48 + I / 10, [48 + I % 10], ?_, by omega, by omega,
            fun rest => ⟨2, ?_, by norm_num, by norm_num⟩⟩
          · rw [itoa_skip (n + 5) buf 10000 I (by norm_num) (by norm_num) (by omega),
              show (10000 : Nat) / 10 = 1000 by norm_num,
              itoa_skip (n + 4) buf 1000 I (by norm_num) (by norm_num) (by omega),
              show (1000 : Nat) / 10 = 100 by norm_num,
              itoa_skip (n + 3) buf 100 I (by norm_num) (by norm_num) (by omega),
              show (100 : Nat) / 10 = 10 by norm_num,
              itoa_emit (n + 2) buf 10 I true (by norm_num) (by omega)
                (Or.inr (Or.inl (by omega))),
              show (10 : Nat) / 10 = 1 by norm_num, itoa_rest1 n _ _ false (by omega)]
            simp only [List.append_assoc, List.singleton_append]
          · simp only [List.cons_append, List.nil_append]
            rw [intLoop_digit _ _ _ _ (by omega) (by omega) (by omega),
              intLoop_digit _ _ _ _ (by omega) (by omega) (by omega),
              intLoop_stop _ _ _ _ (by omega)]
            refine Prod.ext rfl (Prod.ext ?_ ?_)
            · simp only []; omega
            · simp only []; norm_num
        · refine ⟨48 + I, [], ?_, by omega, by omega,
            fun rest => ⟨1, ?_, by norm_num, by norm_num⟩⟩
          · rw [itoa_skip (n + 5) buf 10000 I (by norm_num) (by norm_num) (by omega),
              show (10000 : Nat) / 10 = 1000 by norm_num,
              itoa_skip (n + 4) buf 1000 I (by norm_num) (by norm_num) (by omega),
              show (1000 : Nat) / 10 = 100 by norm_num,
              itoa_skip (n + 3) buf 100 I (by norm_num) (by norm_num) (by omega),
              show (100 : Nat) / 10 = 10 by norm_num,
              itoa_skip (n + 2) buf 10 I (by norm_num) (by norm_num) (by omega),
              show (10 : Nat) / 10 = 1 by norm_num, itoa_rest1 n _ _ true (by omega)]
          · simp only [List.cons_append, List.nil_append]
            rw [intLoop_digit _ _ _ _ (by omega) (by omega) (by omega),
              intLoop_stop _ _ _ _ (by omega)]
            refine Prod.ext rfl (Prod.ext ?_ ?_)
            · simp only []; omega
            · simp only []; norm_num

/-- The value `fix16_from_str` assembles from the integer part `I` and the fraction `f` of the
magnitude of `v`, with the sign of `v` applied, is `v`. -/
theorem from_str_value (v : Int) (U I f : Nat) (hv : -2147483648 ≤ v ∧ v ≤ 2147483647)
    (hUv : (U : Int) = if v < 0 then -v else v) (hUIf : U = I * 65536 + f) (hf : f < 65536) :
    (if decide (v < 0) = true
      then wrapI32 (-wrapI32 (toI32 (I <<< 16 % 4294967296) + (f : Int)))
      else wrapI32 (toI32 (I <<< 16 % 4294967296) + (f : Int))) = v := by
  have hI : I ≤ 32768 := by split_ifs at hUv <;> omega
  rw [Nat.shiftLeft_eq, show (2 : Nat) ^ 16 = 65536 by norm_num,
    Nat.mod_eq_of_lt (by omega : I * 65536 < 4294967296),
    toI32_eq (I * 65536) (by omega)]
  push_cast
  by_cases hneg : v < 0
  · rw [if_pos hneg] at hUv
    simp only [hneg, decide_True, if_true]
    by_cases hI2 : I * 65536 < 2147483648
    · rw [if_pos hI2, wrapI32_eq ((I : Int) * 65536 + (f : Int)) (by omega) (by omega),
        wrapI32_eq _ (by omega) (by omega)]
      omega
    · rw [if_neg hI2]
      have h1 : (I : Int) * 65536 - 4294967296 + (f : Int) = -2147483648 := by omega
      rw [h1]
      have h2 : wrapI32 (-wrapI32 (-2147483648)) = -2147483648 := by decide
      rw [h2]
      omega
  · rw [if_neg hneg] at hUv
    simp only [hneg, decide_False, Bool.false_eq_true, if_false]
    rw [if_pos (by omega), wrapI32_eq _ (by omega) (by omega)]
    omega

/-- A digit read by the fraction loop of `fix16_from_str`. -/
theorem fracLoop_digit (c : Nat) (buf : List Nat) (acc scale : Nat)
    (hc : 48 ≤ c ∧ c ≤ 57) (hs : scale < 100000) (hacc : acc < 400000000) :
    Str.fracLoop (c :: buf) acc scale = Str.fracLoop buf (acc * 10 + (c - 48)) (scale * 10) := by
  have hd : Str.isdigit c = true := by
    unfold Str.isdigit; rw [decide_eq_true_iff]; omega
  rw [Str.fracLoop, if_pos ⟨hd, hs⟩, Nat.mod_eq_of_lt (by omega : scale * 10 < 4294967296)]
  congr 1
  unfold toU32
  omega

/-- The five digits written for the decimal part are read back to the number they spell, with
the scale 100000. -/
theorem frac_parse (D : Nat) (hD : D < 100000) :
    Str.fracLoop [48 + D / 10000, 48 + D / 1000 % 10, 48 + D / 100 % 10, 48 + D / 10 % 10,
      48 + D % 10] 0 1 = ([], D, 100000) := by
  rw [fracLoop_digit _ _ _ _ (by omega) (by omega) (by omega),
    fracLoop_digit _ _ _ _ (by omega) (by omega) (by omega),
    fracLoop_digit _ _ _ _ (by omega) (by omega) (by omega),
    fracLoop_digit _ _ _ _ (by omega) (by omega) (by omega),
    fracLoop_digit _ _ _ _ (by omega) (by omega) (by omega)]
  rw [Str.fracLoop]
  refine Prod.ext rfl (Prod.ext ?_ ?_)
  · simp only []; omega
  · simp only []

/-- The loop that skips spaces stops at once at a character that is not a space. -/
theorem skipSpaces_cons (c : Nat) (buf : List Nat)
    (hc : ¬ (c = 32 ∨ c = 13 ∨ c = 10 ∨ c = 9 ∨ c = 11 ∨ c = 12)) :
    Str.skipSpaces (c :: buf) = c :: buf := by
  have hd : ¬ Str.isspace c = true := by
    unfold Str.isspace; rw [decide_eq_true_iff]; exact hc
  rw [Str.skipSpaces, if_neg hd]

/-- The decimal round trip for any `fix16_mul` and `fix16_div` that round to nearest on the
operands `fix16_to_str` and `fix16_from_str` pass: the text written with five decimals is
parsed back to the value. -/
theorem str_roundtrip (mul : Int → Int → Int) (div : Int → Int → Option Int) (fuel : Nat)
    (hfuel : 6 ≤ fuel)
    (hmul : ∀ f : Nat, f < 65536 →
      mul (f : Int) 100000 = (((f * 100000 + 32768) / 65536 : Nat) : Int))
    (hdiv : ∀ D : Nat, D < 100000 →
      div (D : Int) 100000 = some (((2 * (D * 65536) + 100000) / 200000 : Nat) : Int))
    (v : Int) (hv : isI32 v) :
    ∃ text len, fix16_to_str mul fuel v 5 = some (text, len) ∧
      fix16_from_str div text = some v := by
  unfold isI32 at hv
  obtain ⟨n, rfl⟩ : ∃ n, fuel = n + 6 := ⟨fuel - 6, by omega⟩
  obtain ⟨U, hU, hUv, hU31⟩ : ∃ U : Nat, (if v ≥ 0 then toU32 v else toU32 (-v)) = U ∧
      (U : Int) = (if v < 0 then -v else v) ∧ U ≤ 2147483648 := by
    refine ⟨_, rfl, ?_, ?_⟩ <;> unfold toU32 <;> split_ifs <;> omega
  have hscale : Str.scales.getD (toU32 5 &&& 7) 0 = 100000 := by decide
  have hI : U >>> 16 = U / 65536 := by rw [Nat.shiftRight_eq_div_pow]
  have hf : U &&& 0xFFFF = U % 65536 := Nat.and_pow_two_sub_one_eq_mod U 16
  obtain ⟨I, hIe⟩ : ∃ I, U / 65536 = I := ⟨_, rfl⟩
  obtain ⟨f, hfe⟩ : ∃ f, U % 65536 = f := ⟨_, rfl⟩
  have hf16 : f < 65536 := by omega
  have hI15 : I ≤ 32768 := by omega
  have hUIf : U = I * 65536 + f := by omega
  obtain ⟨D, hDe⟩ : ∃ D, (f * 100000 + 32768) / 65536 = D := ⟨_, rfl⟩
  have hD : D < 100000 := by omega
  have hback : (2 * (D * 65536) + 100000) / 200000 = f := by omega
  obtain ⟨buf0, hbuf0⟩ : ∃ buf0 : List Nat, (if v < 0 then [] ++ [45] else []) = buf0 :=
    ⟨_, rfl⟩
  obtain ⟨c0, tl, hit, hc0, hc0', hparse⟩ := itoa_int_parse n buf0 I (by omega)
  obtain ⟨cnt, hint, hcnt1, hcnt5⟩ := hparse [48 + D / 10000, 48 + D / 1000 % 10,
    48 + D / 100 % 10, 48 + D / 10 % 10, 48 + D % 10]
  refine ⟨buf0 ++ c0 :: tl ++ [46] ++ [48 + D / 10000, 48 + D / 1000 % 10,
    48 + D / 100 % 10, 48 + D / 10 % 10, 48 + D % 10],
    (buf0 ++ c0 :: tl ++ [46] ++ [48 + D / 10000, 48 + D / 1000 % 10,
    48 + D / 100 % 10, 48 + D / 10 % 10, 48 + D % 10]).length % 4294967296, ?_, ?_⟩
  · have hm : toU32 (mul (f : Int) 100000) = D := by
      rw [hmul f hf16, hDe]; unfold toU32; omega
    have hcarry : decide (D ≥ 100000) = false := by
      rw [decide_eq_false_iff_not]; omega
    unfold fix16_to_str
    simp only [hU, hscale, hI, hf, hIe, hfe, hbuf0, toI32_small f (by omega),
      toI32_small 100000 (by norm_num), Nat.cast_ofNat, hm, hcarry, Bool.false_eq_true,
      if_false, hit]
    rw [if_pos (by norm_num), show (100000 : Nat) / 10 = 10000 by norm_num,
      itoa_five n _ D hD]
  · obtain ⟨fs, hfs⟩ : ∃ fs : List Nat, [48 + D / 10000, 48 + D / 1000 % 10,
        48 + D / 100 % 10, 48 + D / 10 % 10, 48 + D % 10] = fs := ⟨_, rfl⟩
    have hfrac := frac_parse D hD
    rw [hfs] at hfrac ⊢
    rw [show ([46, 48 + D / 10000, 48 + D / 1000 % 10, 48 + D / 100 % 10, 48 + D / 10 % 10,
      48 + D % 10] : List Nat) = 46 :: fs by rw [← hfs]] at hint
    have htext : buf0 ++ c0 :: tl ++ [46] ++ fs = buf0 ++ c0 :: (tl ++ 46 :: fs) := by simp
    rw [htext]
    rw [List.cons_append] at hint
    obtain ⟨rest, hrest⟩ : ∃ rest : List Nat, tl ++ 46 :: fs = rest := ⟨_, rfl⟩
    rw [hrest] at hint ⊢
    have key : Str.skipSpaces (buf0 ++ c0 :: rest) = buf0 ++ c0 :: rest ∧
        decide ((buf0 ++ c0 :: rest).headD 0 = 45) = decide (v < 0) ∧
        (if (buf0 ++ c0 :: rest).headD 0 = 43 ∨ (buf0 ++ c0 :: rest).headD 0 = 45
          then (buf0 ++ c0 :: rest).tail else buf0 ++ c0 :: rest) = c0 :: rest := by
      by_cases hneg : v < 0
      · rw [if_pos hneg] at hbuf0
        subst hbuf0
        simp only [List.nil_append, List.singleton_append, List.headD_cons, List.tail_cons]
        refine ⟨skipSpaces_cons _ _ (by omega), ?_, ?_⟩
        · simp [hneg]
        · simp
      · rw [if_neg hneg] at hbuf0
        subst hbuf0
        simp only [List.nil_append, List.headD_cons]
        refine ⟨skipSpaces_cons _ _ (by omega), ?_, ?_⟩
        · have : ¬ c0 = 45 := by omega
          simp [hneg, this]
        · rw [if_neg (by omega)]
    obtain ⟨k1, k2, k3⟩ := key
    unfold fix16_from_str
    simp only [k1, k2, k3, hint]
    have hchk : ¬ (cnt = 0 ∨ cnt > 5 ∨ I > 32768 ∨ (!decide (v < 0)) = true ∧ I > 32767) := by
      intro h
      rcases h with h | h | h | ⟨h1, h2⟩
      · omega
      · omega
      · omega
      · simp only [Bool.not_eq_true', decide_eq_false_iff_not] at h1
        rw [if_neg h1] at hUv
        omega
    rw [if_neg hchk]
    simp only [List.headD_cons, List.tail_cons, true_or, if_true, hfrac,
      toI32_small D (by omega), toI32_small 100000 (by norm_num), Nat.cast_ofNat,
      hdiv D hD, hback, Str.garbage, Bool.false_eq_true, if_false]
    rw [from_str_value v U I f hv hUv hUIf hf16]

/-- The low word shifted right by 16 survives the conversions to `fix16_t` and back. -/
theorem toU32_toI32_shr (l : Nat) :
    toU32 (toI32 ((l % 4294967296) >>> 16)) = (l % 4294967296) / 65536 := by
  have e : (l % 4294967296) >>> 16 = (l % 4294967296) / 65536 := by
    rw [Nat.shiftRight_eq_div_pow]
  rw [e, toI32_small _ (by omega)]
  unfold toU32
  omega

/-- A multiple of `2^16` and a 16-bit value are combined by `|` as by `+`. -/
theorem or_high (a y : Nat) (hy : y < 65536) : (65536 * a) ||| y = 65536 * a + y := by
  have h := Nat.mul_add_lt_is_or (i := 16) (b := y) (by norm_num; exact hy) a
  norm_num at h
  exact h.symm

/-- The split 16x16 `fix16_mul` on the operands `fix16_to_str` passes for five decimals: the
fraction bits `f` times the scale 100000, rounded to nearest. -/
theorem split16_mul_scale (f : Nat) (hf : f < 65536) :
    Split16.fix16_mul true (f : Int) 100000 = (((f * 100000 + 32768) / 65536 : Nat) : Int) := by
  obtain ⟨B, hB1, hB2, hB3⟩ := low_half (f : Int)
  have hBf : B = f := by omega
  subst hBf
  have hD : toU32 100000 &&& 0xFFFF = 34464 := by decide
  have hA : (B : Int) / 65536 = 0 := by omega
  have hC : (100000 : Int) / 65536 = 1 := by norm_num
  have hD2 : toI32 34464 = 34464 := by decide
  unfold Split16.fix16_mul
  simp only [signed_shift_right_16, hB1, hD, hA, hC, hD2, toI32_small B (by omega), zero_mul,
    one_mul, zero_add, mul_zero]
  have e0 : wrapI32 0 = 0 := by decide
  have e1 : wrapI32 (B : Int) = B := wrapI32_eq _ (by omega) (by omega)
  have e2 : wrapI32 1 = 1 := by decide
  have hu : toU32 (B : Int) = B := by unfold toU32; omega
  have e3 : toU32 (B : Int) <<< 16 % 4294967296 = B * 65536 := by
    rw [hu, Nat.shiftLeft_eq]; norm_num; omega
  have e4 : B * 34464 % 4294967296 = B * 34464 := Nat.mod_eq_of_lt (by omega)
  have c1 : ((1 : Int) >>> (31 : Nat)) = 0 := by decide
  have c2 : ((1 : Int) >>> (15 : Nat)) = 0 := by decide
  have c3 : ((0 : Int) >>> (31 : Nat)) = 0 := by decide
  have c4 : ((0 : Int) >>> (15 : Nat)) = 0 := by decide
  have c5 : toU32 1 >>> 31 = 0 := by decide
  have c6 : toU32 0 >>> 31 = 0 := by decide
  have c7 : (0 : Int) ≠ fix16_overflow := by decide
  have s1 : toU32 (signed_shift_left 1 16) = 65536 * 1 := by decide
  have s0 : toU32 (signed_shift_left 0 16) = 65536 * 0 := by decide
  have sm : toU32 (signed_shift_left (-1) 16) = 65536 * 65535 := by decide
  have w0 : wrapI32 (1 - 1) = 0 := by decide
  have wm : wrapI32 (0 - 1) = -1 := by decide
  simp only [e0, e1, e2, e3, e4, zero_add, hA]
  have hx : B * 34464 + B * 65536 = B * 100000 := by ring
  rw [hx]
  have hlo2a : ∀ lo : Nat, lo < 32768 →
      ((lo + 4294967296 - 32768) % 4294967296 + 4294967296) % 4294967296
        = lo + 4294967296 - 32768 := by
    intro lo h
    rw [Nat.add_mod_right, Nat.mod_mod, Nat.mod_eq_of_lt (by omega)]
  have hlo2b : ∀ lo : Nat, 32768 ≤ lo → lo < 4294967296 →
      ((lo + 4294967296 - 32768) % 4294967296 + 4294967296) % 4294967296 = lo - 32768 := by
    intro lo h h2
    rw [Nat.add_mod_right, Nat.mod_mod,
      show lo + 4294967296 - 32768 = lo - 32768 + 4294967296 by omega, Nat.add_mod_right,
      Nat.mod_eq_of_lt (by omega)]
  by_cases hcarry : 4294967296 ≤ B * 100000
  · obtain ⟨lo, hlo⟩ : ∃ lo, B * 100000 % 4294967296 = lo := ⟨_, rfl⟩
    have hlo' : lo = B * 100000 - 4294967296 := by
      rw [← hlo, Nat.mod_eq_sub_mod hcarry, Nat.mod_eq_of_lt (by omega)]
    simp only [hlo]
    have hc : lo < B * 34464 := by omega
    simp only [hc, if_true, c1, c2, c5, c7, ne_eq, not_true_eq_false, if_false,
      not_false_eq_true, Nat.sub_zero]
    by_cases hborrow : lo < 32768
    · have h2 := hlo2a lo hborrow
      rw [if_pos (by omega), w0, s0, toU32_toI32_shr, or_high _ _ (by omega), h2,
        toI32_small _ (by omega), wrapI32_eq _ (by omega) (by omega)]
      omega
    · have h2 := hlo2b lo (by omega) (by omega)
      rw [if_neg (by omega), s1, toU32_toI32_shr, or_high _ _ (by omega), h2,
        toI32_small _ (by omega), wrapI32_eq _ (by omega) (by omega)]
      omega
  · obtain ⟨lo, hlo⟩ : ∃ lo, B * 100000 % 4294967296 = lo := ⟨_, rfl⟩
    have hlo' : lo = B * 100000 := by
      rw [← hlo, Nat.mod_eq_of_lt (by omega)]
    simp only [hlo]
    have hc : ¬ lo < B * 34464 := by omega
    simp only [hc, if_false, c3, c4, c6, c7, ne_eq, not_true_eq_false,
      not_false_eq_true, if_true, Nat.sub_zero]
    by_cases hborrow : lo < 32768
    · have hB0 : B = 0 := by omega
      subst hB0
      have hl0 : lo = 0 := by omega
      subst hl0
      decide
    · have h2 := hlo2b lo (by omega) (by omega)
      rw [if_neg (by omega), s0, toU32_toI32_shr, or_high _ _ (by omega), h2,
        toI32_small _ (by omega), wrapI32_eq _ (by omega) (by omega)]
      omega

/-- The software `fix16_div` on the operands `fix16_from_str` passes for five decimals. -/
theorem soft_div_scale (fuel : Nat) (hf : 34 ≤ fuel) (D : Nat) (hD : D < 100000) :
    Soft.fix16_div true fuel (D : Int) 100000
      = some (((2 * (D * 65536) + 100000) / 200000 : Nat) : Int) := by
  have h1 : fix_abs (D : Int) = D := by
    unfold fix_abs toU32; rw [if_neg (by omega)]; omega
  have h2 : fix_abs 100000 = 100000 := by decide
  rw [soft_div_eq fuel hf (D : Int) 100000 (by unfold isI32; omega) (by decide) (by norm_num),
    h1, h2, if_pos (by constructor <;> intro _ <;> omega), if_pos (by omega)]

/-- Claim C23: in the default build (`fix16_mul` split 16x16, software `fix16_div`, both
rounding) `fix16_to_str(v, buf, 5)` writes a text for every `fix16_t` value `v`, and
`fix16_from_str` applied to that text returns `v` exactly. -/
theorem str_round_trip (fuel : Nat) (hf : 34 ≤ fuel) (v : Int) (hv : isI32 v) :
    ∃ text len, fix16_to_str (Split16.fix16_mul true) fuel v 5 = some (text, len) ∧
      fix16_from_str (Soft.fix16_div true fuel) text = some v :=
  str_roundtrip (Split16.fix16_mul true) (Soft.fix16_div true fuel) fuel (by omega)
    split16_mul_scale (soft_div_scale fuel hf) v hv

theorem str_round_trip_witness :
    ∃ text len, fix16_to_str (Split16.fix16_mul true) 34 (-1) 5 = some (text, len) ∧
      fix16_from_str (Soft.fix16_div true 34) text = some (-1) :=
  str_round_trip 34 (le_refl _) (-1) (by decide)

/-- Without rounding (`FIXMATH_NO_ROUNDING`) the round trip loses the last bit: the value 1 is
written as `0.00001` and read back as 0. -/
theorem str_round_trip_truncating :
    fix16_to_str (Split16.fix16_mul false) 34 1 5 = some ([48, 46, 48, 48, 48, 48, 49], 7) ∧
      fix16_from_str (Soft.fix16_div false 34) [48, 46, 48, 48, 48, 48, 49] = some 0 := by
  decide

end Fixmath
